import Mathlib

/-!
# Buffer cache (`kernel/bio.c`) and physical page allocator (`kernel/kalloc.c`)

A shallow embedding of the two kernel components and the properties checked
against them.

* `Bio`: the pool `bcache.buf`, the bucket heads `hash_table[k].head` and the
  `prev`/`next` links between them are kept as an explicit pointer structure,
  because `bget` manipulates the links directly.
* `Kalloc`: the per-CPU free-list heads `kmems[i].freelist` and the `next`
  word stored at the start of every free page.

Spin locks (`bucket->lock`, `bcache.lock`, `kmem->lock`) are taken and released
inside one call and are free between calls, so a call-by-call semantics does
not carry them; the order in which one call of `bget` takes them is listed by
`bgetLocks`.  The sleep lock of a buffer outlives the call and is part of the
state.  `World` adds the disk behind the cache and the log of transfers, for
`bread` and `bwrite`.
-/

namespace Bio

/-- Number of hash buckets: `#define N_BUCKETS 13`. -/
def N_BUCKETS : Nat := 13

/-- A `struct buf *`: the null pointer, the address of `hash_table[k].head`, or
the address of `bcache.buf[i]`. -/
inductive Ptr where
  | null
  | head (k : Nat)
  | slot (i : Nat)
deriving DecidableEq, Repr

/-- The statement `x++` on a `uint` (32 bits): 4294967295 wraps to 0. -/
def uintInc (x : Nat) : Nat := (x + 1) % 2 ^ 32

/-- The statement `x--` on a `uint` (32 bits): 0 wraps to 4294967295. -/
def uintDec (x : Nat) : Nat := (x + 2 ^ 32 - 1) % 2 ^ 32

/-- The fields of `struct buf` (declared in `buf.h`) that `bio.c` touches.
`lock` is the sleep lock: `none` when free, `some pid` when held by process
`pid`.  `refcnt` is the `uint` of `buf.h`, a number below `2 ^ 32`: `++` and
`--` wrap (`uintInc`, `uintDec`). -/
structure Buf where
  valid : Nat := 0
  dev : Nat := 0
  blockno : Nat := 0
  lock : Option Nat := none
  refcnt : Nat := 0
  prev : Ptr := Ptr.null
  next : Ptr := Ptr.null
  tick : Nat := 0
  data : List Nat := []
deriving DecidableEq, Repr

/-- The two global objects of `bio.c`: `hash_table[k].head` for every bucket
and the pool `bcache.buf`. -/
structure Bcache where
  hash_table : List Buf
  buf : List Buf
deriving DecidableEq, Repr

/-- Read through a pointer; `none` is an invalid access (null or out of the
array). -/
def deref (s : Bcache) : Ptr → Option Buf
  | Ptr.null => none
  | Ptr.head k => s.hash_table[k]?
  | Ptr.slot i => s.buf[i]?

/-- Write through a pointer; `none` is an invalid access. -/
def store (s : Bcache) (p : Ptr) (b : Buf) : Option Bcache :=
  match p with
  | Ptr.null => none
  | Ptr.head k =>
    if k < s.hash_table.length then some { s with hash_table := s.hash_table.set k b } else none
  | Ptr.slot i =>
    if i < s.buf.length then some { s with buf := s.buf.set i b } else none

/-- Update of the pointed-to structure in place: `p->field = ...`. -/
def modify (s : Bcache) (p : Ptr) (f : Buf → Buf) : Option Bcache :=
  match deref s p with
  | none => none
  | some b => store s p (f b)

/-- Statically allocated, zero-filled memory for `NBUF` buffers and the
`N_BUCKETS` bucket heads, as the kernel image provides it before `binit`. -/
def zeroed (NBUF : Nat) : Bcache :=
  { hash_table := List.replicate N_BUCKETS {}, buf := List.replicate NBUF {} }

/-- The first loop of `binit`: every bucket head is linked to itself. -/
def initHeads : Nat → List Buf → List Buf
  | _, [] => []
  | i, h :: rest => { h with prev := Ptr.head i, next := Ptr.head i } :: initHeads (i + 1) rest

/-- `binit`: self-linked bucket heads; every pool buffer gets `tick = 0` and a
fresh (free) sleep lock. -/
def binit (s : Bcache) : Bcache :=
  { hash_table := initHeads 0 s.hash_table
    buf := s.buf.map (fun b => { b with tick := 0, lock := none }) }

/-- The state in which the cache starts serving calls. -/
def boot (NBUF : Nat) : Bcache := binit (zeroed NBUF)

/-- `replace_buffer`: fill in the identity of a cached block. -/
def replace_buffer (b : Buf) (dev blockno tick : Nat) : Buf :=
  { b with dev := dev, blockno := blockno, tick := tick, valid := 0, refcnt := 1 }

/-- `bucket_add(bucket, buffer)`: the four pointer assignments, in order. -/
def bucket_add (s : Bcache) (k : Nat) (p : Ptr) : Option Bcache :=
  match deref s (Ptr.head k) with
  | none => none
  | some h =>
    match modify s p (fun b => { b with next := h.next }) with
    | none => none
    | some s1 =>
      match deref s1 (Ptr.head k) with
      | none => none
      | some h1 =>
        match modify s1 h1.next (fun b => { b with prev := p }) with
        | none => none
        | some s2 =>
          match modify s2 (Ptr.head k) (fun b => { b with next := p }) with
          | none => none
          | some s3 => modify s3 p (fun b => { b with prev := Ptr.head k })

/-- The unlink step of `bget`: `victim->prev->next = victim->next;
victim->next->prev = victim->prev;`. -/
def unlink (s : Bcache) (v : Ptr) : Option Bcache :=
  match deref s v with
  | none => none
  | some b =>
    match modify s b.prev (fun x => { x with next := b.next }) with
    | none => none
    | some s1 =>
      match deref s1 v with
      | none => none
      | some b1 => modify s1 b1.next (fun x => { x with prev := b1.prev })

/-- Result of the lookup loop of `bget`. -/
inductive Look where
  | found (b : Ptr)
  | miss
  | fault
  | timeout
deriving DecidableEq, Repr

/-- The loop `for (b = bucket->head.next; b != &bucket->head; b = b->next)` of
`bget`, started at `b`; `fuel` bounds the number of iterations. -/
def lookup (s : Bcache) (k dev blockno : Nat) : Nat → Ptr → Look
  | 0, _ => Look.timeout
  | fuel + 1, b =>
    if b = Ptr.head k then Look.miss
    else
      match deref s b with
      | none => Look.fault
      | some x =>
        if x.dev ≠ dev ∨ x.blockno ≠ blockno then lookup s k dev blockno fuel x.next
        else Look.found b

/-- The victim loop of `bget` over `bcache.buf`, at index `i` with the victim
found so far. -/
def scanVictim (pool : List Buf) : List Buf → Nat → Option Nat → Option Nat
  | [], _, victim => victim
  | b :: rest, i, victim =>
    if b.refcnt ≠ 0 then scanVictim pool rest (i + 1) victim
    else
      match victim with
      | none => scanVictim pool rest (i + 1) (some i)
      | some v =>
        if (pool.getD v {}).tick > b.tick then scanVictim pool rest (i + 1) (some i)
        else scanVictim pool rest (i + 1) (some v)

/-- The victim (as a pool index) selected by `bget`, if any. -/
def findVictim (s : Bcache) : Option Nat := scanVictim s.buf s.buf 0 none

/-- How a call of `bget` ends. -/
inductive Outcome where
  | ret (s : Bcache) (b : Ptr)
  | sleeps (s : Bcache) (b : Ptr)
  | panic (msg : String)
  | fault
  | diverges
deriving DecidableEq, Repr

/-- `acquiresleep(&b->lock)` followed by `return b`: the caller takes the lock
when it is free and otherwise sleeps on it. -/
def acquiresleep (s : Bcache) (pid : Nat) (p : Ptr) : Outcome :=
  match deref s p with
  | none => Outcome.fault
  | some b =>
    match b.lock with
    | some _ => Outcome.sleeps s p
    | none =>
      match store s p { b with lock := some pid } with
      | none => Outcome.fault
      | some s1 => Outcome.ret s1 p

/-- The rebinding of the victim in `bget` (the three-way `if`). -/
def rebind (s : Bcache) (v bucketNo dev blockno ticks : Nat) : Option Bcache :=
  match s.buf[v]? with
  | none => none
  | some vb =>
    if vb.tick = 0 then
      match modify s (Ptr.slot v) (fun b => replace_buffer b dev blockno ticks) with
      | none => none
      | some s1 => bucket_add s1 bucketNo (Ptr.slot v)
    else if vb.blockno % N_BUCKETS ≠ bucketNo then
      match modify s (Ptr.slot v) (fun b => replace_buffer b dev blockno ticks) with
      | none => none
      | some s1 =>
        match unlink s1 (Ptr.slot v) with
        | none => none
        | some s2 => bucket_add s2 bucketNo (Ptr.slot v)
    else modify s (Ptr.slot v) (fun b => replace_buffer b dev blockno ticks)

/-- `bget(dev, blockno)` called by process `pid` while the global `ticks` has
the value `ticks`. -/
def bget (fuel : Nat) (s : Bcache) (pid dev blockno ticks : Nat) : Outcome :=
  let bucketNo := blockno % N_BUCKETS
  match deref s (Ptr.head bucketNo) with
  | none => Outcome.fault
  | some hd =>
    match lookup s bucketNo dev blockno fuel hd.next with
    | Look.timeout => Outcome.diverges
    | Look.fault => Outcome.fault
    | Look.found b =>
      match modify s b (fun x => { x with tick := ticks, refcnt := uintInc x.refcnt }) with
      | none => Outcome.fault
      | some s1 => acquiresleep s1 pid b
    | Look.miss =>
      match findVictim s with
      | none => Outcome.panic "bget: no buffers"
      | some v =>
        match rebind s v bucketNo dev blockno ticks with
        | none => Outcome.fault
        | some s1 => acquiresleep s1 pid (Ptr.slot v)

/-- How a call of `brelse`, `bpin` or `bunpin` ends. -/
inductive Effect where
  | ok (s : Bcache)
  | panic (msg : String)
  | fault
deriving DecidableEq, Repr

/-- `holdingsleep(&b->lock)`: the lock is held, and by the calling process. -/
def holdingsleep (b : Buf) (pid : Nat) : Bool := decide (b.lock = some pid)

/-- `brelse(b)` called by process `pid`. -/
def brelse (s : Bcache) (pid : Nat) (p : Ptr) : Effect :=
  match deref s p with
  | none => Effect.fault
  | some b =>
    if holdingsleep b pid = false then Effect.panic "brelse"
    else
      match store s p { b with lock := none, refcnt := uintDec b.refcnt } with
      | none => Effect.fault
      | some s1 => Effect.ok s1

/-- `bpin(b)`. -/
def bpin (s : Bcache) (p : Ptr) : Effect :=
  match modify s p (fun b => { b with refcnt := uintInc b.refcnt }) with
  | none => Effect.fault
  | some s1 => Effect.ok s1

/-- `bunpin(b)`. -/
def bunpin (s : Bcache) (p : Ptr) : Effect :=
  match modify s p (fun b => { b with refcnt := uintDec b.refcnt }) with
  | none => Effect.fault
  | some s1 => Effect.ok s1

/-- One call made by kernel code into the cache. -/
inductive Call where
  | bget (pid dev blockno ticks : Nat)
  | brelse (pid : Nat) (b : Ptr)
  | bpin (b : Ptr)
  | bunpin (b : Ptr)
deriving DecidableEq, Repr

/-- State after a call that returns to its caller; `none` when it does not
(panic, invalid access, endless loop, or the caller is put to sleep). -/
def step (fuel : Nat) (s : Bcache) : Call → Option Bcache
  | Call.bget pid dev blockno ticks =>
    match bget fuel s pid dev blockno ticks with
    | Outcome.ret s1 _ => some s1
    | _ => none
  | Call.brelse pid b =>
    match brelse s pid b with
    | Effect.ok s1 => some s1
    | _ => none
  | Call.bpin b =>
    match bpin s b with
    | Effect.ok s1 => some s1
    | _ => none
  | Call.bunpin b =>
    match bunpin s b with
    | Effect.ok s1 => some s1
    | _ => none

/-- A sequence of calls, each returning before the next is made. -/
def run (fuel : Nat) : Bcache → List Call → Option Bcache
  | s, [] => some s
  | s, c :: cs =>
    match step fuel s c with
    | none => none
    | some s1 => run fuel s1 cs

/-- Walk along `next` that stops at the head of bucket `k`: is `q` met within
`n` steps, before the head? -/
def reachesBefore (s : Bcache) (k : Nat) (q : Ptr) : Nat → Ptr → Bool
  | 0, _ => false
  | n + 1, p =>
    if p = Ptr.head k then false
    else if p = q then true
    else
      match deref s p with
      | none => false
      | some b => reachesBefore s k q n b.next

/-- Pool slot `i` is linked into the list of bucket `k`: following `next` from
`hash_table[k].head.next` meets it before coming back to the head. -/
def linkedIn (s : Bcache) (k i : Nat) : Bool :=
  match deref s (Ptr.head k) with
  | none => false
  | some h => reachesBefore s k (Ptr.slot i) (s.hash_table.length + s.buf.length) h.next

/-- What the victim loop holds after it has looked at the first `n` entries of
the pool: nothing if they are all in use, otherwise the first unused entry of
smallest `tick`. -/
def VictimUpTo (pool : List Buf) (n : Nat) : Option Nat → Prop
  | none => ∀ j b, j < n → pool[j]? = some b → b.refcnt ≠ 0
  | some v => v < n ∧ ∃ vb, pool[v]? = some vb ∧ vb.refcnt = 0 ∧
      ∀ j b, j < n → pool[j]? = some b → b.refcnt = 0 →
        vb.tick ≤ b.tick ∧ (b.tick = vb.tick → v ≤ j)

/-- The buffer at `p` carries the identity `(dev, blockno)`. -/
def hasId (s : Bcache) (dev blockno : Nat) (p : Ptr) : Bool :=
  match deref s p with
  | none => false
  | some x => decide (x.dev = dev) && decide (x.blockno = blockno)

/-- The buffers `ps`, in this order, are exactly what following `next` from `p`
visits before it arrives at the head of bucket `k`. -/
def isListFrom (s : Bcache) (k : Nat) : Ptr → List Ptr → Bool
  | p, [] => decide (p = Ptr.head k)
  | p, q :: qs =>
    decide (p = q) && decide (q ≠ Ptr.head k) &&
      (match deref s q with
       | none => false
       | some x => isListFrom s k x.next qs)

/-- The membership list of bucket `k` is the proper list `ps`. -/
def bucketList (s : Bcache) (k : Nat) (ps : List Ptr) : Bool :=
  match deref s (Ptr.head k) with
  | none => false
  | some hd => isListFrom s k hd.next ps

/-- The link fields that the unlink step of `bget` follows point at existing
buffers: `prev` and `next` of every pool buffer whose `tick` is not the
sentinel 0. -/
def LinksValid (s : Bcache) : Prop :=
  ∀ (i : Nat) (b : Buf), s.buf[i]? = some b → b.tick ≠ 0 →
    (deref s b.prev).isSome = true ∧ (deref s b.next).isSome = true

/-- Executable check of `LinksValid`. -/
def linksValidB (s : Bcache) : Bool :=
  s.buf.all (fun b => decide (b.tick = 0) ||
    ((deref s b.prev).isSome && (deref s b.next).isSome))

/-- The state carried by an outcome of `bget`, `d` when it carries none. -/
def Outcome.stateD : Outcome → Bcache → Bcache
  | Outcome.ret s _, _ => s
  | Outcome.sleeps s _, _ => s
  | _, d => d

/-! ### Concrete states and call sequences used below -/

/-- Pool of three: block (1,1) is held in slot 0 since tick 5, block (1,2) was
read at tick 3 into slot 1 and released, slot 2 was never used. -/
def exampleMixed : Bcache :=
  (run 2 (boot 3) [Call.bget 1 1 1 5, Call.bget 1 1 2 3, Call.brelse 1 (Ptr.slot 1)]).getD
    (boot 3)

/-- Pool of three: block (1,1) was read at tick 5 into slot 0 and released. -/
def exampleCached : Bcache :=
  (run 2 (boot 3) [Call.bget 1 1 1 5, Call.brelse 1 (Ptr.slot 0)]).getD (boot 3)

/-- Pool of three with every slot held: blocks (1,1), (1,2), (1,3). -/
def exampleFull : Bcache :=
  (run 2 (boot 3) [Call.bget 1 1 1 1, Call.bget 2 1 2 1, Call.bget 3 1 3 1]).getD (boot 3)

/-- Early boot with the default pool of 30: block 1 is read and released, then
block 2 is read, all before the first timer tick (`ticks == 0`). -/
def earlyBoot : List Call :=
  [Call.bget 1 1 1 0, Call.brelse 1 (Ptr.slot 0), Call.bget 1 1 2 0]

/-- A single process reading and releasing blocks of device 1 through a pool of
three slots; the first two reads happen before the first timer tick, the others
after it.  Blocks 0, 13, 26 hash to bucket 0, blocks 1, 14 to bucket 1 and
blocks 2, 15 to bucket 2.  Every `brelse` releases a buffer the process got
from `bget` and still holds. -/
def churn : List Call :=
  [Call.bget 1 1 1 0, Call.bget 1 1 14 0, Call.bget 1 1 0 1, Call.brelse 1 (Ptr.slot 0),
   Call.bget 1 1 1 1, Call.brelse 1 (Ptr.slot 0), Call.brelse 1 (Ptr.slot 1),
   Call.bget 1 1 13 1, Call.bget 1 1 26 1, Call.brelse 1 (Ptr.slot 1),
   Call.bget 1 1 2 1, Call.brelse 1 (Ptr.slot 2), Call.bget 1 1 15 1,
   Call.brelse 1 (Ptr.slot 0), Call.bget 1 1 1 1, Call.brelse 1 (Ptr.slot 1),
   Call.bget 1 1 14 1, Call.brelse 1 (Ptr.slot 2), Call.bget 1 1 0 1,
   Call.brelse 1 (Ptr.slot 1), Call.bget 1 1 13 1, Call.brelse 1 (Ptr.slot 1),
   Call.bget 1 1 1 1]

/-- Processes 2 to 28 each read one block of device 1 (all hashing to buckets
3 to 12) before the first timer tick and keep holding it: this occupies slots
0 to 26 of a pool of 30. -/
def holders : List Call :=
  (List.range 27).map (fun j => Call.bget (j + 2) 1 (3 + j + 3 * (j / 10)) 0)

/-- The sequence `churn` played by process 1 on the last three slots of a pool
of 30 whose other slots are held by `holders`. -/
def churn30 : List Call :=
  holders ++ churn.map (fun c =>
    match c with
    | Call.brelse pid (Ptr.slot i) => Call.brelse pid (Ptr.slot (i + 27))
    | other => other)

/-- Pool of 30 before the first timer tick: block (1,1) was read into slot 0
and released. -/
def exampleTick0 : Bcache :=
  (run 43 (boot 30) [Call.bget 1 1 1 0, Call.brelse 1 (Ptr.slot 0)]).getD (boot 30)

/-! ### Well-formed bucket lists -/

/-- The doubly linked list of bucket `k`, entered at `cur` with predecessor
`pv`: it runs through the pool slots `L` in this order and then arrives at
the bucket head; every `prev` points at the predecessor. -/
def dll (s : Bcache) (k : Nat) : Ptr → Ptr → List Nat → Prop
  | pv, cur, [] => cur = Ptr.head k ∧ ∃ h, s.hash_table[k]? = some h ∧ h.prev = pv
  | pv, cur, i :: L =>
    cur = Ptr.slot i ∧ ∃ b, s.buf[i]? = some b ∧ b.prev = pv ∧ dll s k (Ptr.slot i) b.next L

/-- The list of bucket `k` consists of the pool slots `L`. -/
def Bucket (s : Bcache) (k : Nat) (L : List Nat) : Prop :=
  ∃ h, s.hash_table[k]? = some h ∧ dll s k (Ptr.head k) h.next L

/-- The cache is well formed, with `Ls` the membership lists of the buckets:
every bucket is a proper doubly linked list, no slot is linked twice, a linked
slot sits in the bucket of its block number and has a non-zero `tick`, a slot
that is not linked has `tick == 0`, and two linked slots never carry the same
identity. -/
structure WF (s : Bcache) (Ls : List (List Nat)) : Prop where
  nheads : s.hash_table.length = N_BUCKETS
  nlists : Ls.length = N_BUCKETS
  buckets : ∀ k, k < N_BUCKETS → Bucket s k (Ls.getD k [])
  nodup : Ls.flatten.Nodup
  home : ∀ k i, i ∈ Ls.getD k [] →
    ∃ b, s.buf[i]? = some b ∧ b.blockno % N_BUCKETS = k ∧ b.tick ≠ 0
  unbound : ∀ i b, s.buf[i]? = some b → i ∉ Ls.flatten → b.tick = 0
  uniq : ∀ i j bi bj, i ∈ Ls.flatten → j ∈ Ls.flatten → s.buf[i]? = some bi →
    s.buf[j]? = some bj → bi.dev = bj.dev → bi.blockno = bj.blockno → i = j

/-- States reached from `binit` by calls of `bget`, `brelse`, `bpin` and
`bunpin` when the tick counter is at least 1 at every `bget`.  A `bget` that
puts its caller to sleep has updated the state all the same. -/
inductive ReachPos (NBUF : Nat) : Bcache → Prop where
  | init : ReachPos NBUF (boot NBUF)
  | bget_ret (s s1 : Bcache) (fuel pid dev blockno ticks : Nat) (p : Ptr) :
      ReachPos NBUF s → 1 ≤ ticks →
      bget fuel s pid dev blockno ticks = Outcome.ret s1 p → ReachPos NBUF s1
  | bget_sleeps (s s1 : Bcache) (fuel pid dev blockno ticks : Nat) (p : Ptr) :
      ReachPos NBUF s → 1 ≤ ticks →
      bget fuel s pid dev blockno ticks = Outcome.sleeps s1 p → ReachPos NBUF s1
  | brelse (s s1 : Bcache) (pid : Nat) (p : Ptr) :
      ReachPos NBUF s → brelse s pid p = Effect.ok s1 → ReachPos NBUF s1
  | bpin (s s1 : Bcache) (p : Ptr) :
      ReachPos NBUF s → bpin s p = Effect.ok s1 → ReachPos NBUF s1
  | bunpin (s s1 : Bcache) (p : Ptr) :
      ReachPos NBUF s → bunpin s p = Effect.ok s1 → ReachPos NBUF s1

/-- What `bucket_add(bucket k, p)` does to the links of the buffer at `q`, with
`H` the old `bucket->head.next`. -/
def addLinks (k : Nat) (p H q : Ptr) (x : Buf) : Buf :=
  { x with
    next := if q = p then H else if q = Ptr.head k then p else x.next
    prev := if q = p then Ptr.head k else if q = H then p else x.prev }

/-- What the unlink step does to the links of the buffer at `q`, with `P` and
`N` the `prev` and `next` of the victim. -/
def cutLinks (P N q : Ptr) (x : Buf) : Buf :=
  { x with
    next := if q = P then N else x.next
    prev := if q = N then P else x.prev }


/-! ### The disk behind the cache -/

/-- One request handed to the disk driver. -/
inductive Transfer where
  | read (dev blockno : Nat)
  | write (dev blockno : Nat) (data : List Nat)
deriving DecidableEq, Repr

/-- The disk as a map from `(dev, blockno)` to block contents, kept as the list
of blocks stored so far, latest first. -/
def diskBlock : List (Nat × Nat × List Nat) → Nat → Nat → List Nat
  | [], _, _ => []
  | (d, b, data) :: rest, dev, blockno =>
    if d = dev ∧ b = blockno then data else diskBlock rest dev blockno

/-- The cache together with the disk behind it and the transfers issued so
far, oldest first. -/
structure World where
  cache : Bcache
  disk : List (Nat × Nat × List Nat) := []
  log : List Transfer := []
deriving DecidableEq, Repr

/-- Modelled from the spec: `virtio_disk_rw(b, write)` of `virtio_disk.c` (not
in the sources), the synchronous block transfer of the disk-I/O collaborator.
With `write` it stores `b->data` as the contents of block `(b->dev,
b->blockno)`; without, it loads the contents of that block into `b->data`. -/
def virtio_disk_rw (w : World) (p : Ptr) (write : Bool) : Option World :=
  match deref w.cache p with
  | none => none
  | some b =>
    if write then
      some { w with
        disk := (b.dev, b.blockno, b.data) :: w.disk
        log := w.log ++ [Transfer.write b.dev b.blockno b.data] }
    else
      match store w.cache p { b with data := diskBlock w.disk b.dev b.blockno } with
      | none => none
      | some s1 => some { w with cache := s1, log := w.log ++ [Transfer.read b.dev b.blockno] }

/-- The read step of `bread` on the buffer `b` that `bget` returned:
`if(!b->valid) { virtio_disk_rw(b, 0); b->valid = 1; }`. -/
def readStep (w : World) (p : Ptr) : Option World :=
  match deref w.cache p with
  | none => none
  | some b =>
    if b.valid = 0 then
      match virtio_disk_rw w p false with
      | none => none
      | some w1 =>
        match modify w1.cache p (fun x => { x with valid := 1 }) with
        | none => none
        | some s2 => some { w1 with cache := s2 }
    else some w

/-- How a call of `bread` ends. -/
inductive Result where
  | ret (w : World) (b : Ptr)
  | sleeps (w : World) (b : Ptr)
  | panic (msg : String)
  | fault
  | diverges
deriving DecidableEq, Repr

/-- `bread(dev, blockno)` called by process `pid` while `ticks` has the value
`ticks`.  A caller that `bget` puts to sleep has not reached the read step. -/
def bread (fuel : Nat) (w : World) (pid dev blockno ticks : Nat) : Result :=
  match bget fuel w.cache pid dev blockno ticks with
  | Outcome.ret s1 b =>
    match readStep { w with cache := s1 } b with
    | none => Result.fault
    | some w1 => Result.ret w1 b
  | Outcome.sleeps s1 b => Result.sleeps { w with cache := s1 } b
  | Outcome.panic msg => Result.panic msg
  | Outcome.fault => Result.fault
  | Outcome.diverges => Result.diverges

/-- How a call of `bwrite` or `brelse` ends, seen with the disk.  A panic carries
the state at the moment of the panic. -/
inductive Done where
  | ok (w : World)
  | panic (msg : String) (w : World)
  | fault
deriving DecidableEq, Repr

/-- `bwrite(b)` called by process `pid`. -/
def bwrite (w : World) (pid : Nat) (p : Ptr) : Done :=
  match deref w.cache p with
  | none => Done.fault
  | some b =>
    if holdingsleep b pid = false then Done.panic "bwrite" w
    else
      match virtio_disk_rw w p true with
      | none => Done.fault
      | some w1 => Done.ok w1

/-- `brelse(b)` called by process `pid`, seen with the disk: `brelse` calls
nothing of the disk driver, and its panic comes before its first assignment. -/
def World.brelse (w : World) (pid : Nat) (p : Ptr) : Done :=
  match Bio.brelse w.cache pid p with
  | Effect.ok s1 => Done.ok { w with cache := s1 }
  | Effect.panic msg => Done.panic msg w
  | Effect.fault => Done.fault

/-- What a process does with the cache and the disk: the three calls, and the
holder of a buffer storing new contents into `b->data`. -/
inductive Op where
  | bread (pid dev blockno ticks : Nat)
  | bwrite (pid : Nat) (b : Ptr)
  | brelse (pid : Nat) (b : Ptr)
  | fill (b : Ptr) (data : List Nat)
deriving DecidableEq, Repr

/-- State after an operation that returns to its caller; `none` when it does
not. -/
def World.step (fuel : Nat) (w : World) : Op → Option World
  | Op.bread pid dev blockno ticks =>
    match bread fuel w pid dev blockno ticks with
    | Result.ret w1 _ => some w1
    | _ => none
  | Op.bwrite pid b =>
    match bwrite w pid b with
    | Done.ok w1 => some w1
    | _ => none
  | Op.brelse pid b =>
    match World.brelse w pid b with
    | Done.ok w1 => some w1
    | _ => none
  | Op.fill b data =>
    match modify w.cache b (fun x => { x with data := data }) with
    | none => none
    | some s1 => some { w with cache := s1 }

/-- A sequence of operations, each returning before the next is made. -/
def World.run (fuel : Nat) : World → List Op → Option World
  | w, [] => some w
  | w, c :: cs =>
    match World.step fuel w c with
    | none => none
    | some w1 => World.run fuel w1 cs

/-- Early boot with the default pool of 30 (`ticks == 0` throughout): process 1
reads block (1,1), stores the new contents `[7]` into the buffer, writes it and
releases it; then it reads block (1,2), for which `bget` recycles slot 0. -/
def roundTrip : List Op :=
  [Op.bread 1 1 1 0, Op.fill (Ptr.slot 0) [7], Op.bwrite 1 (Ptr.slot 0),
   Op.brelse 1 (Ptr.slot 0), Op.bread 1 1 2 0]

/-- The state after `roundTrip`, started on a disk whose block (1,1) holds
`[3]`. -/
def afterRoundTrip : World :=
  (World.run 43 { cache := boot 30, disk := [(1, 1, [3])] } roundTrip).getD { cache := boot 30 }

/-! ### Lock operations of `bget` -/

/-- A lock of `bio.c`: the spin lock of bucket `k`, the spin lock `bcache.lock`,
or the sleep lock of a buffer. -/
inductive Lock where
  | bucket (k : Nat)
  | bcache
  | sleep (b : Ptr)
deriving DecidableEq, Repr

/-- One lock operation. -/
inductive LockEv where
  | acquire (l : Lock)
  | release (l : Lock)
deriving DecidableEq, Repr

/-- The lock operations of the rebinding of victim `vb` in `bget`: only the
branch for a victim of another bucket takes a lock, that of the old bucket. -/
def rebindLocks (vb : Buf) (bucketNo : Nat) : List LockEv :=
  if vb.tick = 0 then []
  else if vb.blockno % N_BUCKETS ≠ bucketNo then
    [LockEv.acquire (Lock.bucket (vb.blockno % N_BUCKETS)),
     LockEv.release (Lock.bucket (vb.blockno % N_BUCKETS))]
  else []

/-- The lock operations of a call `bget(dev, blockno)` in state `s`, in program
order, up to the point where the call returns, panics or hangs in the lookup
loop.  The relinking of the victim is taken to run to its end: an invalid
access inside it is not represented here. -/
def bgetLocks (fuel : Nat) (s : Bcache) (dev blockno : Nat) : List LockEv :=
  let bucketNo := blockno % N_BUCKETS
  LockEv.acquire (Lock.bucket bucketNo) ::
    match deref s (Ptr.head bucketNo) with
    | none => []
    | some hd =>
      match lookup s bucketNo dev blockno fuel hd.next with
      | Look.timeout => []
      | Look.fault => []
      | Look.found b => [LockEv.release (Lock.bucket bucketNo), LockEv.acquire (Lock.sleep b)]
      | Look.miss =>
        LockEv.acquire Lock.bcache ::
          match findVictim s with
          | none => []
          | some v =>
            match s.buf[v]? with
            | none => []
            | some vb =>
              rebindLocks vb bucketNo ++
                [LockEv.release Lock.bcache, LockEv.release (Lock.bucket bucketNo),
                 LockEv.acquire (Lock.sleep (Ptr.slot v))]

/-- The rebinding of the victim in `bget` (the three-way `if`) together with the
lock operations made on the way: the branch for a victim of another bucket
takes the lock of the old bucket before `replace_buffer` and releases it after
the unlink. -/
def rebindTraced (s : Bcache) (v bucketNo dev blockno ticks : Nat) :
    Option Bcache × List LockEv :=
  match s.buf[v]? with
  | none => (none, [])
  | some vb =>
    if vb.tick = 0 then
      match modify s (Ptr.slot v) (fun b => replace_buffer b dev blockno ticks) with
      | none => (none, [])
      | some s1 => (bucket_add s1 bucketNo (Ptr.slot v), [])
    else if vb.blockno % N_BUCKETS ≠ bucketNo then
      match modify s (Ptr.slot v) (fun b => replace_buffer b dev blockno ticks) with
      | none => (none, [LockEv.acquire (Lock.bucket (vb.blockno % N_BUCKETS))])
      | some s1 =>
        match unlink s1 (Ptr.slot v) with
        | none => (none, [LockEv.acquire (Lock.bucket (vb.blockno % N_BUCKETS))])
        | some s2 =>
          (bucket_add s2 bucketNo (Ptr.slot v),
           [LockEv.acquire (Lock.bucket (vb.blockno % N_BUCKETS)),
            LockEv.release (Lock.bucket (vb.blockno % N_BUCKETS))])
    else (modify s (Ptr.slot v) (fun b => replace_buffer b dev blockno ticks), [])

/-- `bget(dev, blockno)` with its lock operations: every `acquire`, `release`
and `acquiresleep` of the function is recorded where it stands in the code.
The first component is the outcome of the call, the second the lock operations
made up to its end. -/
def bgetTraced (fuel : Nat) (s : Bcache) (pid dev blockno ticks : Nat) :
    Outcome × List LockEv :=
  let bucketNo := blockno % N_BUCKETS
  match deref s (Ptr.head bucketNo) with
  | none => (Outcome.fault, [LockEv.acquire (Lock.bucket bucketNo)])
  | some hd =>
    match lookup s bucketNo dev blockno fuel hd.next with
    | Look.timeout => (Outcome.diverges, [LockEv.acquire (Lock.bucket bucketNo)])
    | Look.fault => (Outcome.fault, [LockEv.acquire (Lock.bucket bucketNo)])
    | Look.found b =>
      match modify s b (fun x => { x with tick := ticks, refcnt := uintInc x.refcnt }) with
      | none => (Outcome.fault, [LockEv.acquire (Lock.bucket bucketNo)])
      | some s1 =>
        (acquiresleep s1 pid b,
         [LockEv.acquire (Lock.bucket bucketNo), LockEv.release (Lock.bucket bucketNo),
          LockEv.acquire (Lock.sleep b)])
    | Look.miss =>
      match findVictim s with
      | none =>
        (Outcome.panic "bget: no buffers",
         [LockEv.acquire (Lock.bucket bucketNo), LockEv.acquire Lock.bcache])
      | some v =>
        match rebindTraced s v bucketNo dev blockno ticks with
        | (none, evs) =>
          (Outcome.fault,
           LockEv.acquire (Lock.bucket bucketNo) :: LockEv.acquire Lock.bcache :: evs)
        | (some s1, evs) =>
          (acquiresleep s1 pid (Ptr.slot v),
           LockEv.acquire (Lock.bucket bucketNo) :: LockEv.acquire Lock.bcache ::
             (evs ++ [LockEv.release Lock.bcache, LockEv.release (Lock.bucket bucketNo),
               LockEv.acquire (Lock.sleep (Ptr.slot v))]))

/-- The locks acquired by a sequence of lock operations, in order. -/
def acquired : List LockEv → List Lock
  | [] => []
  | LockEv.acquire l :: rest => l :: acquired rest
  | LockEv.release _ :: rest => acquired rest

/-- Bucket-index order, in the words of the specification: no bucket lock is
acquired while the lock of a different bucket with a higher index is among the
locks `hs` held. -/
def inIndexOrder : List Lock → List LockEv → Bool
  | _, [] => true
  | hs, LockEv.acquire (Lock.bucket k) :: rest =>
    hs.all (fun h =>
      match h with
      | Lock.bucket j => decide (j ≤ k)
      | _ => true) && inIndexOrder (Lock.bucket k :: hs) rest
  | hs, LockEv.acquire l :: rest => inIndexOrder (l :: hs) rest
  | hs, LockEv.release l :: rest => inIndexOrder (hs.erase l) rest

/-- The state after `earlyBoot`: slot 0, now block (1,2), is linked into the
lists of bucket 1 and of bucket 2; slots 1 to 29 have not been used. -/
def afterEarlyBoot : Bcache := (run 43 (boot 30) earlyBoot).getD (boot 30)

/-- Pool of three, `ticks` past 0: blocks (1,1), (1,2), (1,3) were read at ticks
1, 2, 3 by processes 1, 2, 3 and have all been released. -/
def exampleIdle : Bcache :=
  (run 2 (boot 3) [Call.bget 1 1 1 1, Call.bget 2 1 2 2, Call.bget 3 1 3 3,
    Call.brelse 1 (Ptr.slot 0), Call.brelse 2 (Ptr.slot 1), Call.brelse 3 (Ptr.slot 2)]).getD
    (boot 3)

/-! ### Filling the pool -/

/-- A buffer without its list links. -/
def noLinks (b : Buf) : Buf := { b with prev := Ptr.null, next := Ptr.null }

/-- The `bget` calls for the requests `j, j+1, ..., j+m-1`, where request `i` is
made by process `pid i` for block `(dev i, blockno i)` while `ticks` has the
value `tick i`. -/
def fillCalls (pid dev blockno tick : Nat → Nat) : Nat → Nat → List Call
  | _, 0 => []
  | j, m + 1 =>
    Call.bget (pid j) (dev j) (blockno j) (tick j) :: fillCalls pid dev blockno tick (j + 1) m

/-- The `brelse` calls by which the holders of the slots `j, j+1, ..., j+m-1`
release them. -/
def releaseCalls (pid : Nat → Nat) : Nat → Nat → List Call
  | _, 0 => []
  | j, m + 1 => Call.brelse (pid j) (Ptr.slot j) :: releaseCalls pid (j + 1) m

/-- The pool of `n` slots while it is filled: the first `j` requests are bound
to the slots `0, ..., j-1`, of which the first `r` have been released again; the
other slots have not been used; `Ls` are the membership lists of the buckets. -/
structure Filled (n j r : Nat) (pid dev blockno tick : Nat → Nat) (s : Bcache)
    (Ls : List (List Nat)) : Prop where
  nbuf : s.buf.length = n
  nlists : Ls.length = N_BUCKETS
  buckets : ∀ k, k < N_BUCKETS → Bucket s k (Ls.getD k [])
  nodup : Ls.flatten.Nodup
  linked : ∀ i, i ∈ Ls.flatten → i < j
  home : ∀ i, i < j → i ∈ Ls.getD (blockno i % N_BUCKETS) []
  bound : ∀ i, i < j → ∃ b, s.buf[i]? = some b ∧ b.dev = dev i ∧ b.blockno = blockno i ∧
    b.tick = tick i ∧ b.refcnt = (if i < r then 0 else 1) ∧
    b.lock = (if i < r then none else some (pid i))
  fresh : ∀ i, j ≤ i → i < n →
    ∃ b, s.buf[i]? = some b ∧ b.refcnt = 0 ∧ b.tick = 0 ∧ b.lock = none
end Bio

namespace Kalloc

/-- Constants that `kalloc.c` takes from outside: `NCPU` (`param.h`), `PGSIZE`
(`riscv.h`), `PHYSTOP` (`memlayout.h`) and the linker symbol `end`, the first
address after the kernel. -/
structure Config where
  NCPU : Nat
  PGSIZE : Nat
  PHYSTOP : Nat
  kend : Nat

/-- The constants are usable: pages and CPUs exist, the kernel does not start at
the null address, addresses are 64-bit, and the page count of the managed range
fits the `int page_num`. -/
def Config.ok (c : Config) : Prop :=
  0 < c.NCPU ∧ 0 < c.PGSIZE ∧ 0 < c.kend ∧ c.PHYSTOP < 2 ^ 64 ∧ c.PHYSTOP / c.PGSIZE < 2 ^ 31

/-- Modelled from the spec: the macro `PGROUNDUP` of `riscv.h` (not in the
sources), which rounds an address up to the next page boundary; the spec only
says that pages are fixed-size and page-aligned. -/
def PGROUNDUP (c : Config) (a : Nat) : Nat := (a + c.PGSIZE - 1) / c.PGSIZE * c.PGSIZE

/-- Allocator state: `kmems[i].freelist` for every CPU (0 is the null
pointer), the `next` field of the `struct run` at every address, and the global
`freelist_size`. -/
structure State where
  freelist : List Nat
  next : Nat → Nat
  freelist_size : Nat

/-- `memset(pa, byte, PGSIZE)` as seen through the `next` word at the start of
the page: every byte of it becomes `byte`. -/
def memset (next : Nat → Nat) (pa byte : Nat) : Nat → Nat :=
  fun a => if a = pa then byte * 0x0101010101010101 else next a

/-- The assignment `r->next = v`. -/
def setNext (next : Nat → Nat) (r v : Nat) : Nat → Nat :=
  fun a => if a = r then v else next a

/-- `kmem_number(pa)`. -/
def kmem_number (c : Config) (st : State) (pa : Nat) : Nat :=
  (pa - c.kend) / c.PGSIZE / st.freelist_size

/-- How `kfree` (and `kinit`, which calls it) ends.  A panic carries the state
at the moment of the panic. -/
inductive Effect where
  | ok (st : State)
  | panic (msg : String) (st : State)
  | fault

/-- `kfree(pa)`.  Dividing by a zero `freelist_size` and indexing `kmems`
outside the array are invalid operations (`fault`). -/
def kfree (c : Config) (st : State) (pa : Nat) : Effect :=
  if pa % c.PGSIZE ≠ 0 ∨ pa < c.kend ∨ pa ≥ c.PHYSTOP then Effect.panic "kfree" st
  else if st.freelist_size = 0 then Effect.fault
  else
    match st.freelist[kmem_number c st pa]? with
    | none => Effect.fault
    | some head =>
      Effect.ok
        { st with
          freelist := st.freelist.set (kmem_number c st pa) pa
          next := setNext (memset st.next pa 1) pa head }

/-- The counting loop of `freerange`:
`for (; p + PGSIZE <= pa_end; p += PGSIZE) page_num++;`. -/
def countPages (c : Config) (pa_end : Nat) : Nat → Nat → Nat → Nat
  | 0, _, page_num => page_num
  | fuel + 1, p, page_num =>
    if p + c.PGSIZE ≤ pa_end then countPages c pa_end fuel (p + c.PGSIZE) (page_num + 1)
    else page_num

/-- The freeing loop of `freerange`:
`for (; p + PGSIZE <= pa_end; p += PGSIZE) kfree(p);`.  A loop that is not over
when the fuel is used up is reported as `fault`. -/
def freePages (c : Config) (pa_end : Nat) : Nat → Nat → State → Effect
  | 0, p, st => if p + c.PGSIZE ≤ pa_end then Effect.fault else Effect.ok st
  | fuel + 1, p, st =>
    if p + c.PGSIZE ≤ pa_end then
      match kfree c st p with
      | Effect.ok st1 => freePages c pa_end fuel (p + c.PGSIZE) st1
      | e => e
    else Effect.ok st

/-- `freerange(pa_start, pa_end)`.  Both loops run at most `pa_end` times when
`PGSIZE > 0`. -/
def freerange (c : Config) (st : State) (pa_start pa_end : Nat) : Effect :=
  let page_num := countPages c pa_end pa_end (PGROUNDUP c pa_start) 0
  freePages c pa_end pa_end (PGROUNDUP c pa_start)
    { st with freelist_size := page_num / c.NCPU + 1 }

/-- `kinit()`, started on memory whose `next` words hold `mem`: every
`kmems[i].freelist` is cleared, then `freerange(end, PHYSTOP)`. -/
def kinit (c : Config) (mem : Nat → Nat) : Effect :=
  freerange c { freelist := List.replicate c.NCPU 0, next := mem, freelist_size := 0 }
    c.kend c.PHYSTOP

/-- The stealing loop of `find_freelist`, at index `i` with `fuel` iterations
left: the first `i != cpu_id` whose free list is not empty. -/
def probe (st : State) (cpu_id : Nat) : Nat → Nat → Option Nat
  | 0, _ => none
  | fuel + 1, i =>
    if i = cpu_id then probe st cpu_id fuel (i + 1)
    else if st.freelist.getD i 0 ≠ 0 then some i
    else probe st cpu_id fuel (i + 1)

/-- `find_freelist()` on CPU `cpu_id`: the index of the `kmem` it returns, or
`none` for the null pointer. -/
def find_freelist (c : Config) (st : State) (cpu_id : Nat) : Option Nat :=
  if st.freelist.getD cpu_id 0 ≠ 0 then some cpu_id
  else probe st cpu_id c.NCPU 0

/-- `kalloc()` on CPU `cpu_id`: the new state and the returned pointer. -/
def kalloc (c : Config) (st : State) (cpu_id : Nat) : State × Nat :=
  match find_freelist c st cpu_id with
  | none => (st, 0)
  | some i =>
    if st.freelist.getD i 0 ≠ 0 then
      ({ st with
         freelist := st.freelist.set i (st.next (st.freelist.getD i 0))
         next := memset st.next (st.freelist.getD i 0) 5 },
       st.freelist.getD i 0)
    else (st, st.freelist.getD i 0)

/-- Following `next` from the pointer `p` visits exactly the pages `L`, in
this order, and then reaches the null pointer. -/
def Chain (next : Nat → Nat) : Nat → List Nat → Prop
  | p, [] => p = 0
  | p, a :: L => p = a ∧ a ≠ 0 ∧ Chain next (next a) L

/-- The free lists of the state are the lists `Ls`, one for each CPU. -/
def FreeLists (c : Config) (st : State) (Ls : List (List Nat)) : Prop :=
  st.freelist.length = c.NCPU ∧ Ls.length = c.NCPU ∧
  ∀ i, i < c.NCPU → Chain st.next (st.freelist.getD i 0) (Ls.getD i [])

/-- The pages of the managed range, in address order: the addresses `kinit`
hands to `kfree`. -/
def pagesFrom (c : Config) (pa_end : Nat) : Nat → Nat → List Nat
  | 0, _ => []
  | fuel + 1, p =>
    if p + c.PGSIZE ≤ pa_end then p :: pagesFrom c pa_end fuel (p + c.PGSIZE) else []

/-- All pages managed by the allocator. -/
def pages (c : Config) : List Nat := pagesFrom c c.PHYSTOP c.PHYSTOP (PGROUNDUP c c.kend)

/-- States reached from `kinit` by calls of `kalloc` (on any CPU) and by calls
of `kfree` on a page that is currently allocated, together with the list of
currently allocated pages.  The owner of an allocated page may write into it. -/
inductive Reach (c : Config) (mem : Nat → Nat) : State → List Nat → Prop where
  | init (st : State) : kinit c mem = Effect.ok st → Reach c mem st []
  | alloc (st : State) (A : List Nat) (cpu : Nat) :
      Reach c mem st A → cpu < c.NCPU → (kalloc c st cpu).2 ≠ 0 →
      Reach c mem (kalloc c st cpu).1 ((kalloc c st cpu).2 :: A)
  | exhausted (st : State) (A : List Nat) (cpu : Nat) :
      Reach c mem st A → cpu < c.NCPU → (kalloc c st cpu).2 = 0 →
      Reach c mem (kalloc c st cpu).1 A
  | free (st st1 : State) (A : List Nat) (pa : Nat) :
      Reach c mem st A → pa ∈ A → kfree c st pa = Effect.ok st1 →
      Reach c mem st1 (A.erase pa)
  | write (st : State) (A : List Nat) (pa v : Nat) :
      Reach c mem st A → pa ∈ A →
      Reach c mem { st with next := setNext st.next pa v } A

/-- What `kfree` needs of a page `q` when `freelist_size` is `fs`: it passes the
validation, is not the null pointer, and its home index is inside `kmems`. -/
structure PageOk (c : Config) (fs : Nat) (q : Nat) : Prop where
  aligned : q % c.PGSIZE = 0
  above : c.kend ≤ q
  below : q < c.PHYSTOP
  nonnull : q ≠ 0
  home : (q - c.kend) / c.PGSIZE / fs < c.NCPU


/-- The conservation invariant: `freelist_size` has the value `freerange` gave
it, and the free lists together with the allocated pages `A` are exactly the
pages of the managed range. -/
def Inv (c : Config) (st : State) (A : List Nat) : Prop :=
  st.freelist_size = (pages c).length / c.NCPU + 1 ∧
  ∃ Ls, FreeLists c st Ls ∧ (Ls.flatten ++ A).Perm (pages c)

/-- The state carried by an effect, `d` when it carries none. -/
def Effect.stateD : Effect → State → State
  | Effect.ok st, _ => st
  | Effect.panic _ st, _ => st
  | Effect.fault, d => d

/-- A small machine: 2 CPUs, 4096-byte pages, kernel image ending at 0x2064,
physical memory ending at 0x7000, so the managed pages are 0x3000, 0x4000,
0x5000 and 0x6000. -/
def smallConfig : Config := { NCPU := 2, PGSIZE := 4096, PHYSTOP := 0x7000, kend := 0x2064 }

/-- The state of the small machine after `kinit` on zero-filled memory. -/
def smallInit : State :=
  (kinit smallConfig (fun _ => 0)).stateD
    { freelist := [], next := fun _ => 0, freelist_size := 0 }

/-- `Chain` can be checked by walking the list. -/
instance Chain.instDecidable (next : Nat → Nat) : ∀ (p : Nat) (L : List Nat), Decidable (Chain next p L)
  | p, [] => inferInstanceAs (Decidable (p = 0))
  | p, a :: L =>
    have := Chain.instDecidable next (next a) L
    inferInstanceAs (Decidable (p = a ∧ a ≠ 0 ∧ Chain next (next a) L))

/-- The small machine after CPU 1 has taken the only page of its own list. -/
def smallAfterOne : State := (kalloc smallConfig smallInit 1).1

/-- Every page of free list `i` has home index `i`, when `freelist_size` is
`fs`. -/
def Homed (c : Config) (fs : Nat) (Ls : List (List Nat)) : Prop :=
  ∀ i p, p ∈ Ls.getD i [] → (p - c.kend) / c.PGSIZE / fs = i

/-- The partition size in the words of the specification: the total number of
free pages divided by the CPU count, rounded up. -/
def specPartitionSize (total ncpu : Nat) : Nat := (total + ncpu - 1) / ncpu

/-- The small machine after `kinit` and a `kfree` of page 0x5000, which passes
the validation of `kfree` but is in free list 0 (at its head) at that time. -/
def smallDoubleFree : State := (kfree smallConfig smallInit 0x5000).stateD smallInit

/-- The small machine after `kinit`, `kfree(0x5000)` and two calls of `kalloc`
on CPU 0. -/
def smallAfterDoubleFree : State :=
  (kalloc smallConfig (kalloc smallConfig smallDoubleFree 0).1 0).1

end Kalloc

namespace ListLemmas

/-! ## Lists of lists -/

theorem flatten_set_cons_perm (a : Nat) :
    ∀ (Ls : List (List Nat)) (n : Nat), n < Ls.length →
      ((Ls.set n (a :: Ls.getD n [])).flatten).Perm (a :: Ls.flatten) := by
  intro Ls
  induction Ls with
  | nil => intro n hn; simp at hn
  | cons L Ls ih =>
    intro n hn
    cases n with
    | zero => simp
    | succ n =>
      simp only [List.set_cons_succ, List.flatten_cons, List.getD_cons_succ]
      have := ih n (by simpa using hn)
      exact (List.Perm.append_left L this).trans (List.perm_middle)

theorem flatten_set_tail_perm (a : Nat) (L : List Nat) :
    ∀ (Ls : List (List Nat)) (n : Nat), n < Ls.length → Ls.getD n [] = a :: L →
      (Ls.flatten).Perm (a :: (Ls.set n L).flatten) := by
  intro Ls
  induction Ls with
  | nil => intro n hn; simp at hn
  | cons L0 Ls ih =>
    intro n hn hget
    cases n with
    | zero =>
      simp only [List.getD_cons_zero] at hget
      subst hget
      simp
    | succ n =>
      simp only [List.set_cons_succ, List.flatten_cons, List.getD_cons_succ] at hget ⊢
      have := ih n (by simpa using hn) hget
      exact (List.Perm.append_left L0 this).trans (List.perm_middle)

theorem mem_flatten_of_getD (Ls : List (List Nat)) (i : Nat) (a : Nat)
    (h : a ∈ Ls.getD i []) : a ∈ Ls.flatten := by
  by_cases hi : i < Ls.length
  · rw [List.getD_eq_getElem _ _ hi] at h
    exact List.mem_flatten.mpr ⟨Ls[i], List.getElem_mem hi, h⟩
  · rw [List.getD_eq_default _ _ (by omega)] at h
    cases h

theorem getD_set (Ls : List (List Nat)) (n i : Nat) (L : List Nat) (hn : n < Ls.length) :
    (Ls.set n L).getD i [] = if i = n then L else Ls.getD i [] := by
  simp only [List.getD_eq_getElem?_getD, List.getElem?_set]
  by_cases h : i = n
  · subst h; simp [hn]
  · simp [h, Ne.symm h]

theorem getD_set_nat (fl : List Nat) (n i v : Nat) (hn : n < fl.length) :
    (fl.set n v).getD i 0 = if i = n then v else fl.getD i 0 := by
  simp only [List.getD_eq_getElem?_getD, List.getElem?_set]
  by_cases h : i = n
  · subst h; simp [hn]
  · simp [h, Ne.symm h]

theorem disjoint_of_nodup_flatten :
    ∀ (Ls : List (List Nat)) (i j a : Nat), Ls.flatten.Nodup → i < j →
      a ∈ Ls.getD i [] → a ∈ Ls.getD j [] → False := by
  intro Ls
  induction Ls with
  | nil => intro i j a _ _ hi _; simp at hi
  | cons L0 Ls ih =>
    intro i j a hnd hij hi hj
    rw [List.flatten_cons, List.nodup_append] at hnd
    obtain ⟨_, hnd2, hdis⟩ := hnd
    cases j with
    | zero => omega
    | succ j =>
      simp only [List.getD_cons_succ] at hj
      cases i with
      | zero =>
        simp only [List.getD_cons_zero] at hi
        exact hdis hi (mem_flatten_of_getD Ls j a hj)
      | succ i =>
        simp only [List.getD_cons_succ] at hi
        exact ih i j a hnd2 (by omega) hi hj

theorem disjoint_lists (Ls : List (List Nat)) (i j a : Nat) (hnd : Ls.flatten.Nodup)
    (hij : i ≠ j) (hi : a ∈ Ls.getD i []) : a ∉ Ls.getD j [] := by
  intro hj
  rcases Nat.lt_or_gt_of_ne hij with h | h
  · exact disjoint_of_nodup_flatten Ls i j a hnd h hi hj
  · exact disjoint_of_nodup_flatten Ls j i a hnd h hj hi

theorem nodup_getD (Ls : List (List Nat)) (i : Nat) (hnd : Ls.flatten.Nodup) :
    (Ls.getD i []).Nodup := by
  by_cases hi : i < Ls.length
  · rw [List.getD_eq_getElem _ _ hi]
    exact (List.nodup_flatten.mp hnd).1 _ (List.getElem_mem hi)
  · rw [List.getD_eq_default _ _ (by omega)]
    exact List.nodup_nil


theorem flatten_set_mid_perm (a : Nat) (pre post : List Nat) :
    ∀ (Ls : List (List Nat)) (n : Nat), n < Ls.length → Ls.getD n [] = pre ++ a :: post →
      (Ls.flatten).Perm (a :: (Ls.set n (pre ++ post)).flatten) := by
  intro Ls
  induction Ls with
  | nil => intro n hn; simp at hn
  | cons L0 Ls ih =>
    intro n hn hget
    cases n with
    | zero =>
      simp only [List.getD_cons_zero] at hget
      subst hget
      simp only [List.set_cons_zero, List.flatten_cons, List.append_assoc, List.cons_append]
      exact List.perm_middle
    | succ n =>
      simp only [List.set_cons_succ, List.flatten_cons, List.getD_cons_succ] at hget ⊢
      have := ih n (by simpa using hn) hget
      exact (List.Perm.append_left L0 this).trans (List.perm_middle)

theorem mem_flatten_iff_getD (Ls : List (List Nat)) (a : Nat) :
    a ∈ Ls.flatten ↔ ∃ k, k < Ls.length ∧ a ∈ Ls.getD k [] := by
  constructor
  · intro h
    obtain ⟨L, hL, ha⟩ := List.mem_flatten.mp h
    obtain ⟨k, hk, hLk⟩ := List.mem_iff_getElem.mp hL
    exact ⟨k, hk, by rw [List.getD_eq_getElem _ _ hk, hLk]; exact ha⟩
  · rintro ⟨k, _, ha⟩
    exact mem_flatten_of_getD Ls k a ha
end ListLemmas

namespace Bio

open ListLemmas

/-! ## Victim selection -/

theorem getElem?_append_cons_self (pre : List Buf) (b : Buf) (rest : List Buf) :
    (pre ++ b :: rest)[pre.length]? = some b := by
  rw [List.getElem?_append_right (le_refl _)]
  simp

theorem scanVictim_spec (pool : List Buf) :
    ∀ (rest pre : List Buf) (victim : Option Nat), pool = pre ++ rest →
      VictimUpTo pool pre.length victim →
      VictimUpTo pool pool.length (scanVictim pool rest pre.length victim) := by
  intro rest
  induction rest with
  | nil =>
    intro pre victim hpool hinv
    simp only [scanVictim]
    have : pool.length = pre.length := by simp [hpool]
    rw [this]; exact hinv
  | cons b rest ih =>
    intro pre victim hpool hinv
    have hpool2 : pool = (pre ++ [b]) ++ rest := by simp [hpool]
    have hlen : (pre ++ [b]).length = pre.length + 1 := by simp
    have hb : pool[pre.length]? = some b := by
      rw [hpool]; exact getElem?_append_cons_self pre b rest
    have key : ∀ v2, VictimUpTo pool (pre.length + 1) v2 →
        VictimUpTo pool pool.length (scanVictim pool rest (pre.length + 1) v2) := by
      intro v2 h2
      have := ih (pre ++ [b]) v2 hpool2 (by rw [hlen]; exact h2)
      rw [hlen] at this; exact this
    simp only [scanVictim]
    by_cases hr : b.refcnt = 0
    · simp only [hr, ne_eq, not_true_eq_false, if_false]
      cases victim with
      | none =>
        apply key
        refine ⟨Nat.lt_succ_self _, b, hb, hr, ?_⟩
        intro j bj hj hbj hrj
        rcases Nat.lt_succ_iff_lt_or_eq.mp hj with hlt | heq
        · exact absurd hrj (hinv j bj hlt hbj)
        · subst heq
          rw [hb] at hbj; cases hbj
          exact ⟨le_refl _, fun _ => le_refl _⟩
      | some v =>
        obtain ⟨hv, vb, hvb, hvr, hmin⟩ := hinv
        have hget : (pool.getD v {}).tick = vb.tick := by
          simp [List.getD, hvb]
        simp only [hget]
        by_cases hgt : vb.tick > b.tick
        · simp only [hgt, if_true]
          apply key
          refine ⟨Nat.lt_succ_self _, b, hb, hr, ?_⟩
          intro j bj hj hbj hrj
          rcases Nat.lt_succ_iff_lt_or_eq.mp hj with hlt | heq
          · have := hmin j bj hlt hbj hrj
            constructor
            · omega
            · intro h; omega
          · subst heq
            rw [hb] at hbj; cases hbj
            exact ⟨le_refl _, fun _ => le_refl _⟩
        · simp only [hgt, if_false]
          apply key
          refine ⟨Nat.lt_succ_of_lt hv, vb, hvb, hvr, ?_⟩
          intro j bj hj hbj hrj
          rcases Nat.lt_succ_iff_lt_or_eq.mp hj with hlt | heq
          · exact hmin j bj hlt hbj hrj
          · subst heq
            rw [hb] at hbj; cases hbj
            exact ⟨by omega, fun _ => Nat.le_of_lt hv⟩
    · simp only [ne_eq, hr, not_false_eq_true, if_true]
      apply key
      cases victim with
      | none =>
        intro j bj hj hbj
        rcases Nat.lt_succ_iff_lt_or_eq.mp hj with hlt | heq
        · exact hinv j bj hlt hbj
        · subst heq
          rw [hb] at hbj; cases hbj
          exact hr
      | some v =>
        obtain ⟨hv, vb, hvb, hvr, hmin⟩ := hinv
        refine ⟨Nat.lt_succ_of_lt hv, vb, hvb, hvr, ?_⟩
        intro j bj hj hbj hrj
        rcases Nat.lt_succ_iff_lt_or_eq.mp hj with hlt | heq
        · exact hmin j bj hlt hbj hrj
        · subst heq
          rw [hb] at hbj; cases hbj
          exact absurd hrj hr

theorem findVictim_spec (s : Bcache) : VictimUpTo s.buf s.buf.length (findVictim s) := by
  have := scanVictim_spec s.buf s.buf [] none (by simp) (by
    intro j b hj; simp at hj)
  simpa [findVictim] using this

theorem findVictim_none_iff (s : Bcache) :
    findVictim s = none ↔ ∀ b ∈ s.buf, b.refcnt ≠ 0 := by
  have h := findVictim_spec s
  constructor
  · intro hn b hb
    rw [hn] at h
    obtain ⟨j, hj, rfl⟩ := List.mem_iff_getElem.mp hb
    exact h j _ hj (by simp [hj])
  · intro hall
    cases hv : findVictim s with
    | none => rfl
    | some v =>
      rw [hv] at h
      obtain ⟨_, vb, hvb, hvr, _⟩ := h
      have hmem : vb ∈ s.buf := List.mem_iff_getElem?.mpr ⟨v, hvb⟩
      exact absurd hvr (hall vb hmem)



/-! ## Reading and writing through pointers -/

theorem deref_isSome_iff (s : Bcache) (p : Ptr) :
    (deref s p).isSome = true ↔
      match p with
      | Ptr.null => False
      | Ptr.head k => k < s.hash_table.length
      | Ptr.slot i => i < s.buf.length := by
  cases p with
  | null => simp [deref]
  | head k =>
    simp only [deref]
    constructor
    · intro h
      by_contra hk
      rw [List.getElem?_eq_none (by omega)] at h
      simp at h
    · intro h
      rw [List.getElem?_eq_getElem h]; rfl
  | slot i =>
    simp only [deref]
    constructor
    · intro h
      by_contra hk
      rw [List.getElem?_eq_none (by omega)] at h
      simp at h
    · intro h
      rw [List.getElem?_eq_getElem h]; rfl

theorem store_of_isSome (s : Bcache) (p : Ptr) (b : Buf) (h : (deref s p).isSome = true) :
    ∃ s1, store s p b = some s1 := by
  rw [deref_isSome_iff] at h
  cases p with
  | null => exact absurd h (by simp)
  | head k => exact ⟨_, by simp only [store]; rw [if_pos h]⟩
  | slot i => exact ⟨_, by simp only [store]; rw [if_pos h]⟩

theorem deref_store {s s1 : Bcache} {p : Ptr} {b : Buf} (h : store s p b = some s1) (q : Ptr) :
    deref s1 q = if q = p then some b else deref s q := by
  cases p with
  | null => simp [store] at h
  | head k =>
    simp only [store] at h
    split at h
    · rename_i hk
      cases h
      cases q with
      | null => simp [deref]
      | head j =>
        simp only [deref, List.getElem?_set]
        by_cases hjk : k = j
        · subst hjk; simp [hk]
        · have : ¬ (Ptr.head j = Ptr.head k) := by
            intro h2; cases h2; exact hjk rfl
          simp [hjk, this]
      | slot j => simp [deref]
    · cases h
  | slot i =>
    simp only [store] at h
    split at h
    · rename_i hk
      cases h
      cases q with
      | null => simp [deref]
      | head j => simp [deref]
      | slot j =>
        simp only [deref, List.getElem?_set]
        by_cases hjk : i = j
        · subst hjk; simp [hk]
        · have : ¬ (Ptr.slot j = Ptr.slot i) := by
            intro h2; cases h2; exact hjk rfl
          simp [hjk, this]
    · cases h

theorem modify_of_deref (s : Bcache) (p : Ptr) (f : Buf → Buf) (x : Buf)
    (h : deref s p = some x) : ∃ s1, modify s p f = some s1 ∧ store s p (f x) = some s1 := by
  obtain ⟨s1, hs1⟩ := store_of_isSome s p (f x) (by rw [h]; rfl)
  exact ⟨s1, by simp only [modify, h, hs1], hs1⟩

theorem modify_inv {s s1 : Bcache} {p : Ptr} {f : Buf → Buf} (h : modify s p f = some s1) :
    ∃ x, deref s p = some x ∧ store s p (f x) = some s1 := by
  unfold modify at h
  cases hx : deref s p with
  | none => rw [hx] at h; cases h
  | some x => rw [hx] at h; exact ⟨x, rfl, h⟩

theorem deref_modify {s s1 : Bcache} {p : Ptr} {f : Buf → Buf} (h : modify s p f = some s1)
    (q : Ptr) : deref s1 q = if q = p then (deref s p).map f else deref s q := by
  obtain ⟨x, hx, hst⟩ := modify_inv h
  rw [deref_store hst q, hx]; rfl

theorem isSome_modify {s s1 : Bcache} {p : Ptr} {f : Buf → Buf} (h : modify s p f = some s1)
    (q : Ptr) : (deref s1 q).isSome = (deref s q).isSome := by
  obtain ⟨x, hx, _⟩ := modify_inv h
  rw [deref_modify h q]
  by_cases hq : q = p
  · subst hq; simp [hx]
  · simp [hq]

theorem modify_slot_frame {s s1 : Bcache} {i : Nat} {f : Buf → Buf}
    (h : modify s (Ptr.slot i) f = some s1) :
    ∃ b, s.buf[i]? = some b ∧ s1 = { s with buf := s.buf.set i (f b) } := by
  obtain ⟨x, hx, hst⟩ := modify_inv h
  refine ⟨x, hx, ?_⟩
  simp only [store] at hst
  split at hst
  · cases hst; rfl
  · cases hst

/-! ## The lookup loop on a proper bucket list -/

theorem hasId_false_iff (s : Bcache) (dev blockno : Nat) (p : Ptr) (x : Buf)
    (hx : deref s p = some x) :
    hasId s dev blockno p = false ↔ (x.dev ≠ dev ∨ x.blockno ≠ blockno) := by
  simp only [hasId, hx, Bool.and_eq_false_iff, decide_eq_false_iff_not, ne_eq]

theorem lookup_list (s : Bcache) (k dev blockno : Nat) :
    ∀ (ps : List Ptr) (start : Ptr) (fuel : Nat),
      isListFrom s k start ps = true → ps.length < fuel →
      (lookup s k dev blockno fuel start = Look.miss ∧
        ∀ p ∈ ps, hasId s dev blockno p = false) ∨
      (∃ pre q post, ps = pre ++ q :: post ∧ (∀ p ∈ pre, hasId s dev blockno p = false) ∧
        hasId s dev blockno q = true ∧ lookup s k dev blockno fuel start = Look.found q) := by
  intro ps
  induction ps with
  | nil =>
    intro start fuel hl hf
    left
    simp only [isListFrom, decide_eq_true_eq] at hl
    cases fuel with
    | zero => simp at hf
    | succ f =>
      refine ⟨by simp [lookup, hl], ?_⟩
      intro p hp; cases hp
  | cons q qs ih =>
    intro start fuel hl hf
    simp only [isListFrom, Bool.and_eq_true, decide_eq_true_eq] at hl
    obtain ⟨⟨hstart, hne⟩, hrest⟩ := hl
    cases fuel with
    | zero => simp at hf
    | succ f =>
      cases hx : deref s q with
      | none => rw [hx] at hrest; cases hrest
      | some x =>
        rw [hx] at hrest
        simp only at hrest
        subst hstart
        by_cases hid : hasId s dev blockno start = true
        · right
          refine ⟨[], start, qs, rfl, by simp, hid, ?_⟩
          have hm : ¬ (x.dev ≠ dev ∨ x.blockno ≠ blockno) := by
            intro hcon
            have := (hasId_false_iff s dev blockno start x hx).mpr hcon
            rw [this] at hid; cases hid
          simp only [lookup, hne, if_false, hx, hm]
        · have hid2 : hasId s dev blockno start = false := by
            cases h : hasId s dev blockno start
            · rfl
            · exact absurd h hid
          have hm := (hasId_false_iff s dev blockno start x hx).mp hid2
          have hstep : lookup s k dev blockno (f + 1) start = lookup s k dev blockno f x.next := by
            simp only [lookup, hne, if_false, hx, hm, if_true]
          have hf2 : qs.length < f := by
            simp only [List.length_cons] at hf; omega
          rcases ih x.next f hrest hf2 with ⟨hmiss, hall⟩ | ⟨pre, q2, post, hsplit, hpre, hq2, hfound⟩
          · left
            refine ⟨by rw [hstep]; exact hmiss, ?_⟩
            intro p hp
            rcases List.mem_cons.mp hp with rfl | hp2
            · exact hid2
            · exact hall p hp2
          · right
            refine ⟨start :: pre, q2, post, by simp [hsplit], ?_, hq2, by rw [hstep]; exact hfound⟩
            intro p hp
            rcases List.mem_cons.mp hp with rfl | hp2
            · exact hid2
            · exact hpre p hp2

theorem lookup_first (s : Bcache) (k dev blockno : Nat) (q : Ptr) (post : List Ptr) :
    ∀ (pre : List Ptr) (start : Ptr) (fuel : Nat),
      isListFrom s k start (pre ++ q :: post) = true →
      (∀ p ∈ pre, hasId s dev blockno p = false) → hasId s dev blockno q = true →
      pre.length < fuel → lookup s k dev blockno fuel start = Look.found q := by
  intro pre
  induction pre with
  | nil =>
    intro start fuel hl _ hq hf
    simp only [List.nil_append, isListFrom, Bool.and_eq_true, decide_eq_true_eq] at hl
    obtain ⟨⟨hstart, hne⟩, hrest⟩ := hl
    subst hstart
    cases fuel with
    | zero => simp at hf
    | succ f =>
      cases hx : deref s start with
      | none => rw [hx] at hrest; cases hrest
      | some x =>
        have hm : ¬ (x.dev ≠ dev ∨ x.blockno ≠ blockno) := by
          intro hcon
          have := (hasId_false_iff s dev blockno start x hx).mpr hcon
          rw [this] at hq; cases hq
        simp only [lookup, hne, if_false, hx, hm]
  | cons p pre ih =>
    intro start fuel hl hpre hq hf
    simp only [List.cons_append, isListFrom, Bool.and_eq_true, decide_eq_true_eq] at hl
    obtain ⟨⟨hstart, hne⟩, hrest⟩ := hl
    subst hstart
    cases fuel with
    | zero => simp at hf
    | succ f =>
      cases hx : deref s start with
      | none => rw [hx] at hrest; cases hrest
      | some x =>
        rw [hx] at hrest
        simp only at hrest
        have hm := (hasId_false_iff s dev blockno start x hx).mp
          (hpre start (List.mem_cons_self _ _))
        have hstep : lookup s k dev blockno (f + 1) start = lookup s k dev blockno f x.next := by
          simp only [lookup, hne, if_false, hx, hm, if_true]
        rw [hstep]
        exact ih x.next f hrest (fun p2 hp2 => hpre p2 (List.mem_cons_of_mem _ hp2)) hq
          (by simp only [List.length_cons] at hf; omega)

theorem isListFrom_congr (s s1 : Bcache) (k : Nat)
    (h : ∀ q, (deref s1 q).map (fun x => x.next) = (deref s q).map (fun x => x.next)) :
    ∀ (ps : List Ptr) (p : Ptr), isListFrom s1 k p ps = isListFrom s k p ps := by
  intro ps
  induction ps with
  | nil => intro p; rfl
  | cons q qs ih =>
    intro p
    simp only [isListFrom]
    have hq := h q
    cases h1 : deref s1 q with
    | none =>
      rw [h1] at hq
      cases h0 : deref s q with
      | none => rfl
      | some x => rw [h0] at hq; cases hq
    | some y =>
      rw [h1] at hq
      cases h0 : deref s q with
      | none => rw [h0] at hq; cases hq
      | some x =>
        rw [h0] at hq
        simp only [Option.map_some', Option.some.injEq] at hq
        simp only [hq, ih]

theorem acquiresleep_slot (s : Bcache) (pid i : Nat) (b : Buf) (hb : s.buf[i]? = some b) :
    acquiresleep s pid (Ptr.slot i) =
      match b.lock with
      | none => Outcome.ret { s with buf := s.buf.set i { b with lock := some pid } } (Ptr.slot i)
      | some _ => Outcome.sleeps s (Ptr.slot i) := by
  have hi : i < s.buf.length := by
    by_contra h
    rw [List.getElem?_eq_none (by omega)] at hb; cases hb
  simp only [acquiresleep, deref, hb]
  cases hl : b.lock with
  | none => simp only [store, hi, if_true]
  | some q => rfl

/-- C2. Eviction picks the least recently used free slot: whenever `bget`
misses in the target bucket and goes on with a victim, that victim is a pool
slot with `refcnt == 0` whose `tick` is at most the `tick` of every pool slot
with `refcnt == 0`, and no such slot of equal `tick` has a lower index.  In
particular a slot with a non-zero `refcnt` is never the victim. -/
theorem bget_victim_is_lru (fuel : Nat) (s : Bcache) (pid dev blockno ticks : Nat) (hd : Buf)
    (hhd : deref s (Ptr.head (blockno % N_BUCKETS)) = some hd)
    (hmiss : lookup s (blockno % N_BUCKETS) dev blockno fuel hd.next = Look.miss)
    (s1 : Bcache) (p : Ptr)
    (hout : bget fuel s pid dev blockno ticks = Outcome.ret s1 p ∨
      bget fuel s pid dev blockno ticks = Outcome.sleeps s1 p) :
    ∃ v vb, p = Ptr.slot v ∧ findVictim s = some v ∧ s.buf[v]? = some vb ∧ vb.refcnt = 0 ∧
      ∀ j b, s.buf[j]? = some b → b.refcnt = 0 →
        vb.tick ≤ b.tick ∧ (b.tick = vb.tick → v ≤ j) := by
  have hspec := findVictim_spec s
  have hb : bget fuel s pid dev blockno ticks =
      match findVictim s with
      | none => Outcome.panic "bget: no buffers"
      | some v =>
        match rebind s v (blockno % N_BUCKETS) dev blockno ticks with
        | none => Outcome.fault
        | some s1 => acquiresleep s1 pid (Ptr.slot v) := by
    simp only [bget, hhd, hmiss]
  rw [hb] at hout
  cases hv : findVictim s with
  | none => simp only [hv] at hout; rcases hout with h | h <;> cases h
  | some v =>
    rw [hv] at hspec
    simp only [hv] at hout
    obtain ⟨_, vb, hvb, hvr, hmin⟩ := hspec
    have hp : p = Ptr.slot v := by
      cases hr : rebind s v (blockno % N_BUCKETS) dev blockno ticks with
      | none => simp only [hr] at hout; rcases hout with h | h <;> cases h
      | some s2 =>
        simp only [hr] at hout
        simp only [acquiresleep] at hout
        cases hd2 : deref s2 (Ptr.slot v) with
        | none => rw [hd2] at hout; rcases hout with h | h <;> cases h
        | some b2 =>
          rw [hd2] at hout
          simp only at hout
          cases hl : b2.lock with
          | some q =>
            rw [hl] at hout
            rcases hout with h | h
            · cases h
            · cases h; rfl
          | none =>
            rw [hl] at hout
            simp only at hout
            cases hst : store s2 (Ptr.slot v) { b2 with lock := some pid } with
            | none => rw [hst] at hout; rcases hout with h | h <;> cases h
            | some s3 =>
              rw [hst] at hout
              rcases hout with h | h
              · cases h; rfl
              · cases h
    refine ⟨v, vb, hp, rfl, hvb, hvr, ?_⟩
    intro j b hj hr
    have hjlt : j < s.buf.length := by
      by_contra h
      rw [List.getElem?_eq_none (by omega)] at hj; cases hj
    exact hmin j b hjlt hj hr

theorem bget_hit_eq (s : Bcache) (pid dev blockno ticks i : Nat) (b : Buf)
    (pre post : List Ptr)
    (hlist : bucketList s (blockno % N_BUCKETS) (pre ++ Ptr.slot i :: post) = true)
    (hb : s.buf[i]? = some b) (hdev : b.dev = dev) (hbno : b.blockno = blockno)
    (hfirst : ∀ p ∈ pre, hasId s dev blockno p = false)
    (fuel : Nat) (hfuel : pre.length < fuel) :
    bget fuel s pid dev blockno ticks =
      match b.lock with
      | none =>
        Outcome.ret
          { s with
            buf := s.buf.set i ({ b with tick := ticks, refcnt := uintInc b.refcnt, lock := some pid }) }
          (Ptr.slot i)
      | some _ =>
        Outcome.sleeps
          { s with buf := s.buf.set i ({ b with tick := ticks, refcnt := uintInc b.refcnt }) }
          (Ptr.slot i) := by
  unfold bucketList at hlist
  cases hhd : deref s (Ptr.head (blockno % N_BUCKETS)) with
  | none => rw [hhd] at hlist; cases hlist
  | some hd =>
    rw [hhd] at hlist
    simp only at hlist
    have hidi : hasId s dev blockno (Ptr.slot i) = true := by
      simp [hasId, deref, hb, hdev, hbno]
    have hfound : lookup s (blockno % N_BUCKETS) dev blockno fuel hd.next
        = Look.found (Ptr.slot i) :=
      lookup_first s (blockno % N_BUCKETS) dev blockno (Ptr.slot i) post pre hd.next fuel
        hlist hfirst hidi hfuel
    obtain ⟨s1, hmod, _⟩ := modify_of_deref s (Ptr.slot i)
      (fun x => { x with tick := ticks, refcnt := uintInc x.refcnt }) b (by simpa [deref] using hb)
    obtain ⟨b0, hb0, hs1⟩ := modify_slot_frame hmod
    rw [hb] at hb0; cases hb0
    have hi : i < s.buf.length := by
      by_contra h
      rw [List.getElem?_eq_none (by omega)] at hb; cases hb
    have hb1 : s1.buf[i]? = some { b with tick := ticks, refcnt := uintInc b.refcnt } := by
      rw [hs1]; simp [List.getElem?_set, hi]
    have hbg : bget fuel s pid dev blockno ticks = acquiresleep s1 pid (Ptr.slot i) := by
      simp only [bget, hhd, hfound, hmod]
    rw [hbg, acquiresleep_slot s1 pid i _ hb1]
    cases hl : b.lock with
    | none => simp only [hs1, hl, List.set_set]
    | some q => simp only [hs1, hl]

theorem bucketList_set_slot (s : Bcache) (i : Nat) (b b1 : Buf) (hb : s.buf[i]? = some b)
    (hnext : b1.next = b.next) (k : Nat) (qs : List Ptr) :
    bucketList { s with buf := s.buf.set i b1 } k qs = bucketList s k qs := by
  have hi : i < s.buf.length := by
    by_contra h
    rw [List.getElem?_eq_none (by omega)] at hb; cases hb
  have hst : store s (Ptr.slot i) b1 = some { s with buf := s.buf.set i b1 } := by
    simp only [store, hi, if_true]
  have hcongr : ∀ q, (deref { s with buf := s.buf.set i b1 } q).map (fun x => x.next)
      = (deref s q).map (fun x => x.next) := by
    intro q
    rw [deref_store hst q]
    by_cases hq : q = Ptr.slot i
    · subst hq
      simp [deref, hb, hnext]
    · simp [hq]
  unfold bucketList
  have hhead : deref { s with buf := s.buf.set i b1 } (Ptr.head k) = deref s (Ptr.head k) := by
    rw [deref_store hst]; simp
  rw [hhead]
  cases deref s (Ptr.head k) with
  | none => rfl
  | some hd => exact isListFrom_congr s _ k hcongr qs hd.next

/-- C7. Cache hit: if pool slot `i` has identity `(dev, blockno)` and is linked
in the list of bucket `blockno % N_BUCKETS`, with no buffer of that identity
before it in the list, then (given fuel for the walk up to it)
`bget(dev, blockno)` ends on slot `i`, returning it when its data lock is free
and sleeping on the lock otherwise.  The slot has `refcnt` increased by exactly
1 (on the `uint`: a count of 4294967295 would wrap to 0) and `tick` set to the
current tick; its `dev`, `blockno`, `valid`, links and
data are unchanged, as are every bucket head, every other pool slot and every
bucket list, so no second binding is made. -/
theorem bget_hit (s : Bcache) (pid dev blockno ticks i : Nat) (b : Buf) (pre post : List Ptr)
    (hlist : bucketList s (blockno % N_BUCKETS) (pre ++ Ptr.slot i :: post) = true)
    (hb : s.buf[i]? = some b) (hdev : b.dev = dev) (hbno : b.blockno = blockno)
    (hfirst : ∀ p ∈ pre, hasId s dev blockno p = false)
    (fuel : Nat) (hfuel : pre.length < fuel) :
    ∃ s1 b1,
      (b.lock = none → bget fuel s pid dev blockno ticks = Outcome.ret s1 (Ptr.slot i) ∧
        b1.lock = some pid) ∧
      (b.lock ≠ none → bget fuel s pid dev blockno ticks = Outcome.sleeps s1 (Ptr.slot i) ∧
        b1.lock = b.lock) ∧
      s1.buf[i]? = some b1 ∧ b1.refcnt = (b.refcnt + 1) % 2 ^ 32 ∧
      (b.refcnt + 1 < 2 ^ 32 → b1.refcnt = b.refcnt + 1) ∧ b1.tick = ticks ∧
      b1.dev = dev ∧ b1.blockno = blockno ∧ b1.valid = b.valid ∧
      b1.prev = b.prev ∧ b1.next = b.next ∧ b1.data = b.data ∧
      s1.hash_table = s.hash_table ∧
      s1.buf.length = s.buf.length ∧
      (∀ j, j ≠ i → s1.buf[j]? = s.buf[j]?) ∧
      (∀ k qs, bucketList s1 k qs = bucketList s k qs) := by
  have heq := bget_hit_eq s pid dev blockno ticks i b pre post hlist hb hdev hbno hfirst fuel hfuel
  have hi : i < s.buf.length := by
    by_contra h
    rw [List.getElem?_eq_none (by omega)] at hb; cases hb
  by_cases hl : b.lock = none
  · simp only [hl] at heq
    refine ⟨{ s with
        buf := s.buf.set i ({ b with tick := ticks, refcnt := uintInc b.refcnt, lock := some pid }) },
      { b with tick := ticks, refcnt := uintInc b.refcnt, lock := some pid },
      fun _ => ⟨heq, rfl⟩, fun h => absurd hl h, ?_, rfl, (fun h => Nat.mod_eq_of_lt h), rfl,
      hdev, hbno, rfl, rfl, rfl, rfl,
      rfl, ?_, ?_, ?_⟩
    · exact List.getElem?_set_self hi
    · simp
    · intro j hj
      simp [List.getElem?_set, Ne.symm hj]
    · intro k qs
      exact bucketList_set_slot s i b
        ({ b with tick := ticks, refcnt := uintInc b.refcnt, lock := some pid }) hb rfl k qs
  · obtain ⟨q, hq⟩ := Option.ne_none_iff_exists'.mp hl
    simp only [hq] at heq
    have heq2 : bget fuel s pid dev blockno ticks = Outcome.sleeps
        { s with buf := s.buf.set i ({ b with tick := ticks, refcnt := uintInc b.refcnt }) }
        (Ptr.slot i) := by
      rw [heq]
      have : ({ b with tick := ticks, refcnt := uintInc b.refcnt } : Buf)
          = { b with tick := ticks, refcnt := uintInc b.refcnt, lock := some q } := by
        rw [← hq]
      rw [this]
    refine ⟨{ s with buf := s.buf.set i ({ b with tick := ticks, refcnt := uintInc b.refcnt }) },
      { b with tick := ticks, refcnt := uintInc b.refcnt },
      fun h => absurd h hl, fun _ => ⟨heq2, rfl⟩, ?_, rfl, (fun h => Nat.mod_eq_of_lt h), rfl,
      hdev, hbno, rfl, rfl, rfl,
      rfl, rfl, ?_, ?_, ?_⟩
    · exact List.getElem?_set_self hi
    · simp
    · intro j hj
      simp [List.getElem?_set, Ne.symm hj]
    · intro k qs
      exact bucketList_set_slot s i b
        ({ b with tick := ticks, refcnt := uintInc b.refcnt }) hb rfl k qs

/-! ## The rebinding step does not fault on valid links -/

theorem bucket_add_ok (s : Bcache) (k : Nat) (p : Ptr) (h : Buf)
    (hh : deref s (Ptr.head k) = some h) (hp : (deref s p).isSome = true)
    (hn : (deref s h.next).isSome = true) (hne : p ≠ Ptr.head k) :
    ∃ s1, bucket_add s k p = some s1 ∧ ∀ q, (deref s1 q).isSome = (deref s q).isSome := by
  obtain ⟨x, hx⟩ := Option.isSome_iff_exists.mp hp
  obtain ⟨s1, hm1, _⟩ := modify_of_deref s p (fun b => { b with next := h.next }) x hx
  have hv1 := isSome_modify hm1
  have hh1 : deref s1 (Ptr.head k) = some h := by
    rw [deref_modify hm1, if_neg (Ne.symm hne), hh]
  obtain ⟨y, hy⟩ := Option.isSome_iff_exists.mp (by rw [hv1]; exact hn : (deref s1 h.next).isSome = true)
  obtain ⟨s2, hm2, _⟩ := modify_of_deref s1 h.next (fun b => { b with prev := p }) y hy
  have hv2 := isSome_modify hm2
  obtain ⟨z, hz⟩ := Option.isSome_iff_exists.mp
    (by rw [hv2, hh1]; rfl : (deref s2 (Ptr.head k)).isSome = true)
  obtain ⟨s3, hm3, _⟩ := modify_of_deref s2 (Ptr.head k) (fun b => { b with next := p }) z hz
  have hv3 := isSome_modify hm3
  obtain ⟨w, hw⟩ := Option.isSome_iff_exists.mp
    (by rw [hv3, hv2, hv1]; exact hp : (deref s3 p).isSome = true)
  obtain ⟨s4, hm4, _⟩ := modify_of_deref s3 p (fun b => { b with prev := Ptr.head k }) w hw
  have hv4 := isSome_modify hm4
  refine ⟨s4, ?_, ?_⟩
  · simp only [bucket_add, hh, hm1, hh1, hm2, hm3, hm4]
  · intro q; rw [hv4, hv3, hv2, hv1]

theorem unlink_ok (s : Bcache) (v : Ptr) (b : Buf) (hv : deref s v = some b)
    (hp : (deref s b.prev).isSome = true) (hn : (deref s b.next).isSome = true) :
    ∃ s1, unlink s v = some s1 ∧ (∀ q, (deref s1 q).isSome = (deref s q).isSome) ∧
      ∀ q y, deref s1 q = some y → ∃ x, deref s q = some x ∧ (y.next = x.next ∨ y.next = b.next) := by
  obtain ⟨x, hx⟩ := Option.isSome_iff_exists.mp hp
  obtain ⟨s1, hm1, _⟩ := modify_of_deref s b.prev (fun x => { x with next := b.next }) x hx
  have hv1 := isSome_modify hm1
  have hb1 : deref s1 v = some b := by
    rw [deref_modify hm1]
    by_cases hvp : v = b.prev
    · rw [if_pos hvp, ← hvp, hv]; rfl
    · rw [if_neg hvp, hv]
  obtain ⟨y, hy⟩ := Option.isSome_iff_exists.mp (by rw [hv1]; exact hn : (deref s1 b.next).isSome = true)
  obtain ⟨s2, hm2, _⟩ := modify_of_deref s1 b.next (fun x => { x with prev := b.prev }) y hy
  have hv2 := isSome_modify hm2
  refine ⟨s2, ?_, ?_, ?_⟩
  · simp only [unlink, hv, hm1, hb1, hm2]
  · intro q; rw [hv2, hv1]
  · intro q z hz
    rw [deref_modify hm2] at hz
    have h1 : ∃ z1, deref s1 q = some z1 ∧ z.next = z1.next := by
      by_cases hq : q = b.next
      · rw [if_pos hq, ← hq] at hz
        cases hd1 : deref s1 q with
        | none => rw [hd1] at hz; cases hz
        | some z1 =>
          rw [hd1] at hz
          simp only [Option.map_some', Option.some.injEq] at hz
          exact ⟨z1, rfl, by rw [← hz]⟩
      · rw [if_neg hq] at hz
        exact ⟨z, hz, rfl⟩
    obtain ⟨z1, hz1, hzn⟩ := h1
    rw [deref_modify hm1] at hz1
    by_cases hq : q = b.prev
    · rw [if_pos hq, ← hq] at hz1
      cases hd0 : deref s q with
      | none => rw [hd0] at hz1; cases hz1
      | some z0 =>
        rw [hd0] at hz1
        simp only [Option.map_some', Option.some.injEq] at hz1
        exact ⟨z0, rfl, Or.inr (by rw [hzn, ← hz1])⟩
    · rw [if_neg hq] at hz1
      exact ⟨z1, hz1, Or.inl hzn⟩

theorem rebind_ok (s : Bcache) (v k dev blockno ticks : Nat) (vb hd : Buf)
    (hvb : s.buf[v]? = some vb) (hhd : deref s (Ptr.head k) = some hd)
    (hnext : (deref s hd.next).isSome = true)
    (hlinks : vb.tick ≠ 0 →
      (deref s vb.prev).isSome = true ∧ (deref s vb.next).isSome = true) :
    ∃ s1, rebind s v k dev blockno ticks = some s1 ∧ (deref s1 (Ptr.slot v)).isSome = true := by
  have hdv : deref s (Ptr.slot v) = some vb := by simpa [deref] using hvb
  obtain ⟨s1, hm1, _⟩ := modify_of_deref s (Ptr.slot v)
    (fun b => replace_buffer b dev blockno ticks) vb hdv
  have hv1 := isSome_modify hm1
  have hne : Ptr.slot v ≠ Ptr.head k := by intro h; cases h
  have hh1 : deref s1 (Ptr.head k) = some hd := by
    rw [deref_modify hm1, if_neg (Ne.symm hne), hhd]
  have hslot1 : deref s1 (Ptr.slot v) = some (replace_buffer vb dev blockno ticks) := by
    rw [deref_modify hm1, if_pos rfl, hdv]; rfl
  by_cases ht : vb.tick = 0
  · obtain ⟨s2, hadd, hv2⟩ := bucket_add_ok s1 k (Ptr.slot v) hd hh1
      (by rw [hslot1]; rfl) (by rw [hv1]; exact hnext) hne
    refine ⟨s2, ?_, ?_⟩
    · simp only [rebind, hvb, ht, if_true, hm1, hadd]
    · rw [hv2, hslot1]; rfl
  · by_cases hbk : vb.blockno % N_BUCKETS ≠ k
    · obtain ⟨hvp, hvn⟩ := hlinks ht
      obtain ⟨s2, hun, hv2, hnx⟩ := unlink_ok s1 (Ptr.slot v) (replace_buffer vb dev blockno ticks)
        hslot1 (by rw [hv1]; exact hvp) (by rw [hv1]; exact hvn)
      obtain ⟨h2, hh2⟩ := Option.isSome_iff_exists.mp
        (by rw [hv2, hh1]; rfl : (deref s2 (Ptr.head k)).isSome = true)
      have hn2 : (deref s2 h2.next).isSome = true := by
        obtain ⟨x, hx, hor⟩ := hnx (Ptr.head k) h2 hh2
        rw [hh1] at hx; cases hx
        rcases hor with h | h
        · rw [h, hv2, hv1]; exact hnext
        · rw [h, hv2, hv1]; exact hvn
      obtain ⟨s3, hadd, hv3⟩ := bucket_add_ok s2 k (Ptr.slot v) h2 hh2
        (by rw [hv2, hslot1]; rfl) hn2 hne
      refine ⟨s3, ?_, ?_⟩
      · simp only [rebind, hvb, ht, if_false, hm1, hun, hadd]
        rw [if_pos hbk]
      · rw [hv3, hv2, hslot1]; rfl
    · refine ⟨s1, ?_, ?_⟩
      · simp only [rebind, hvb, ht, if_false, hbk, hm1]
      · rw [hslot1]; rfl

theorem acquiresleep_ok (s : Bcache) (pid : Nat) (p : Ptr) (h : (deref s p).isSome = true) :
    ∃ s1, acquiresleep s pid p = Outcome.ret s1 p ∨ acquiresleep s pid p = Outcome.sleeps s1 p := by
  obtain ⟨x, hx⟩ := Option.isSome_iff_exists.mp h
  cases hl : x.lock with
  | some q => exact ⟨s, Or.inr (by simp only [acquiresleep, hx, hl])⟩
  | none =>
    obtain ⟨s1, hs1⟩ := store_of_isSome s p { x with lock := some pid } h
    exact ⟨s1, Or.inl (by simp only [acquiresleep, hx, hl, hs1])⟩

theorem acquiresleep_not_panic (s : Bcache) (pid : Nat) (p : Ptr) (msg : String) :
    acquiresleep s pid p ≠ Outcome.panic msg := by
  intro h
  unfold acquiresleep at h
  cases hx : deref s p with
  | none => rw [hx] at h; cases h
  | some x =>
    rw [hx] at h
    simp only at h
    cases hl : x.lock with
    | some q => rw [hl] at h; cases h
    | none =>
      rw [hl] at h
      simp only at h
      cases hst : store s p { x with lock := some pid } with
      | none => rw [hst] at h; cases h
      | some s2 => rw [hst] at h; cases h

theorem acquiresleep_sleeps (s : Bcache) (pid : Nat) (p : Ptr) (s1 : Bcache) (p1 : Ptr)
    (h : acquiresleep s pid p = Outcome.sleeps s1 p1) :
    ∃ x q, deref s1 p1 = some x ∧ x.lock = some q := by
  unfold acquiresleep at h
  cases hx : deref s p with
  | none => rw [hx] at h; cases h
  | some x =>
    rw [hx] at h
    simp only at h
    cases hl : x.lock with
    | some q =>
      rw [hl] at h
      cases h
      exact ⟨x, q, hx, hl⟩
    | none =>
      rw [hl] at h
      simp only at h
      cases hst : store s p { x with lock := some pid } with
      | none => rw [hst] at h; cases h
      | some s2 => rw [hst] at h; cases h

theorem bget_sleeps (fuel : Nat) (s : Bcache) (pid dev blockno ticks : Nat) (s1 : Bcache)
    (p : Ptr) (h : bget fuel s pid dev blockno ticks = Outcome.sleeps s1 p) :
    ∃ x q, deref s1 p = some x ∧ x.lock = some q := by
  unfold bget at h
  simp only at h
  cases hhd : deref s (Ptr.head (blockno % N_BUCKETS)) with
  | none => rw [hhd] at h; cases h
  | some hd =>
    rw [hhd] at h
    simp only at h
    cases hlk : lookup s (blockno % N_BUCKETS) dev blockno fuel hd.next with
    | timeout => rw [hlk] at h; cases h
    | fault => rw [hlk] at h; cases h
    | found b =>
      rw [hlk] at h
      simp only at h
      cases hm : modify s b (fun x => { x with tick := ticks, refcnt := uintInc x.refcnt }) with
      | none => rw [hm] at h; cases h
      | some s2 =>
        rw [hm] at h
        exact acquiresleep_sleeps s2 pid b s1 p h
    | miss =>
      rw [hlk] at h
      simp only at h
      cases hv : findVictim s with
      | none => rw [hv] at h; cases h
      | some v =>
        rw [hv] at h
        simp only at h
        cases hr : rebind s v (blockno % N_BUCKETS) dev blockno ticks with
        | none => rw [hr] at h; cases h
        | some s2 =>
          rw [hr] at h
          exact acquiresleep_sleeps s2 pid (Ptr.slot v) s1 p h

theorem bucketList_head_next (s : Bcache) (k : Nat) (ps : List Ptr) (hd : Buf)
    (hhd : deref s (Ptr.head k) = some hd) (hl : isListFrom s k hd.next ps = true) :
    (deref s hd.next).isSome = true := by
  cases ps with
  | nil =>
    simp only [isListFrom, decide_eq_true_eq] at hl
    rw [hl, hhd]; rfl
  | cons q qs =>
    simp only [isListFrom, Bool.and_eq_true, decide_eq_true_eq] at hl
    obtain ⟨⟨hq, _⟩, hrest⟩ := hl
    rw [hq]
    cases hx : deref s q with
    | none => rw [hx] at hrest; cases hrest
    | some x => rfl

/-- Where the lists are proper, pool exhaustion is the only fatal case of
`bget`.  In a state whose target bucket `blockno % N_BUCKETS` has the proper membership list `ps` and
whose link fields are valid, `bget(dev, blockno)` (given fuel for the walk)
panics with "bget: no buffers" exactly when no buffer of `ps` has identity
`(dev, blockno)` and every pool slot has `refcnt != 0`.  In every other case it
ends on a buffer: it returns it, or sleeps on its data lock, which happens only
when that lock is held. -/
theorem bget_panic_iff (s : Bcache) (pid dev blockno ticks : Nat) (ps : List Ptr)
    (hlist : bucketList s (blockno % N_BUCKETS) ps = true) (hlinks : LinksValid s)
    (fuel : Nat) (hfuel : ps.length < fuel) :
    (bget fuel s pid dev blockno ticks = Outcome.panic "bget: no buffers" ↔
      ((∀ p ∈ ps, hasId s dev blockno p = false) ∧ ∀ b ∈ s.buf, b.refcnt ≠ 0)) ∧
    (¬ ((∀ p ∈ ps, hasId s dev blockno p = false) ∧ ∀ b ∈ s.buf, b.refcnt ≠ 0) →
      ∃ s1 p, bget fuel s pid dev blockno ticks = Outcome.ret s1 p ∨
        bget fuel s pid dev blockno ticks = Outcome.sleeps s1 p) ∧
    (∀ s1 p, bget fuel s pid dev blockno ticks = Outcome.sleeps s1 p →
      ∃ x q, deref s1 p = some x ∧ x.lock = some q) := by
  refine ⟨?_, ?_, fun s1 p h => bget_sleeps fuel s pid dev blockno ticks s1 p h⟩
  all_goals
    unfold bucketList at hlist
    cases hhd : deref s (Ptr.head (blockno % N_BUCKETS)) with
    | none => rw [hhd] at hlist; cases hlist
    | some hd =>
      rw [hhd] at hlist
      simp only at hlist
      have hnext := bucketList_head_next s _ ps hd hhd hlist
      rcases lookup_list s (blockno % N_BUCKETS) dev blockno ps hd.next fuel hlist hfuel with
        ⟨hmiss, hall⟩ | ⟨pre, q, post, hsplit, _, hq, hf⟩
      · -- the bucket misses
        cases hv : findVictim s with
        | none =>
          have hb : bget fuel s pid dev blockno ticks = Outcome.panic "bget: no buffers" := by
            simp only [bget, hhd, hmiss, hv]
          have hall2 := (findVictim_none_iff s).mp hv
          first
          | exact ⟨fun _ => ⟨hall, hall2⟩, fun _ => hb⟩
          | exact fun hn => absurd ⟨hall, hall2⟩ hn
        | some v =>
          have hspec := findVictim_spec s
          rw [hv] at hspec
          obtain ⟨_, vb, hvb, hvr, _⟩ := hspec
          obtain ⟨s1, hr, hvalid⟩ := rebind_ok s v (blockno % N_BUCKETS) dev blockno ticks vb hd
            hvb hhd hnext (hlinks v vb hvb)
          have hb : bget fuel s pid dev blockno ticks = acquiresleep s1 pid (Ptr.slot v) := by
            simp only [bget, hhd, hmiss, hv, hr]
          have hnot : ¬ ∀ b ∈ s.buf, b.refcnt ≠ 0 := by
            intro hall2
            exact hall2 vb (List.mem_iff_getElem?.mpr ⟨v, hvb⟩) hvr
          first
          | refine ⟨fun hp => ?_, fun hc => absurd hc.2 hnot⟩
            rw [hb] at hp
            exact absurd hp (acquiresleep_not_panic s1 pid _ _)
          | intro _
            obtain ⟨s2, hs2⟩ := acquiresleep_ok s1 pid (Ptr.slot v) hvalid
            exact ⟨s2, Ptr.slot v, by rw [hb]; exact hs2⟩
      · -- the bucket hits on `q`
        have hqm : q ∈ ps := by rw [hsplit]; simp
        have hnot : ¬ ∀ p ∈ ps, hasId s dev blockno p = false := by
          intro hall
          rw [hall q hqm] at hq; cases hq
        obtain ⟨x, hx⟩ : ∃ x, deref s q = some x := by
          cases hx : deref s q with
          | none => simp [hasId, hx] at hq
          | some x => exact ⟨x, rfl⟩
        obtain ⟨s1, hm1, _⟩ := modify_of_deref s q
          (fun x => { x with tick := ticks, refcnt := uintInc x.refcnt }) x hx
        have hb : bget fuel s pid dev blockno ticks = acquiresleep s1 pid q := by
          simp only [bget, hhd, hf, hm1]
        first
        | refine ⟨fun hp => ?_, fun hc => absurd hc.1 hnot⟩
          rw [hb] at hp
          exact absurd hp (acquiresleep_not_panic s1 pid _ _)
        | intro _
          obtain ⟨s2, hs2⟩ := acquiresleep_ok s1 pid q
            (by rw [isSome_modify hm1, hx]; rfl)
          exact ⟨s2, q, by rw [hb]; exact hs2⟩

theorem linksValid_of_check (s : Bcache) (h : linksValidB s = true) : LinksValid s := by
  intro i b hb ht
  unfold linksValidB at h
  rw [List.all_eq_true] at h
  have := h b (List.mem_iff_getElem?.mpr ⟨i, hb⟩)
  simp only [Bool.or_eq_true, decide_eq_true_eq, Bool.and_eq_true] at this
  rcases this with h0 | h1
  · exact absurd h0 ht
  · exact h1

/-- Witness for C2: with slot 0 held, slot 1 released at tick 3 and slot 2 never
used, a miss on block (1,3) takes slot 2. -/
theorem bget_victim_is_lru_witness :
    ∃ v vb, Ptr.slot 2 = Ptr.slot v ∧ findVictim exampleMixed = some v ∧
      exampleMixed.buf[v]? = some vb ∧ vb.refcnt = 0 ∧
      ∀ j b, exampleMixed.buf[j]? = some b → b.refcnt = 0 →
        vb.tick ≤ b.tick ∧ (b.tick = vb.tick → v ≤ j) :=
  bget_victim_is_lru 1 exampleMixed 1 1 3 9
    { prev := Ptr.head 3, next := Ptr.head 3 } (by decide) (by decide)
    ((bget 1 exampleMixed 1 1 3 9).stateD exampleMixed) (Ptr.slot 2) (Or.inl (by decide))

/-- Witness for C7: block (1,1) sits released in slot 0; reading it again at
tick 7 returns slot 0 with `refcnt` 1 and `tick` 7. -/
theorem bget_hit_witness :
    bucketList exampleCached (1 % N_BUCKETS) [Ptr.slot 0] = true ∧
    ∃ s1 b1,
      ((none : Option Nat) = none →
        bget 1 exampleCached 1 1 1 7 = Outcome.ret s1 (Ptr.slot 0) ∧ b1.lock = some 1) ∧
      ((none : Option Nat) ≠ none →
        bget 1 exampleCached 1 1 1 7 = Outcome.sleeps s1 (Ptr.slot 0) ∧ b1.lock = none) ∧
      s1.buf[0]? = some b1 ∧ b1.refcnt = (0 + 1) % 2 ^ 32 ∧
      (0 + 1 < 2 ^ 32 → b1.refcnt = 0 + 1) ∧ b1.tick = 7 ∧
      b1.dev = 1 ∧ b1.blockno = 1 ∧ b1.valid = 0 ∧
      b1.prev = Ptr.head 1 ∧ b1.next = Ptr.head 1 ∧ b1.data = [] ∧
      s1.hash_table = exampleCached.hash_table ∧
      s1.buf.length = exampleCached.buf.length ∧
      (∀ j, j ≠ 0 → s1.buf[j]? = exampleCached.buf[j]?) ∧
      (∀ k qs, bucketList s1 k qs = bucketList exampleCached k qs) :=
  ⟨by decide,
   bget_hit exampleCached 1 1 1 7 0
    { dev := 1, blockno := 1, tick := 5, prev := Ptr.head 1, next := Ptr.head 1 }
    [] [] (by decide) (by decide) rfl rfl
    (by intro p hp; cases hp) 1 (by decide)⟩

/-- With all three slots held, asking for the uncached block (1,4) is fatal. -/
theorem bget_panic_iff_witness :
    bget 1 exampleFull 4 1 4 2 = Outcome.panic "bget: no buffers" :=
  ((bget_panic_iff exampleFull 4 1 4 2 [] (by decide)
    (linksValid_of_check exampleFull (by decide)) 1 (by decide)).1).mpr
    ⟨by simp, by decide⟩

/-! ## The sentinel `tick == 0` collides with the first value of `ticks`

`bget` takes `victim->tick == 0` to mean that the victim was never put into the
hash table, but `replace_buffer` stores the current `ticks`, which is 0 until
the first timer interrupt.  A buffer bound then is later treated as never
bound and linked a second time without being unlinked. -/

/-- C3 (violated by the code). After `binit`, with 30 buffers and `ticks` still 0:
read block 1, release it, read block 2.  Every call returns, and slot 0 is then
linked both into the list of bucket 1 and into the list of bucket 2, although
its block number 2 hashes to bucket 2 only. -/
theorem early_boot_links_slot_twice :
    ∃ s, run 43 (boot 30) earlyBoot = some s ∧
      linkedIn s 1 0 = true ∧ linkedIn s 2 0 = true ∧
      hasId s 1 2 (Ptr.slot 0) = true :=
  ⟨(run 43 (boot 30) earlyBoot).getD (boot 30), by decide, by decide, by decide, by decide⟩

/-- C8 (violated by the code). Slot 0 is bound to block (1,1) in bucket 1 with
`tick == 0` and `refcnt == 0`.  A miss on block (1,2) at tick 5 returns slot 0
rebound to (1,2) with `valid = 0`, `refcnt = 1`, `tick = 5`, linked into
bucket 2, but it is still linked into its old bucket 1. -/
theorem rebind_keeps_old_bucket :
    bucketList exampleTick0 1 [Ptr.slot 0] = true ∧
    hasId exampleTick0 1 1 (Ptr.slot 0) = true ∧
    ∃ s1, bget 43 exampleTick0 1 1 2 5 = Outcome.ret s1 (Ptr.slot 0) ∧
      s1.buf[0]? = some { dev := 1, blockno := 2, valid := 0, refcnt := 1, tick := 5,
                          lock := some 1, prev := Ptr.head 2, next := Ptr.head 2 } ∧
      linkedIn s1 2 0 = true ∧ linkedIn s1 1 0 = true :=
  ⟨by decide, by decide, (bget 43 exampleTick0 1 1 2 5).stateD exampleTick0,
    by decide, by decide, by decide, by decide⟩

/-- C9 (violated by the code). `binit` leaves `tick == 0` in every slot, and a
slot bound while `ticks == 0` carries the same value.  With slot 0 bound to
block (1,1) and released, and slots 1 to 29 never bound, the next miss evicts
the bound slot 0 instead of a never-bound slot. -/
theorem bound_slot_evicted_before_pool_fills :
    (boot 30).buf = List.replicate 30 {} ∧
    linkedIn exampleTick0 1 0 = true ∧ hasId exampleTick0 1 1 (Ptr.slot 0) = true ∧
    (exampleTick0.buf[0]?).map (fun b => b.tick) = some 0 ∧
    exampleTick0.buf.tail = List.replicate 29 {} ∧
    findVictim exampleTick0 = some 0 ∧
    ∃ s1, bget 43 exampleTick0 1 1 2 0 = Outcome.ret s1 (Ptr.slot 0) ∧
      hasId s1 1 2 (Ptr.slot 0) = true ∧ s1.buf.tail = List.replicate 29 {} :=
  ⟨by decide, by decide, by decide, by decide, by decide, by decide,
    (bget 43 exampleTick0 1 1 2 0).stateD exampleTick0, by decide, by decide, by decide⟩

/-- C1 (violated by the code). One process reads and releases blocks through a
pool of three buffers, the first two reads before the first timer tick.  All
23 calls return.  At the end slots 0 and 1 both carry identity (1,1), both are
linked into a bucket list, and both are held (`refcnt == 1`, data lock taken):
the last `bget(1,1)` missed although slot 0 was still bound to block (1,1). -/
theorem uniqueness_broken_after_churn :
    ∃ s, run 16 (boot 3) churn = some s ∧
      hasId s 1 1 (Ptr.slot 0) = true ∧ hasId s 1 1 (Ptr.slot 1) = true ∧
      linkedIn s 2 0 = true ∧ linkedIn s 1 1 = true ∧
      (s.buf[0]?).map (fun b => (b.refcnt, b.lock)) = some (1, some 1) ∧
      (s.buf[1]?).map (fun b => (b.refcnt, b.lock)) = some (1, some 1) :=
  ⟨(run 16 (boot 3) churn).getD (boot 3),
    by decide, by decide, by decide, by decide, by decide, by decide, by decide⟩

/-- The same failure with the default pool of 30 buffers, 27 of which are held
by other processes: slots 27 and 28 end up bound to block (1,1) together. -/
theorem uniqueness_broken_pool30 :
    ∃ s, run 43 (boot 30) churn30 = some s ∧
      hasId s 1 1 (Ptr.slot 27) = true ∧ hasId s 1 1 (Ptr.slot 28) = true ∧
      linkedIn s 2 27 = true ∧ linkedIn s 1 28 = true ∧
      (s.buf[27]?).map (fun b => (b.refcnt, b.lock)) = some (1, some 1) ∧
      (s.buf[28]?).map (fun b => (b.refcnt, b.lock)) = some (1, some 1) :=
  ⟨(run 43 (boot 30) churn30).getD (boot 30),
    by decide, by decide, by decide, by decide, by decide, by decide, by decide⟩

/-- With a sentinel that is really the lowest value, eviction prefers unused
slots: if some pool slot has `tick == 0` and `refcnt == 0`, the victim chosen by
`bget` has `tick == 0` too. -/
theorem victim_prefers_sentinel (s : Bcache) (j : Nat) (bj : Buf) (hj : s.buf[j]? = some bj)
    (ht : bj.tick = 0) (hr : bj.refcnt = 0) :
    ∃ v vb, findVictim s = some v ∧ s.buf[v]? = some vb ∧ vb.tick = 0 ∧ vb.refcnt = 0 := by
  have hspec := findVictim_spec s
  have hjlt : j < s.buf.length := by
    by_contra h
    rw [List.getElem?_eq_none (by omega)] at hj; cases hj
  cases hv : findVictim s with
  | none =>
    rw [hv] at hspec
    exact absurd hr (hspec j bj hjlt hj)
  | some v =>
    rw [hv] at hspec
    obtain ⟨_, vb, hvb, hvr, hmin⟩ := hspec
    have := (hmin j bj hjlt hj hr).1
    exact ⟨v, vb, rfl, hvb, by omega, hvr⟩

/-! ## Well-formedness of the bucket lists

The rest of this part shows that the cache stays well formed as long as the
tick counter is at least 1 at every `bget`, so that the sentinel 0 is only
carried by slots that were never bound. -/

theorem dll_frame (s s1 : Bcache) (k : Nat)
    (hh : ∀ h, s.hash_table[k]? = some h → ∃ h1, s1.hash_table[k]? = some h1 ∧ h1.prev = h.prev) :
    ∀ (L : List Nat) (pv cur : Ptr),
      (∀ i ∈ L, ∀ b, s.buf[i]? = some b →
        ∃ b1, s1.buf[i]? = some b1 ∧ b1.prev = b.prev ∧ b1.next = b.next) →
      dll s k pv cur L → dll s1 k pv cur L := by
  intro L
  induction L with
  | nil =>
    intro pv cur _ h
    obtain ⟨hc, h0, hh0, hp⟩ := h
    obtain ⟨h1, hh1, hp1⟩ := hh h0 hh0
    exact ⟨hc, h1, hh1, by rw [hp1, hp]⟩
  | cons i L ih =>
    intro pv cur hL h
    obtain ⟨hc, b, hb, hp, hrest⟩ := h
    obtain ⟨b1, hb1, hp1, hn1⟩ := hL i (List.mem_cons_self _ _) b hb
    refine ⟨hc, b1, hb1, by rw [hp1, hp], ?_⟩
    rw [hn1]
    exact ih (Ptr.slot i) b.next (fun j hj => hL j (List.mem_cons_of_mem _ hj)) hrest

theorem dll_isListFrom (s : Bcache) (k : Nat) :
    ∀ (L : List Nat) (pv cur : Ptr), dll s k pv cur L →
      isListFrom s k cur (L.map Ptr.slot) = true := by
  intro L
  induction L with
  | nil =>
    intro pv cur h
    simp only [List.map_nil, isListFrom, decide_eq_true_eq]
    exact h.1
  | cons i L ih =>
    intro pv cur h
    obtain ⟨hc, b, hb, _, hrest⟩ := h
    simp only [List.map_cons, isListFrom, Bool.and_eq_true, decide_eq_true_eq]
    refine ⟨⟨hc, by intro h2; cases h2⟩, ?_⟩
    have : deref s (Ptr.slot i) = some b := hb
    rw [this]
    exact ih (Ptr.slot i) b.next hrest

theorem Bucket_bucketList (s : Bcache) (k : Nat) (L : List Nat) (h : Bucket s k L) :
    bucketList s k (L.map Ptr.slot) = true := by
  obtain ⟨hd, hhd, hdll⟩ := h
  have : deref s (Ptr.head k) = some hd := hhd
  simp only [bucketList, this]
  exact dll_isListFrom s k L _ _ hdll

theorem dll_mem (s : Bcache) (k : Nat) :
    ∀ (L : List Nat) (pv cur : Ptr), dll s k pv cur L →
      ∀ i ∈ L, ∃ b, s.buf[i]? = some b := by
  intro L
  induction L with
  | nil => intro pv cur _ i hi; cases hi
  | cons j L ih =>
    intro pv cur h i hi
    obtain ⟨_, b, hb, _, hrest⟩ := h
    rcases List.mem_cons.mp hi with rfl | hi2
    · exact ⟨b, hb⟩
    · exact ih _ _ hrest i hi2

theorem initHeads_getElem? :
    ∀ (l : List Buf) (n k : Nat),
      (initHeads n l)[k]? =
        (l[k]?).map (fun h => { h with prev := Ptr.head (n + k), next := Ptr.head (n + k) }) := by
  intro l
  induction l with
  | nil => intro n k; simp [initHeads]
  | cons h rest ih =>
    intro n k
    cases k with
    | zero => simp [initHeads]
    | succ k =>
      simp only [initHeads, List.getElem?_cons_succ]
      rw [ih (n + 1) k]
      have : n + 1 + k = n + (k + 1) := by omega
      rw [this]

theorem initHeads_length : ∀ (l : List Buf) (n : Nat), (initHeads n l).length = l.length := by
  intro l
  induction l with
  | nil => intro n; rfl
  | cons h rest ih => intro n; simp [initHeads, ih]

theorem boot_buf (NBUF : Nat) : (boot NBUF).buf = List.replicate NBUF {} := by
  simp only [boot, binit, zeroed, List.map_replicate]

theorem flatten_replicate_nil_nat (n : Nat) :
    (List.replicate n ([] : List Nat)).flatten = [] := by
  induction n with
  | zero => rfl
  | succ n ih => simp [List.replicate_succ, ih]

theorem getD_replicate_nil_nat (n i : Nat) :
    (List.replicate n ([] : List Nat)).getD i [] = [] := by
  simp only [List.getD_eq_getElem?_getD, List.getElem?_replicate]
  split <;> rfl

theorem WF_boot (NBUF : Nat) : WF (boot NBUF) (List.replicate N_BUCKETS []) := by
  refine ⟨?_, by simp, ?_, ?_, ?_, ?_, ?_⟩
  · simp [boot, binit, zeroed, initHeads_length]
  · intro k hk
    rw [getD_replicate_nil_nat]
    have hget : (boot NBUF).hash_table[k]? =
        some { prev := Ptr.head k, next := Ptr.head k } := by
      simp only [boot, binit, zeroed]
      rw [initHeads_getElem?, List.getElem?_replicate, if_pos hk]
      simp
    exact ⟨_, hget, rfl, _, hget, rfl⟩
  · rw [flatten_replicate_nil_nat]; exact List.nodup_nil
  · intro k i hi
    rw [getD_replicate_nil_nat] at hi; cases hi
  · intro i b hb _
    rw [boot_buf, List.getElem?_replicate] at hb
    split at hb
    · cases hb; rfl
    · cases hb
  · intro i j bi bj hi
    rw [flatten_replicate_nil_nat] at hi; cases hi

theorem buf_some_of_length (s s1 : Bcache) (hlen : s1.buf.length = s.buf.length) (i : Nat)
    (b1 : Buf) (h : s1.buf[i]? = some b1) : ∃ b, s.buf[i]? = some b := by
  have hi : i < s1.buf.length := by
    by_contra hc
    rw [List.getElem?_eq_none (by omega)] at h; cases h
  exact ⟨s.buf[i], List.getElem?_eq_getElem (by omega)⟩

/-- A step that leaves the links and the identity of every buffer alone, and
changes `tick` only to a non-zero value on linked slots, keeps the cache well
formed with the same bucket lists. -/
theorem WF_of_update (s s1 : Bcache) (Ls : List (List Nat)) (hwf : WF s Ls)
    (hlen : s1.hash_table.length = s.hash_table.length)
    (hblen : s1.buf.length = s.buf.length)
    (hheads : ∀ (k : Nat) (h : Buf), s.hash_table[k]? = some h →
      ∃ h1, s1.hash_table[k]? = some h1 ∧ h1.prev = h.prev ∧ h1.next = h.next)
    (hbuf : ∀ (i : Nat) (b : Buf), s.buf[i]? = some b →
      ∃ b1, s1.buf[i]? = some b1 ∧ b1.prev = b.prev ∧ b1.next = b.next ∧ b1.dev = b.dev ∧
        b1.blockno = b.blockno ∧ (b1.tick = b.tick ∨ (b1.tick ≠ 0 ∧ i ∈ Ls.flatten))) :
    WF s1 Ls := by
  refine ⟨by rw [hlen]; exact hwf.nheads, hwf.nlists, ?_, hwf.nodup, ?_, ?_, ?_⟩
  · intro k hk
    obtain ⟨hd, hhd, hdll⟩ := hwf.buckets k hk
    obtain ⟨h1, hh1, _, hn1⟩ := hheads k hd hhd
    refine ⟨h1, hh1, ?_⟩
    rw [hn1]
    refine dll_frame s s1 k ?_ _ _ _ ?_ hdll
    · intro h hh
      obtain ⟨h2, hh2, hp2, _⟩ := hheads k h hh
      exact ⟨h2, hh2, hp2⟩
    · intro i _ b hb
      obtain ⟨b1, hb1, hp, hn, _⟩ := hbuf i b hb
      exact ⟨b1, hb1, hp, hn⟩
  · intro k i hi
    obtain ⟨b, hb, hbk, hbt⟩ := hwf.home k i hi
    obtain ⟨b1, hb1, _, _, _, hbn, htick⟩ := hbuf i b hb
    refine ⟨b1, hb1, by rw [hbn]; exact hbk, ?_⟩
    rcases htick with h | h
    · rw [h]; exact hbt
    · exact h.1
  · intro i b1 hb1 hnot
    obtain ⟨b, hb⟩ := buf_some_of_length s s1 hblen i b1 hb1
    obtain ⟨b2, hb2, _, _, _, _, htick⟩ := hbuf i b hb
    rw [hb1] at hb2; cases hb2
    rcases htick with h | h
    · rw [h]; exact hwf.unbound i b hb hnot
    · exact absurd h.2 hnot
  · intro i j bi bj hi hj hbi hbj hdev hbno
    obtain ⟨ci, hci⟩ := buf_some_of_length s s1 hblen i bi hbi
    obtain ⟨cj, hcj⟩ := buf_some_of_length s s1 hblen j bj hbj
    obtain ⟨bi2, hbi2, _, _, hd1, hn1, _⟩ := hbuf i ci hci
    obtain ⟨bj2, hbj2, _, _, hd2, hn2, _⟩ := hbuf j cj hcj
    rw [hbi] at hbi2; cases hbi2
    rw [hbj] at hbj2; cases hbj2
    exact hwf.uniq i j ci cj hi hj hci hcj (by rw [← hd1, ← hd2]; exact hdev)
      (by rw [← hn1, ← hn2]; exact hbno)

theorem store_lengths {s s1 : Bcache} {p : Ptr} {b : Buf} (h : store s p b = some s1) :
    s1.hash_table.length = s.hash_table.length ∧ s1.buf.length = s.buf.length := by
  cases p with
  | null => simp [store] at h
  | head k =>
    simp only [store] at h
    split at h
    · cases h; simp
    · cases h
  | slot i =>
    simp only [store] at h
    split at h
    · cases h; simp
    · cases h

theorem modify_lengths {s s1 : Bcache} {p : Ptr} {f : Buf → Buf} (h : modify s p f = some s1) :
    s1.hash_table.length = s.hash_table.length ∧ s1.buf.length = s.buf.length := by
  obtain ⟨x, _, hst⟩ := modify_inv h
  exact store_lengths hst

/-- Updating fields other than the links and the identity of one buffer keeps
the cache well formed. -/
theorem WF_modify (s s1 : Bcache) (Ls : List (List Nat)) (hwf : WF s Ls) (p : Ptr)
    (f : Buf → Buf) (h : modify s p f = some s1)
    (hf : ∀ x, (f x).prev = x.prev ∧ (f x).next = x.next ∧ (f x).dev = x.dev ∧
      (f x).blockno = x.blockno)
    (ht : ∀ x, (f x).tick = x.tick ∨ ((f x).tick ≠ 0 ∧ ∃ i, p = Ptr.slot i ∧ i ∈ Ls.flatten)) :
    WF s1 Ls := by
  obtain ⟨hl1, hl2⟩ := modify_lengths h
  refine WF_of_update s s1 Ls hwf hl1 hl2 ?_ ?_
  · intro k hd hhd
    have hd0 : deref s (Ptr.head k) = some hd := hhd
    have := deref_modify h (Ptr.head k)
    by_cases hp : Ptr.head k = p
    · rw [if_pos hp, ← hp, hd0] at this
      exact ⟨f hd, this, (hf hd).1, (hf hd).2.1⟩
    · rw [if_neg hp, hd0] at this
      exact ⟨hd, this, rfl, rfl⟩
  · intro i b hb
    have hb0 : deref s (Ptr.slot i) = some b := hb
    have := deref_modify h (Ptr.slot i)
    by_cases hp : Ptr.slot i = p
    · rw [if_pos hp, ← hp, hb0] at this
      refine ⟨f b, this, (hf b).1, (hf b).2.1, (hf b).2.2.1, (hf b).2.2.2, ?_⟩
      rcases ht b with h1 | ⟨h1, j, hj, hjm⟩
      · exact Or.inl h1
      · right
        refine ⟨h1, ?_⟩
        rw [← hp] at hj
        cases hj
        exact hjm
    · rw [if_neg hp, hb0] at this
      exact ⟨b, this, rfl, rfl, rfl, rfl, Or.inl rfl⟩

/-! ### The pointer updates of `bucket_add` and of the unlink step -/

theorem bucket_add_deref (s s4 : Bcache) (k : Nat) (p : Ptr) (hd : Buf)
    (hh : deref s (Ptr.head k) = some hd) (hne : p ≠ Ptr.head k) (hnH : p ≠ hd.next)
    (h : bucket_add s k p = some s4) :
    ∀ q, deref s4 q = (deref s q).map (addLinks k p hd.next q) := by
  unfold bucket_add at h
  rw [hh] at h
  simp only at h
  cases hm1 : modify s p (fun b => { b with next := hd.next }) with
  | none => rw [hm1] at h; cases h
  | some s1 =>
    rw [hm1] at h
    simp only at h
    have hh1 : deref s1 (Ptr.head k) = some hd := by
      rw [deref_modify hm1, if_neg (Ne.symm hne), hh]
    rw [hh1] at h
    simp only at h
    cases hm2 : modify s1 hd.next (fun b => { b with prev := p }) with
    | none => rw [hm2] at h; cases h
    | some s2 =>
      rw [hm2] at h
      simp only at h
      cases hm3 : modify s2 (Ptr.head k) (fun b => { b with next := p }) with
      | none => rw [hm3] at h; cases h
      | some s3 =>
        rw [hm3] at h
        simp only at h
        intro q
        simp only [deref_modify h, deref_modify hm3, deref_modify hm2, deref_modify hm1]
        have hne2 : ¬ (Ptr.head k = p) := fun e => hne e.symm
        have hnH2 : ¬ (hd.next = p) := fun e => hnH e.symm
        by_cases hqp : q = p
        · subst hqp
          simp only [if_true, hne, hnH, if_false]
          cases deref s q with
          | none => rfl
          | some x => simp [addLinks, hne, hnH]
        · simp only [hqp, if_false]
          by_cases hqh : q = Ptr.head k
          · subst hqh
            simp only [if_true, hne2, if_false]
            by_cases hqH : Ptr.head k = hd.next
            · simp only [← hqH, if_true, hne2, if_false]
              cases deref s (Ptr.head k) with
              | none => rfl
              | some x => simp [addLinks, hne2, ← hqH]
            · simp only [Ne.symm hqH, hqH, if_false]
              cases deref s (Ptr.head k) with
              | none => rfl
              | some x => simp [addLinks, hne2, hqH]
          · simp only [hqh, if_false]
            by_cases hqH : q = hd.next
            · subst hqH
              simp only [if_true, hnH2, if_false]
              cases deref s hd.next with
              | none => rfl
              | some x => simp [addLinks, hqp, hqh]
            · simp only [hqH, if_false]
              cases deref s q with
              | none => rfl
              | some x => simp [addLinks, hqp, hqh, hqH]

theorem unlink_deref (s s2 : Bcache) (v : Ptr) (b : Buf) (hv : deref s v = some b)
    (h : unlink s v = some s2) :
    ∀ q, deref s2 q = (deref s q).map (cutLinks b.prev b.next q) := by
  unfold unlink at h
  rw [hv] at h
  simp only at h
  cases hm1 : modify s b.prev (fun x => { x with next := b.next }) with
  | none => rw [hm1] at h; cases h
  | some s1 =>
    rw [hm1] at h
    simp only at h
    have hb1 : deref s1 v = some b := by
      rw [deref_modify hm1]
      by_cases hvp : v = b.prev
      · rw [if_pos hvp, ← hvp, hv]; rfl
      · rw [if_neg hvp, hv]
    rw [hb1] at h
    simp only at h
    intro q
    simp only [deref_modify h, deref_modify hm1]
    by_cases hqN : q = b.next
    · subst hqN
      simp only [if_true]
      by_cases hqP : b.next = b.prev
      · simp only [hqP, if_true]
        cases deref s b.prev with
        | none => rfl
        | some x => simp [cutLinks, hqP]
      · simp only [hqP, if_false]
        cases deref s b.next with
        | none => rfl
        | some x => simp [cutLinks, hqP]
    · simp only [hqN, if_false]
      by_cases hqP : q = b.prev
      · subst hqP
        simp only [if_true]
        cases deref s b.prev with
        | none => rfl
        | some x => simp [cutLinks, hqN]
      · simp only [hqP, if_false]
        cases deref s q with
        | none => rfl
        | some x => simp [cutLinks, hqN, hqP]

theorem buf_of_desc (s s1 : Bcache) (g : Ptr → Buf → Buf)
    (hdesc : ∀ q, deref s1 q = (deref s q).map (g q)) (i : Nat) :
    s1.buf[i]? = (s.buf[i]?).map (g (Ptr.slot i)) := hdesc (Ptr.slot i)

theorem head_of_desc (s s1 : Bcache) (g : Ptr → Buf → Buf)
    (hdesc : ∀ q, deref s1 q = (deref s q).map (g q)) (k : Nat) :
    s1.hash_table[k]? = (s.hash_table[k]?).map (g (Ptr.head k)) := hdesc (Ptr.head k)

/-- A bucket none of whose buffers is touched by a relinking step is still the
same list afterwards. -/
theorem Bucket_frame (s s1 : Bcache) (g : Ptr → Buf → Buf)
    (hdesc : ∀ q, deref s1 q = (deref s q).map (g q)) (k : Nat) (L : List Nat)
    (hhead : ∀ x, (g (Ptr.head k) x).prev = x.prev ∧ (g (Ptr.head k) x).next = x.next)
    (hslots : ∀ i ∈ L, ∀ x, (g (Ptr.slot i) x).prev = x.prev ∧ (g (Ptr.slot i) x).next = x.next)
    (h : Bucket s k L) : Bucket s1 k L := by
  obtain ⟨hd, hhd, hdll⟩ := h
  have hh1 := head_of_desc s s1 g hdesc k
  rw [hhd] at hh1
  refine ⟨g (Ptr.head k) hd, hh1, ?_⟩
  rw [(hhead hd).2]
  refine dll_frame s s1 k ?_ L _ _ ?_ hdll
  · intro h0 hh0
    rw [hhd] at hh0; cases hh0
    exact ⟨_, hh1, (hhead hd).1⟩
  · intro i hi b hb
    have := buf_of_desc s s1 g hdesc i
    rw [hb] at this
    exact ⟨_, this, (hslots i hi b).1, (hslots i hi b).2⟩

theorem dll_insert (s s4 : Bcache) (k v : Nat) (hd : Buf)
    (hdesc : ∀ q, deref s4 q = (deref s q).map (addLinks k (Ptr.slot v) hd.next q))
    (hhd : s.hash_table[k]? = some hd) (L : List Nat)
    (hdll : dll s k (Ptr.head k) hd.next L) (hv : v ∉ L) (hnd : L.Nodup)
    (bv : Buf) (hbv : s.buf[v]? = some bv) : Bucket s4 k (v :: L) := by
  have hh4 := head_of_desc s s4 _ hdesc k
  rw [hhd] at hh4
  have hv4 := buf_of_desc s s4 _ hdesc v
  rw [hbv] at hv4
  refine ⟨_, hh4, ?_⟩
  have hnext : (addLinks k (Ptr.slot v) hd.next (Ptr.head k) hd).next = Ptr.slot v := by
    simp [addLinks]
  rw [hnext]
  refine ⟨rfl, _, hv4, by simp [addLinks], ?_⟩
  have hvnext : (addLinks k (Ptr.slot v) hd.next (Ptr.slot v) bv).next = hd.next := by
    simp [addLinks]
  rw [hvnext]
  cases L with
  | nil =>
    obtain ⟨hc, _, _, _⟩ := hdll
    refine ⟨hc, _, hh4, ?_⟩
    simp [addLinks, hc]
  | cons i L2 =>
    obtain ⟨hc, bi, hbi, hpi, hrest⟩ := hdll
    have hiv : i ≠ v := fun e => hv (e ▸ List.mem_cons_self _ _)
    have hi4 := buf_of_desc s s4 _ hdesc i
    rw [hbi] at hi4
    refine ⟨hc, _, hi4, by simp [addLinks, hc, hiv], ?_⟩
    have hinext : (addLinks k (Ptr.slot v) hd.next (Ptr.slot i) bi).next = bi.next := by
      simp [addLinks, hiv]
    rw [hinext]
    refine dll_frame s s4 k ?_ L2 _ _ ?_ hrest
    · intro h0 hh0
      rw [hhd] at hh0; cases hh0
      exact ⟨_, hh4, by simp [addLinks, hc]⟩
    · intro j hj b hb
      have hj4 := buf_of_desc s s4 _ hdesc j
      rw [hb] at hj4
      have hjv : j ≠ v := fun e => hv (e ▸ List.mem_cons_of_mem _ hj)
      have hji : j ≠ i := fun e => (List.nodup_cons.mp hnd).1 (e ▸ hj)
      exact ⟨_, hj4, by simp [addLinks, hjv, hc, hji], by simp [addLinks, hjv]⟩

/-- The `next` of a listed buffer is the bucket head or a later buffer of the
list. -/
theorem dll_next_cases (s : Bcache) (k v : Nat) (post : List Nat) :
    ∀ (pre : List Nat) (pv cur : Ptr), dll s k pv cur (pre ++ v :: post) →
      ∀ bv, s.buf[v]? = some bv →
        dll s k (Ptr.slot v) bv.next post ∧
        (bv.next = Ptr.head k ∨ ∃ n, n ∈ post ∧ bv.next = Ptr.slot n) := by
  intro pre
  induction pre with
  | nil =>
    intro pv cur h bv hbv
    obtain ⟨_, b, hb, _, hrest⟩ := h
    rw [hbv] at hb; cases hb
    refine ⟨hrest, ?_⟩
    cases post with
    | nil => exact Or.inl hrest.1
    | cons n post2 => exact Or.inr ⟨n, List.mem_cons_self _ _, hrest.1⟩
  | cons p pre2 ih =>
    intro pv cur h bv hbv
    obtain ⟨_, b, _, _, hrest⟩ := h
    exact ih _ _ hrest bv hbv

theorem dll_remove (s s2 : Bcache) (k v : Nat) (post : List Nat) (bv : Buf)
    (hbv : s.buf[v]? = some bv)
    (hdesc : ∀ q, deref s2 q = (deref s q).map (cutLinks bv.prev bv.next q)) :
    ∀ (pre : List Nat) (pv cur : Ptr), dll s k pv cur (pre ++ v :: post) →
      (pre ++ v :: post).Nodup → (∀ j ∈ pre ++ v :: post, pv ≠ Ptr.slot j) →
      dll s2 k pv (if pre = [] then bv.next else cur) (pre ++ post) ∧
      (pre = [] → bv.prev = pv) ∧ (pre ≠ [] → ∃ l, l ∈ pre ∧ bv.prev = Ptr.slot l) := by
  intro pre
  induction pre with
  | nil =>
    intro pv cur h hnd hpv
    simp only [List.nil_append] at h hnd hpv ⊢
    obtain ⟨_, b, hb, hprev, hrest⟩ := h
    rw [hbv] at hb; cases hb
    refine ⟨?_, fun _ => hprev, fun hne => absurd rfl hne⟩
    simp only [if_true]
    obtain ⟨hvpost, hndpost⟩ := List.nodup_cons.mp hnd
    cases post with
    | nil =>
      obtain ⟨hc, h0, hh0, _⟩ := hrest
      have hh2 := head_of_desc s s2 _ hdesc k
      rw [hh0] at hh2
      exact ⟨hc, _, hh2, by simp [cutLinks, hc, hprev]⟩
    | cons n post2 =>
      obtain ⟨hc, bn, hbn, _, hrest2⟩ := hrest
      have hn2 := buf_of_desc s s2 _ hdesc n
      rw [hbn] at hn2
      have hpvn : pv ≠ Ptr.slot n :=
        hpv n (List.mem_cons_of_mem _ (List.mem_cons_self _ _))
      have hnP : ¬ (Ptr.slot n = bv.prev) := by rw [hprev]; exact fun e => hpvn e.symm
      refine ⟨hc, _, hn2, by simp [cutLinks, hc, hprev], ?_⟩
      have hnn : (cutLinks bv.prev bv.next (Ptr.slot n) bn).next = bn.next := by
        simp [cutLinks, hnP]
      rw [hnn]
      refine dll_frame s s2 k ?_ post2 _ _ ?_ hrest2
      · intro h0 hh0
        have hh2 := head_of_desc s s2 _ hdesc k
        rw [hh0] at hh2
        exact ⟨_, hh2, by simp [cutLinks, hc]⟩
      · intro j hj b hb
        have hj2 := buf_of_desc s s2 _ hdesc j
        rw [hb] at hj2
        have hjn : j ≠ n := fun e => (List.nodup_cons.mp hndpost).1 (e ▸ hj)
        have hpvj : pv ≠ Ptr.slot j :=
          hpv j (List.mem_cons_of_mem _ (List.mem_cons_of_mem _ hj))
        have hjP : ¬ (Ptr.slot j = bv.prev) := by rw [hprev]; exact fun e => hpvj e.symm
        exact ⟨_, hj2, by simp [cutLinks, hc, hjn], by simp [cutLinks, hjP]⟩
  | cons p pre2 ih =>
    intro pv cur h hnd hpv
    simp only [List.cons_append] at h hnd hpv ⊢
    obtain ⟨hc, bp, hbp, hprev, hrest⟩ := h
    obtain ⟨hpnot, hnd2⟩ := List.nodup_cons.mp hnd
    obtain ⟨hdll2, hP1, hP2⟩ := ih (Ptr.slot p) bp.next hrest hnd2
      (by
        intro j hj e
        cases e
        exact hpnot hj)
    obtain ⟨_, hN⟩ := dll_next_cases s k v post pre2 _ _ hrest bv hbv
    have hpN : ¬ (Ptr.slot p = bv.next) := by
      rcases hN with h1 | ⟨n, hn, h1⟩
      · rw [h1]; intro e; cases e
      · rw [h1]; intro e; cases e
        exact hpnot (List.mem_append_right _ (List.mem_cons_of_mem _ hn))
    have hp2 := buf_of_desc s s2 _ hdesc p
    rw [hbp] at hp2
    refine ⟨?_, ⟨fun e => List.noConfusion e, fun _ => ?_⟩⟩
    · simp only [reduceCtorEq, if_false]
      refine ⟨hc, _, hp2, by simp [cutLinks, hpN, hprev], ?_⟩
      by_cases hpre2 : pre2 = []
      · have hPp := hP1 hpre2
        have : (cutLinks bv.prev bv.next (Ptr.slot p) bp).next = bv.next := by
          simp [cutLinks, hPp]
        rw [this]
        rw [if_pos hpre2] at hdll2
        exact hdll2
      · obtain ⟨l, hl, hPl⟩ := hP2 hpre2
        have hlp : l ≠ p := fun e => hpnot (e ▸ List.mem_append_left _ hl)
        have : (cutLinks bv.prev bv.next (Ptr.slot p) bp).next = bp.next := by
          simp [cutLinks, hPl, Ne.symm hlp]
        rw [this]
        rw [if_neg hpre2] at hdll2
        exact hdll2
    · by_cases hpre2 : pre2 = []
      · exact ⟨p, List.mem_cons_self _ _, hP1 hpre2⟩
      · obtain ⟨l, hl, hPl⟩ := hP2 hpre2
        exact ⟨l, List.mem_cons_of_mem _ hl, hPl⟩

theorem Bucket_remove (s s2 : Bcache) (k v : Nat) (pre post : List Nat) (bv : Buf)
    (hbv : s.buf[v]? = some bv)
    (hdesc : ∀ q, deref s2 q = (deref s q).map (cutLinks bv.prev bv.next q))
    (h : Bucket s k (pre ++ v :: post)) (hnd : (pre ++ v :: post).Nodup) :
    Bucket s2 k (pre ++ post) ∧
      (bv.prev = Ptr.head k ∨ ∃ l, l ∈ pre ∧ bv.prev = Ptr.slot l) ∧
      (bv.next = Ptr.head k ∨ ∃ n, n ∈ post ∧ bv.next = Ptr.slot n) := by
  obtain ⟨hd, hhd, hdll⟩ := h
  obtain ⟨hdll2, hP1, hP2⟩ := dll_remove s s2 k v post bv hbv hdesc pre _ _ hdll hnd
    (by intro j _ e; cases e)
  obtain ⟨_, hN⟩ := dll_next_cases s k v post pre _ _ hdll bv hbv
  have hh2 := head_of_desc s s2 _ hdesc k
  rw [hhd] at hh2
  refine ⟨⟨_, hh2, ?_⟩, ?_, hN⟩
  · by_cases hpre : pre = []
    · have : (cutLinks bv.prev bv.next (Ptr.head k) hd).next = bv.next := by
        simp [cutLinks, hP1 hpre]
      rw [this]
      rw [if_pos hpre] at hdll2
      exact hdll2
    · obtain ⟨l, _, hPl⟩ := hP2 hpre
      have : (cutLinks bv.prev bv.next (Ptr.head k) hd).next = hd.next := by
        simp [cutLinks, hPl]
      rw [this]
      rw [if_neg hpre] at hdll2
      exact hdll2
  · by_cases hpre : pre = []
    · exact Or.inl (hP1 hpre)
    · exact Or.inr (hP2 hpre)

/-! ### Rebinding a victim keeps the cache well formed -/

/-- The bookkeeping common to the three ways of rebinding a victim `v` to the
identity `(dev, blockno)` of bucket `k`, once the new bucket lists `Ls1` are
known to be proper lists of the new state. -/
theorem WF_rebound (s s1 : Bcache) (Ls Ls1 : List (List Nat)) (hwf : WF s Ls)
    (k v dev blockno ticks : Nat) (hk : blockno % N_BUCKETS = k) (hticks : ticks ≠ 0)
    (hlen : s1.hash_table.length = s.hash_table.length)
    (hblen : s1.buf.length = s.buf.length)
    (hLlen : Ls1.length = N_BUCKETS)
    (hbuckets : ∀ k2, k2 < N_BUCKETS → Bucket s1 k2 (Ls1.getD k2 []))
    (hperm : (Ls1.flatten).Perm (v :: Ls.flatten.erase v))
    (hsub : ∀ k2 i, i ∈ Ls1.getD k2 [] → (i = v ∧ k2 = k) ∨ (i ≠ v ∧ i ∈ Ls.getD k2 []))
    (hv : ∃ b1, s1.buf[v]? = some b1 ∧ b1.dev = dev ∧ b1.blockno = blockno ∧ b1.tick = ticks)
    (hothers : ∀ (i : Nat) (b : Buf), i ≠ v → s.buf[i]? = some b →
      ∃ b1, s1.buf[i]? = some b1 ∧ b1.dev = b.dev ∧ b1.blockno = b.blockno ∧ b1.tick = b.tick)
    (hmiss : ∀ (i : Nat) (b : Buf), i ∈ Ls.getD k [] → i ≠ v → s.buf[i]? = some b →
      ¬ (b.dev = dev ∧ b.blockno = blockno)) :
    WF s1 Ls1 := by
  have hnd1 : Ls1.flatten.Nodup := by
    rw [hperm.nodup_iff]
    refine List.nodup_cons.mpr ⟨?_, hwf.nodup.erase v⟩
    intro h
    exact (List.Nodup.mem_erase_iff hwf.nodup).mp h |>.1 rfl
  have hmem1 : ∀ i, i ∈ Ls1.flatten → i = v ∨ (i ≠ v ∧ i ∈ Ls.flatten) := by
    intro i hi
    have := hperm.subset hi
    rcases List.mem_cons.mp this with h | h
    · exact Or.inl h
    · have := (List.Nodup.mem_erase_iff hwf.nodup).mp h
      exact Or.inr ⟨this.1, this.2⟩
  have hmem2 : ∀ i, i ≠ v → i ∈ Ls.flatten → i ∈ Ls1.flatten := by
    intro i hiv hi
    apply hperm.symm.subset
    exact List.mem_cons_of_mem _ ((List.Nodup.mem_erase_iff hwf.nodup).mpr ⟨hiv, hi⟩)
  have hclash : ∀ (j : Nat) (bj : Buf), j ≠ v → j ∈ Ls.flatten → s.buf[j]? = some bj →
      ¬ (bj.dev = dev ∧ bj.blockno = blockno) := by
    intro j bj hjv hj hbj hid
    obtain ⟨kj, _, hjk⟩ := (mem_flatten_iff_getD Ls j).mp hj
    obtain ⟨b, hb, hbk, _⟩ := hwf.home kj j hjk
    rw [hbj] at hb; cases hb
    have : kj = k := by rw [← hbk, hid.2, hk]
    subst this
    exact hmiss j bj hjk hjv hbj hid
  obtain ⟨bv1, hbv1, hbvd, hbvn, hbvt⟩ := hv
  refine ⟨by rw [hlen]; exact hwf.nheads, hLlen, hbuckets, hnd1, ?_, ?_, ?_⟩
  · intro k2 i hi
    rcases hsub k2 i hi with ⟨hiv, hk2⟩ | ⟨hiv, hi0⟩
    · subst hiv; subst hk2
      exact ⟨bv1, hbv1, by rw [hbvn]; exact hk, by rw [hbvt]; exact hticks⟩
    · obtain ⟨b, hb, hbk, hbt⟩ := hwf.home k2 i hi0
      obtain ⟨b1, hb1, _, hn, ht⟩ := hothers i b hiv hb
      exact ⟨b1, hb1, by rw [hn]; exact hbk, by rw [ht]; exact hbt⟩
  · intro i b1 hb1 hnot
    have hiv : i ≠ v := by
      intro e
      apply hnot
      apply hperm.symm.subset
      rw [e]
      exact List.mem_cons_self _ _
    obtain ⟨b, hb⟩ := buf_some_of_length s s1 hblen i b1 hb1
    obtain ⟨b2, hb2, _, _, ht⟩ := hothers i b hiv hb
    rw [hb1] at hb2; cases hb2
    rw [ht]
    exact hwf.unbound i b hb (fun h => hnot (hmem2 i hiv h))
  · intro i j bi bj hi hj hbi hbj hdev hbno
    by_cases hiv : i = v
    · by_cases hjv : j = v
      · rw [hiv, hjv]
      · exfalso
        rcases hmem1 j hj with h | ⟨_, hj0⟩
        · exact hjv h
        · obtain ⟨cj, hcj⟩ := buf_some_of_length s s1 hblen j bj hbj
          obtain ⟨b2, hb2, hd2, hn2, _⟩ := hothers j cj hjv hcj
          rw [hbj] at hb2; cases hb2
          subst hiv
          rw [hbv1] at hbi; cases hbi
          exact hclash j cj hjv hj0 hcj ⟨by rw [← hd2, ← hdev, hbvd], by rw [← hn2, ← hbno, hbvn]⟩
    · by_cases hjv : j = v
      · exfalso
        rcases hmem1 i hi with h | ⟨_, hi0⟩
        · exact hiv h
        · obtain ⟨ci, hci⟩ := buf_some_of_length s s1 hblen i bi hbi
          obtain ⟨b2, hb2, hd2, hn2, _⟩ := hothers i ci hiv hci
          rw [hbi] at hb2; cases hb2
          subst hjv
          rw [hbv1] at hbj; cases hbj
          exact hclash i ci hiv hi0 hci ⟨by rw [← hd2, hdev, hbvd], by rw [← hn2, hbno, hbvn]⟩
      · rcases hmem1 i hi with h | ⟨_, hi0⟩
        · exact absurd h hiv
        · rcases hmem1 j hj with h | ⟨_, hj0⟩
          · exact absurd h hjv
          · obtain ⟨ci, hci⟩ := buf_some_of_length s s1 hblen i bi hbi
            obtain ⟨cj, hcj⟩ := buf_some_of_length s s1 hblen j bj hbj
            obtain ⟨b2, hb2, hd2, hn2, _⟩ := hothers i ci hiv hci
            obtain ⟨b3, hb3, hd3, hn3, _⟩ := hothers j cj hjv hcj
            rw [hbi] at hb2; cases hb2
            rw [hbj] at hb3; cases hb3
            exact hwf.uniq i j ci cj hi0 hj0 hci hcj (by rw [← hd2, ← hd3]; exact hdev)
              (by rw [← hn2, ← hn3]; exact hbno)

theorem length_eq_of_getElem? (l1 l2 : List Buf)
    (h : ∀ i : Nat, (l1[i]?).isSome = (l2[i]?).isSome) : l1.length = l2.length := by
  rcases Nat.lt_trichotomy l1.length l2.length with hlt | heq | hgt
  · have := h l1.length
    rw [List.getElem?_eq_none (le_refl _), List.getElem?_eq_getElem hlt] at this
    cases this
  · exact heq
  · have := h l2.length
    rw [List.getElem?_eq_none (le_refl _), List.getElem?_eq_getElem hgt] at this
    cases this

theorem lengths_of_desc (s s1 : Bcache) (g : Ptr → Buf → Buf)
    (hdesc : ∀ q, deref s1 q = (deref s q).map (g q)) :
    s1.hash_table.length = s.hash_table.length ∧ s1.buf.length = s.buf.length := by
  constructor
  · apply length_eq_of_getElem?
    intro i
    rw [head_of_desc s s1 g hdesc i]
    cases s.hash_table[i]? <;> rfl
  · apply length_eq_of_getElem?
    intro i
    rw [buf_of_desc s s1 g hdesc i]
    cases s.buf[i]? <;> rfl

theorem replace_step (s sA : Bcache) (v dev blockno ticks : Nat)
    (hA : modify s (Ptr.slot v) (fun b => replace_buffer b dev blockno ticks) = some sA) :
    ∀ q, deref sA q =
      (deref s q).map (fun x => if q = Ptr.slot v then replace_buffer x dev blockno ticks else x) := by
  intro q
  rw [deref_modify hA]
  by_cases hq : q = Ptr.slot v
  · subst hq
    simp
  · simp only [hq, if_false]
    cases deref s q <;> rfl

theorem Bucket_replace (s sA : Bcache) (v dev blockno ticks : Nat)
    (hA : modify s (Ptr.slot v) (fun b => replace_buffer b dev blockno ticks) = some sA)
    (k : Nat) (L : List Nat) (h : Bucket s k L) : Bucket sA k L := by
  refine Bucket_frame s sA _ (replace_step s sA v dev blockno ticks hA) k L ?_ ?_ h
  · intro x
    simp
  · intro i _ x
    by_cases hiv : Ptr.slot i = Ptr.slot v
    · simp [hiv, replace_buffer]
    · simp [hiv]

theorem Bucket_head_next (s : Bcache) (k : Nat) (L : List Nat) (hd : Buf)
    (hhd : s.hash_table[k]? = some hd) (h : Bucket s k L) :
    dll s k (Ptr.head k) hd.next L ∧
      (hd.next = Ptr.head k ∨ ∃ i, i ∈ L ∧ hd.next = Ptr.slot i) := by
  obtain ⟨hd2, hhd2, hdll⟩ := h
  rw [hhd] at hhd2; cases hhd2
  refine ⟨hdll, ?_⟩
  cases L with
  | nil => exact Or.inl hdll.1
  | cons i L2 => exact Or.inr ⟨i, List.mem_cons_self _ _, hdll.1⟩

theorem Bucket_nodup (Ls : List (List Nat)) (hnd : Ls.flatten.Nodup) (k : Nat) :
    (Ls.getD k []).Nodup := nodup_getD Ls k hnd

/-! ## `brelse`, `bpin`, `bunpin` -/

theorem set_same (l : List Buf) (i : Nat) (b : Buf) (hb : l[i]? = some b) : l.set i b = l := by
  apply List.ext_getElem?
  intro j
  rw [List.getElem?_set]
  by_cases hij : i = j
  · subst hij
    have hi : i < l.length := by
      by_contra hcon
      rw [List.getElem?_eq_none (by omega)] at hb
      cases hb
    rw [if_pos rfl, if_pos hi, hb]
  · rw [if_neg hij]

theorem lt_of_getElem?_some (l : List Buf) (i : Nat) (b : Buf) (hb : l[i]? = some b) :
    i < l.length := by
  by_contra hcon
  rw [List.getElem?_eq_none (by omega)] at hb
  cases hb

/-- C16. For a pool slot `i` holding the buffer `b`: `brelse` by the holder of
its lock, `bpin` and `bunpin` return, and the state they leave is the old state
with slot `i` replaced by `b` with `refcnt` changed by -1, +1 and -1 on the
`uint` (`brelse` also frees the lock); `dev`, `blockno`, `valid`, `tick`, `data`
and the links of the slot, every other slot and every bucket head are as
before, and so is the membership list of every bucket.  The change of `refcnt`
is modulo `2 ^ 32`: a count of at least 1 goes down by 1, a count below
`2 ^ 32 - 1` goes up by 1, and a decrement of the count 0 stores 4294967295.
`bunpin` after `bpin` gives back the state before the `bpin`. -/
theorem release_pin_frame (s : Bcache) (pid i : Nat) (b : Buf) (hb : s.buf[i]? = some b)
    (hr : b.refcnt < 2 ^ 32) :
    (b.lock = some pid →
      brelse s pid (Ptr.slot i) =
        Effect.ok
          { s with
            buf := s.buf.set i
              { b with lock := none, refcnt := (b.refcnt + 2 ^ 32 - 1) % 2 ^ 32 } }) ∧
    bpin s (Ptr.slot i) =
      Effect.ok { s with buf := s.buf.set i { b with refcnt := (b.refcnt + 1) % 2 ^ 32 } } ∧
    bunpin s (Ptr.slot i) =
      Effect.ok
        { s with buf := s.buf.set i { b with refcnt := (b.refcnt + 2 ^ 32 - 1) % 2 ^ 32 } } ∧
    (1 ≤ b.refcnt → (b.refcnt + 2 ^ 32 - 1) % 2 ^ 32 = b.refcnt - 1) ∧
    (b.refcnt = 0 → (b.refcnt + 2 ^ 32 - 1) % 2 ^ 32 = 4294967295) ∧
    (b.refcnt + 1 < 2 ^ 32 → (b.refcnt + 1) % 2 ^ 32 = b.refcnt + 1) ∧
    bunpin { s with buf := s.buf.set i { b with refcnt := (b.refcnt + 1) % 2 ^ 32 } }
      (Ptr.slot i) = Effect.ok s ∧
    (∀ k qs,
      bucketList
        { s with
          buf := s.buf.set i
            { b with lock := none, refcnt := (b.refcnt + 2 ^ 32 - 1) % 2 ^ 32 } }
        k qs = bucketList s k qs) ∧
    (∀ k qs,
      bucketList { s with buf := s.buf.set i { b with refcnt := (b.refcnt + 1) % 2 ^ 32 } } k qs
        = bucketList s k qs) ∧
    (∀ k qs,
      bucketList
        { s with buf := s.buf.set i { b with refcnt := (b.refcnt + 2 ^ 32 - 1) % 2 ^ 32 } } k qs
        = bucketList s k qs) := by
  have hi : i < s.buf.length := lt_of_getElem?_some s.buf i b hb
  refine ⟨?_, ?_, ?_, ?_, ?_, ?_, ?_, ?_, ?_, ?_⟩
  · intro hl
    simp only [brelse, deref, hb, holdingsleep, hl, decide_True, store, hi, if_true]
    rfl
  · simp only [bpin, modify, deref, hb, store, hi, if_true]
    rfl
  · simp only [bunpin, modify, deref, hb, store, hi, if_true]
    rfl
  · intro h1
    omega
  · intro h0
    rw [h0]
    decide
  · intro h1
    exact Nat.mod_eq_of_lt h1
  · have hback : uintDec ((b.refcnt + 1) % 2 ^ 32) = b.refcnt := by
      unfold uintDec
      omega
    have hb1 : ({ b with refcnt := uintDec ((b.refcnt + 1) % 2 ^ 32) } : Buf) = b := by
      rw [hback]
    simp only [bunpin, modify, deref, List.getElem?_set, List.length_set, hi, if_true, store,
      List.set_set]
    rw [hb1, set_same s.buf i b hb]
  · intro k qs
    exact bucketList_set_slot s i b
      { b with lock := none, refcnt := (b.refcnt + 2 ^ 32 - 1) % 2 ^ 32 } hb rfl k qs
  · intro k qs
    exact bucketList_set_slot s i b { b with refcnt := (b.refcnt + 1) % 2 ^ 32 } hb rfl k qs
  · intro k qs
    exact bucketList_set_slot s i b
      { b with refcnt := (b.refcnt + 2 ^ 32 - 1) % 2 ^ 32 } hb rfl k qs

/-- Witness for C16: slot 0 of the pool of three, held by process 1 for block
(1,1) with `refcnt` 1, and slot 1, released, whose `refcnt` 0 wraps under
`bunpin`. -/
theorem release_pin_frame_witness :
    brelse exampleMixed 1 (Ptr.slot 0) =
      Effect.ok
        { hash_table := exampleMixed.hash_table
          buf := exampleMixed.buf.set 0
            { dev := 1, blockno := 1, tick := 5, refcnt := (1 + 2 ^ 32 - 1) % 2 ^ 32,
              lock := none, prev := Ptr.head 1, next := Ptr.head 1 } } ∧
    bunpin exampleMixed (Ptr.slot 1) =
      Effect.ok
        { hash_table := exampleMixed.hash_table
          buf := exampleMixed.buf.set 1
            { dev := 1, blockno := 2, tick := 3, refcnt := (0 + 2 ^ 32 - 1) % 2 ^ 32,
              lock := none, prev := Ptr.head 2, next := Ptr.head 2 } } ∧
    (0 + 2 ^ 32 - 1) % 2 ^ 32 = 4294967295 :=
  ⟨(release_pin_frame exampleMixed 1 0
      { dev := 1, blockno := 1, tick := 5, refcnt := 1, lock := some 1,
        prev := Ptr.head 1, next := Ptr.head 1 } (by decide) (by decide)).1 rfl,
   (release_pin_frame exampleMixed 1 1
      { dev := 1, blockno := 2, tick := 3, refcnt := 0, lock := none,
        prev := Ptr.head 2, next := Ptr.head 2 } (by decide) (by decide)).2.2.1,
   (release_pin_frame exampleMixed 1 1
      { dev := 1, blockno := 2, tick := 3, refcnt := 0, lock := none,
        prev := Ptr.head 2, next := Ptr.head 2 } (by decide) (by decide)).2.2.2.2.1 rfl⟩

/-! ## `bwrite`, `brelse` and the read step of `bread` -/

/-- C18. For a pool slot `i` holding the buffer `b`: `bwrite` and `brelse` panic
if and only if the caller `pid` does not hold the sleep lock of `b`.  When they
panic the cache, the disk and the transfer log are as before the call, so no
transfer was issued and `refcnt` is unchanged.  When the lock is held, `bwrite`
returns having issued exactly one transfer, the write of `b->data` to block
`(b->dev, b->blockno)`, and the cache is unchanged. -/
theorem write_release_need_lock (w : World) (pid i : Nat) (b : Buf)
    (hb : w.cache.buf[i]? = some b) :
    ((∃ msg w1, bwrite w pid (Ptr.slot i) = Done.panic msg w1) ↔ b.lock ≠ some pid) ∧
    ((∃ msg w1, World.brelse w pid (Ptr.slot i) = Done.panic msg w1) ↔ b.lock ≠ some pid) ∧
    (b.lock ≠ some pid →
      bwrite w pid (Ptr.slot i) = Done.panic "bwrite" w ∧
      World.brelse w pid (Ptr.slot i) = Done.panic "brelse" w) ∧
    (b.lock = some pid →
      bwrite w pid (Ptr.slot i) =
        Done.ok { w with
          disk := (b.dev, b.blockno, b.data) :: w.disk
          log := w.log ++ [Transfer.write b.dev b.blockno b.data] }) := by
  have hi : i < w.cache.buf.length := lt_of_getElem?_some w.cache.buf i b hb
  have hpanic : b.lock ≠ some pid →
      bwrite w pid (Ptr.slot i) = Done.panic "bwrite" w ∧
      World.brelse w pid (Ptr.slot i) = Done.panic "brelse" w := by
    intro hl
    constructor
    · simp only [bwrite, deref, hb, holdingsleep, hl, decide_False, if_true]
    · simp only [World.brelse, brelse, deref, hb, holdingsleep, hl, decide_False, if_true]
  have hheldw : b.lock = some pid →
      bwrite w pid (Ptr.slot i) =
        Done.ok { w with
          disk := (b.dev, b.blockno, b.data) :: w.disk
          log := w.log ++ [Transfer.write b.dev b.blockno b.data] } := by
    intro hl
    simp only [bwrite, deref, hb, holdingsleep, hl, decide_True, virtio_disk_rw, if_true]
    rfl
  have hheldr : b.lock = some pid → ∃ w1, World.brelse w pid (Ptr.slot i) = Done.ok w1 := by
    intro hl
    refine ⟨{ w with cache := { w.cache with
      buf := w.cache.buf.set i { b with lock := none, refcnt := uintDec b.refcnt } } }, ?_⟩
    simp only [World.brelse, brelse, deref, hb, holdingsleep, hl, decide_True, store, hi, if_true]
    rfl
  refine ⟨⟨?_, ?_⟩, ⟨?_, ?_⟩, hpanic, hheldw⟩
  · rintro ⟨msg, w1, h⟩ hl
    rw [hheldw hl] at h
    cases h
  · intro hl
    exact ⟨"bwrite", w, (hpanic hl).1⟩
  · rintro ⟨msg, w1, h⟩ hl
    obtain ⟨w2, h2⟩ := hheldr hl
    rw [h2] at h
    cases h
  · intro hl
    exact ⟨"brelse", w, (hpanic hl).2⟩

/-- Witness for C18: in the pool of three, slot 0 is held by process 1, which
can write it; slot 1 is not held, and writing or releasing it is fatal. -/
theorem write_release_need_lock_witness :
    bwrite { cache := exampleMixed } 1 (Ptr.slot 0) =
      Done.ok { cache := exampleMixed, disk := [(1, 1, [])], log := [Transfer.write 1 1 []] } ∧
    bwrite { cache := exampleMixed } 1 (Ptr.slot 1) = Done.panic "bwrite" { cache := exampleMixed } ∧
    World.brelse { cache := exampleMixed } 1 (Ptr.slot 1) =
      Done.panic "brelse" { cache := exampleMixed } :=
  ⟨(write_release_need_lock { cache := exampleMixed } 1 0
      { dev := 1, blockno := 1, tick := 5, refcnt := 1, lock := some 1,
        prev := Ptr.head 1, next := Ptr.head 1 } (by decide)).2.2.2 rfl,
   ((write_release_need_lock { cache := exampleMixed } 1 1
      { dev := 1, blockno := 2, tick := 3, refcnt := 0, lock := none,
        prev := Ptr.head 2, next := Ptr.head 2 } (by decide)).2.2.1 (by decide)).1,
   ((write_release_need_lock { cache := exampleMixed } 1 1
      { dev := 1, blockno := 2, tick := 3, refcnt := 0, lock := none,
        prev := Ptr.head 2, next := Ptr.head 2 } (by decide)).2.2.1 (by decide)).2⟩

/-- C13. The read step of `bread` on a pool slot `i` holding the buffer `b`
completes.  When `b->valid` is 0 it issues one transfer, the read of block
`(b->dev, b->blockno)`, which fills `b->data` with the contents of that block,
and sets `valid = 1`; otherwise it issues none and changes nothing.  In either
case `valid` is not 0 afterwards, and a second read step, in any later state in
which the slot is as the first read step left it, issues no transfer and
changes nothing, so the data are the same and at most one transfer happens in
total. -/
theorem read_step_idempotent (w : World) (i : Nat) (b : Buf)
    (hb : w.cache.buf[i]? = some b) :
    ∃ w1 b1, readStep w (Ptr.slot i) = some w1 ∧ w1.cache.buf[i]? = some b1 ∧
      (b.valid = 0 →
        w1.log = w.log ++ [Transfer.read b.dev b.blockno] ∧ w1.disk = w.disk ∧
        b1 = { b with data := diskBlock w.disk b.dev b.blockno, valid := 1 }) ∧
      (b.valid ≠ 0 → w1 = w) ∧
      b1.valid ≠ 0 ∧ (b.valid ≤ 1 → b1.valid = 1) ∧
      b1.dev = b.dev ∧ b1.blockno = b.blockno ∧
      w1.log.length ≤ w.log.length + 1 ∧
      ∀ w2 : World, w2.cache.buf[i]? = some b1 → readStep w2 (Ptr.slot i) = some w2 := by
  have hi : i < w.cache.buf.length := lt_of_getElem?_some w.cache.buf i b hb
  have hsecond : ∀ (b1 : Buf), b1.valid ≠ 0 →
      ∀ w2 : World, w2.cache.buf[i]? = some b1 → readStep w2 (Ptr.slot i) = some w2 := by
    intro b1 hv w2 h2
    simp only [readStep, deref, h2, hv, if_false]
  by_cases hv : b.valid = 0
  · refine ⟨{ cache :=
                { hash_table := w.cache.hash_table
                  buf := w.cache.buf.set i
                    { b with data := diskBlock w.disk b.dev b.blockno, valid := 1 } }
              disk := w.disk
              log := w.log ++ [Transfer.read b.dev b.blockno] },
      { b with data := diskBlock w.disk b.dev b.blockno, valid := 1 }, ?_, ?_,
      fun _ => ⟨rfl, rfl, rfl⟩, fun h => absurd hv h, by simp, fun _ => rfl, rfl, rfl,
      by simp, hsecond _ (by simp)⟩
    · simp only [readStep, deref, hb, hv, if_true, virtio_disk_rw, store, hi, modify,
        List.getElem?_set, List.length_set, List.set_set, Bool.false_eq_true, if_false]
    · simp only
      rw [List.getElem?_set, if_pos rfl, if_pos hi]
  · refine ⟨w, b, ?_, hb, fun h => absurd h hv, fun _ => rfl, hv, fun h => by omega, rfl, rfl,
      by omega, hsecond b hv⟩
    simp only [readStep, deref, hb, hv, if_false]

/-- Witness for C13: slot 0 of the pool of three is bound to block (1,1) with
`valid = 0`; its first read step fetches the block from the disk. -/
theorem read_step_idempotent_witness :
    ∃ w1 b1, readStep { cache := exampleMixed, disk := [(1, 1, [7, 7])] } (Ptr.slot 0) = some w1 ∧
      w1.cache.buf[0]? = some b1 ∧
      w1.log = [] ++ [Transfer.read 1 1] ∧ b1.data = [7, 7] ∧ b1.valid = 1 ∧
      readStep w1 (Ptr.slot 0) = some w1 :=
  let ⟨w1, b1, h1, h2, h3, _, _, h6, _, _, _, h10⟩ :=
    read_step_idempotent { cache := exampleMixed, disk := [(1, 1, [7, 7])] } 0
      { dev := 1, blockno := 1, tick := 5, refcnt := 1, lock := some 1,
        prev := Ptr.head 1, next := Ptr.head 1 } (by decide)
  ⟨w1, b1, h1, h2, (h3 rfl).1, by rw [(h3 rfl).2.2]; rfl, h6 (by decide), h10 w1 h2⟩

/-! ## Write, eviction, read -/

/-- A fresh buffer (`valid == 0`) is filled from the disk by the read step. -/
theorem readStep_fetch (w : World) (i : Nat) (b : Buf) (hb : w.cache.buf[i]? = some b)
    (hv : b.valid = 0) :
    ∃ w1, readStep w (Ptr.slot i) = some w1 ∧
      w1.cache.buf[i]? = some { b with data := diskBlock w.disk b.dev b.blockno, valid := 1 } := by
  have hi : i < w.cache.buf.length := lt_of_getElem?_some w.cache.buf i b hb
  refine ⟨{ cache :=
              { hash_table := w.cache.hash_table
                buf := w.cache.buf.set i
                  { b with data := diskBlock w.disk b.dev b.blockno, valid := 1 } }
            disk := w.disk
            log := w.log ++ [Transfer.read b.dev b.blockno] }, ?_, ?_⟩
  · simp only [readStep, deref, hb, hv, if_true, virtio_disk_rw, store, hi, modify,
      List.getElem?_set, List.length_set, List.set_set, Bool.false_eq_true, if_false]
  · simp only
    rw [List.getElem?_set, if_pos rfl, if_pos hi]

/-- The round trip through the disk where `bget` works: after `bwrite` of a
buffer the disk holds its data, and a `bread` whose `bget` returns a freshly
bound slot (`valid == 0`) for a block returns it with the contents the disk
holds for that block. -/
theorem round_trip_on_miss (w : World) (pid i : Nat) (b : Buf)
    (hb : w.cache.buf[i]? = some b) (hl : b.lock = some pid) :
    (∃ w1, bwrite w pid (Ptr.slot i) = Done.ok w1 ∧ w1.cache = w.cache ∧
      diskBlock w1.disk b.dev b.blockno = b.data) ∧
    ∀ (w3 : World) (fuel pid3 ticks j : Nat) (s4 : Bcache) (x : Buf),
      bget fuel w3.cache pid3 b.dev b.blockno ticks = Outcome.ret s4 (Ptr.slot j) →
      s4.buf[j]? = some x → x.valid = 0 → x.dev = b.dev → x.blockno = b.blockno →
      diskBlock w3.disk b.dev b.blockno = b.data →
      ∃ w4 y, bread fuel w3 pid3 b.dev b.blockno ticks = Result.ret w4 (Ptr.slot j) ∧
        w4.cache.buf[j]? = some y ∧ y.data = b.data := by
  constructor
  · refine ⟨{ w with
        disk := (b.dev, b.blockno, b.data) :: w.disk
        log := w.log ++ [Transfer.write b.dev b.blockno b.data] }, ?_, rfl, ?_⟩
    · simp only [bwrite, deref, hb, holdingsleep, hl, decide_True, virtio_disk_rw, if_true]
      rfl
    · simp [diskBlock]
  · intro w3 fuel pid3 ticks j s4 x hget hx hv hd hbn hdisk
    obtain ⟨w4, h4, hy⟩ := readStep_fetch { w3 with cache := s4 } j x hx hv
    refine ⟨w4, _, ?_, hy, ?_⟩
    · simp only [bread, hget, h4]
    · simp only
      rw [hd, hbn]; exact hdisk

/-- A lookup that has entered a cycle of two buffers, neither of which is the
head of the bucket or the block looked for, never ends. -/
theorem lookup_cycle (s : Bcache) (k dev blockno : Nat) (p q : Ptr) (x y : Buf)
    (hp : deref s p = some x) (hq : deref s q = some y) (hxn : x.next = q) (hyn : y.next = p)
    (hpk : p ≠ Ptr.head k) (hqk : q ≠ Ptr.head k)
    (hx : x.dev ≠ dev ∨ x.blockno ≠ blockno) (hy : y.dev ≠ dev ∨ y.blockno ≠ blockno) :
    ∀ fuel, lookup s k dev blockno fuel p = Look.timeout ∧
      lookup s k dev blockno fuel q = Look.timeout := by
  intro fuel
  induction fuel with
  | zero => exact ⟨rfl, rfl⟩
  | succ f ih =>
    constructor
    · simp only [lookup, hpk, if_false, hp, hx, if_true, hxn]
      exact ih.2
    · simp only [lookup, hqk, if_false, hq, hy, if_true, hyn]
      exact ih.1

/-- C14 (violated by the code). With 30 buffers and `ticks` still 0, on a disk
whose block (1,1) holds `[3]`: process 1 reads block (1,1) into slot 0, stores
`[7]` into the buffer, writes it and releases it, then reads block (1,2), which
rebinds slot 0.  Every call returns; the disk now holds `[7]` for block (1,1)
and no slot is bound to (1,1).  A later `bread(1,1)`, by any process at any
tick, never returns: its lookup loop runs forever, whatever the fuel. -/
theorem bread_hangs_after_eviction :
    World.run 43 { cache := boot 30, disk := [(1, 1, [3])] } roundTrip = some afterRoundTrip ∧
    diskBlock afterRoundTrip.disk 1 1 = [7] ∧
    hasId afterRoundTrip.cache 1 2 (Ptr.slot 0) = true ∧
    afterRoundTrip.cache.buf.all (fun b => !(decide (b.dev = 1) && decide (b.blockno = 1)))
      = true ∧
    ∀ fuel pid ticks, bread fuel afterRoundTrip pid 1 1 ticks = Result.diverges := by
  refine ⟨by decide, by decide, by decide, by decide, ?_⟩
  intro fuel pid ticks
  have hh : deref afterRoundTrip.cache (Ptr.head 1) =
      some { prev := Ptr.slot 0, next := Ptr.slot 0 } := by decide
  have hk : 1 % N_BUCKETS = 1 := by decide
  have hcyc := (lookup_cycle afterRoundTrip.cache 1 1 1 (Ptr.slot 0) (Ptr.head 2)
    { valid := 1, dev := 1, blockno := 2, lock := some 1, refcnt := 1,
      prev := Ptr.head 2, next := Ptr.head 2 }
    { prev := Ptr.slot 0, next := Ptr.slot 0 }
    (by decide) (by decide) rfl rfl (by decide) (by decide) (by decide) (by decide) fuel).1
  simp only [bread, bget, hk, hh, hcyc]

/-- C10 (violated by the code). After `binit`, with 30 buffers and `ticks`
still 0: read block 1, release it, read block 2 (every call returns).  No slot
has identity (1,14) and 29 of the 30 slots have `refcnt == 0`, so the pool is
not exhausted; yet `bget(1,14)`, by any process at any tick, neither panics nor
returns a slot: its lookup loop in bucket 1 runs forever, whatever the fuel. -/
theorem bget_hangs_with_free_slots :
    run 43 (boot 30) earlyBoot = some afterEarlyBoot ∧
    afterEarlyBoot.buf.all (fun b => !(decide (b.dev = 1) && decide (b.blockno = 14))) = true ∧
    (afterEarlyBoot.buf.filter (fun b => decide (b.refcnt = 0))).length = 29 ∧
    14 % N_BUCKETS = 1 ∧
    ∀ fuel pid ticks, bget fuel afterEarlyBoot pid 1 14 ticks = Outcome.diverges := by
  refine ⟨by decide, by decide, by decide, by decide, ?_⟩
  intro fuel pid ticks
  have hh : deref afterEarlyBoot (Ptr.head 1) =
      some { prev := Ptr.slot 0, next := Ptr.slot 0 } := by decide
  have hk : 14 % N_BUCKETS = 1 := by decide
  have hcyc := (lookup_cycle afterEarlyBoot 1 1 14 (Ptr.slot 0) (Ptr.head 2)
    { dev := 1, blockno := 2, lock := some 1, refcnt := 1,
      prev := Ptr.head 2, next := Ptr.head 2 }
    { prev := Ptr.slot 0, next := Ptr.slot 0 }
    (by decide) (by decide) rfl rfl (by decide) (by decide) (by decide) (by decide) fuel).1
  simp only [bget, hk, hh, hcyc]

/-! ## Lock order in `bget` -/

theorem rebindTraced_fst (s : Bcache) (v k dev blockno ticks : Nat) :
    (rebindTraced s v k dev blockno ticks).1 = rebind s v k dev blockno ticks := by
  unfold rebindTraced rebind
  cases s.buf[v]? with
  | none => rfl
  | some vb =>
    simp only
    by_cases ht : vb.tick = 0
    · rw [if_pos ht, if_pos ht]
      cases modify s (Ptr.slot v) (fun b => replace_buffer b dev blockno ticks) with
      | none => rfl
      | some s1 => rfl
    · rw [if_neg ht, if_neg ht]
      by_cases hb : vb.blockno % N_BUCKETS ≠ k
      · rw [if_pos hb, if_pos hb]
        cases modify s (Ptr.slot v) (fun b => replace_buffer b dev blockno ticks) with
        | none => rfl
        | some s1 =>
          simp only
          cases unlink s1 (Ptr.slot v) with
          | none => rfl
          | some s2 => rfl
      · rw [if_neg hb, if_neg hb]

theorem rebindTraced_snd (s s1 : Bcache) (v k dev blockno ticks : Nat) (vb : Buf)
    (hvb : s.buf[v]? = some vb) (h : rebind s v k dev blockno ticks = some s1) :
    (rebindTraced s v k dev blockno ticks).2 = rebindLocks vb k := by
  unfold rebind at h
  unfold rebindTraced rebindLocks
  rw [hvb] at h ⊢
  simp only at h ⊢
  by_cases ht : vb.tick = 0
  · rw [if_pos ht, if_pos ht]
    cases modify s (Ptr.slot v) (fun b => replace_buffer b dev blockno ticks) with
    | none => rfl
    | some sA => rfl
  · rw [if_neg ht] at h ⊢
    rw [if_neg ht]
    by_cases hb : vb.blockno % N_BUCKETS ≠ k
    · rw [if_pos hb] at h ⊢
      rw [if_pos hb]
      cases hA : modify s (Ptr.slot v) (fun b => replace_buffer b dev blockno ticks) with
      | none => rw [hA] at h; cases h
      | some sA =>
        rw [hA] at h
        simp only at h ⊢
        cases hB : unlink sA (Ptr.slot v) with
        | none => rw [hB] at h; cases h
        | some sB => rfl
    · rw [if_neg hb, if_neg hb]

/-- The lock operations listed by `bgetLocks` are those of `bget`: the traced
`bget`, which records every lock operation where it stands in the code, ends as
`bget` does, and unless the call stops on an invalid access its lock operations
are the list `bgetLocks`. -/
theorem bgetLocks_agrees (fuel : Nat) (s : Bcache) (pid dev blockno ticks : Nat) :
    (bgetTraced fuel s pid dev blockno ticks).1 = bget fuel s pid dev blockno ticks ∧
    (bget fuel s pid dev blockno ticks ≠ Outcome.fault →
      (bgetTraced fuel s pid dev blockno ticks).2 = bgetLocks fuel s dev blockno) := by
  simp only [bgetTraced, bget, bgetLocks]
  cases deref s (Ptr.head (blockno % N_BUCKETS)) with
  | none => exact ⟨rfl, fun h => absurd rfl h⟩
  | some hd =>
    simp only
    cases lookup s (blockno % N_BUCKETS) dev blockno fuel hd.next with
    | timeout => exact ⟨rfl, fun _ => rfl⟩
    | fault => exact ⟨rfl, fun h => absurd rfl h⟩
    | found q =>
      simp only
      cases modify s q (fun x => { x with tick := ticks, refcnt := uintInc x.refcnt }) with
      | none => exact ⟨rfl, fun h => absurd rfl h⟩
      | some s0 => exact ⟨rfl, fun _ => rfl⟩
    | miss =>
      simp only
      cases hv : findVictim s with
      | none => exact ⟨rfl, fun _ => rfl⟩
      | some v =>
        simp only
        have h1 := rebindTraced_fst s v (blockno % N_BUCKETS) dev blockno ticks
        cases hr : rebind s v (blockno % N_BUCKETS) dev blockno ticks with
        | none =>
          rw [hr] at h1
          cases hT : rebindTraced s v (blockno % N_BUCKETS) dev blockno ticks with
          | mk o evs =>
            rw [hT] at h1
            simp only at h1
            subst h1
            exact ⟨rfl, fun h => absurd rfl h⟩
        | some s0 =>
          rw [hr] at h1
          cases hvb : s.buf[v]? with
          | none =>
            unfold rebind at hr
            rw [hvb] at hr
            cases hr
          | some vb =>
            have h2 := rebindTraced_snd s s0 v (blockno % N_BUCKETS) dev blockno ticks vb hvb hr
            cases hT : rebindTraced s v (blockno % N_BUCKETS) dev blockno ticks with
            | mk o evs =>
              rw [hT] at h1 h2
              simp only at h1 h2
              subst h1
              subst h2
              exact ⟨rfl, fun _ => rfl⟩

/-- C17, as the code has it.  The first lock operation of every `bget` call is
the acquisition of the lock of the bucket of the requested block (the new
bucket).  On a cross-bucket rebind, that is a miss whose victim has a non-zero
`tick` and a block number that hashes to another bucket, the lock operations
are exactly: acquire the new-bucket lock, acquire `bcache.lock`, acquire the
lock of the victim's old bucket, release it, release `bcache.lock`, release the
new-bucket lock, take the victim's sleep lock; the index of the old bucket is
not compared with that of the new one.  In every other case the new-bucket lock
is the only bucket lock the call acquires. -/
theorem bget_lock_order (fuel : Nat) (s : Bcache) (dev blockno : Nat) :
    (∃ rest, bgetLocks fuel s dev blockno =
      LockEv.acquire (Lock.bucket (blockno % N_BUCKETS)) :: rest) ∧
    (∀ hd v vb, deref s (Ptr.head (blockno % N_BUCKETS)) = some hd →
      lookup s (blockno % N_BUCKETS) dev blockno fuel hd.next = Look.miss →
      findVictim s = some v → s.buf[v]? = some vb → vb.tick ≠ 0 →
      vb.blockno % N_BUCKETS ≠ blockno % N_BUCKETS →
      bgetLocks fuel s dev blockno =
        [LockEv.acquire (Lock.bucket (blockno % N_BUCKETS)), LockEv.acquire Lock.bcache,
         LockEv.acquire (Lock.bucket (vb.blockno % N_BUCKETS)),
         LockEv.release (Lock.bucket (vb.blockno % N_BUCKETS)),
         LockEv.release Lock.bcache, LockEv.release (Lock.bucket (blockno % N_BUCKETS)),
         LockEv.acquire (Lock.sleep (Ptr.slot v))]) ∧
    ((¬ ∃ hd v vb, deref s (Ptr.head (blockno % N_BUCKETS)) = some hd ∧
        lookup s (blockno % N_BUCKETS) dev blockno fuel hd.next = Look.miss ∧
        findVictim s = some v ∧ s.buf[v]? = some vb ∧ vb.tick ≠ 0 ∧
        vb.blockno % N_BUCKETS ≠ blockno % N_BUCKETS) →
      ∀ k, LockEv.acquire (Lock.bucket k) ∈ bgetLocks fuel s dev blockno →
        k = blockno % N_BUCKETS) := by
  refine ⟨⟨_, rfl⟩, ?_, ?_⟩
  · intro hd v vb hhd hmiss hv hvb ht hne
    simp only [bgetLocks, hhd, hmiss, hv, hvb, rebindLocks]
    rw [if_neg ht, if_pos hne]
    rfl
  · intro hnot k hk
    simp only [bgetLocks] at hk
    cases hhd : deref s (Ptr.head (blockno % N_BUCKETS)) with
    | none =>
      rw [hhd] at hk
      simpa using hk
    | some hd =>
      rw [hhd] at hk
      simp only at hk
      cases hl : lookup s (blockno % N_BUCKETS) dev blockno fuel hd.next with
      | timeout =>
        rw [hl] at hk
        simpa using hk
      | fault =>
        rw [hl] at hk
        simpa using hk
      | found q =>
        rw [hl] at hk
        simpa using hk
      | miss =>
        rw [hl] at hk
        simp only at hk
        cases hv : findVictim s with
        | none =>
          rw [hv] at hk
          simpa using hk
        | some v =>
          rw [hv] at hk
          simp only at hk
          cases hvb : s.buf[v]? with
          | none =>
            rw [hvb] at hk
            simpa using hk
          | some vb =>
            rw [hvb] at hk
            simp only [rebindLocks] at hk
            by_cases ht : vb.tick = 0
            · rw [if_pos ht] at hk
              simpa using hk
            · rw [if_neg ht] at hk
              by_cases hb : vb.blockno % N_BUCKETS ≠ blockno % N_BUCKETS
              · exact absurd ⟨hd, v, vb, hhd, hl, hv, hvb, ht, hb⟩ hnot
              · rw [if_neg hb] at hk
                simpa using hk

/-- Witness for C17: with blocks (1,1), (1,2), (1,3) cached and released, the
victim of a miss is slot 0, in bucket 1.  A `bget` of block 30 (bucket 4) takes
the lock of the lower bucket 1 while it holds that of bucket 4; a `bget` of
block 13 (bucket 0) takes the lock of the higher bucket 1 while it holds that
of bucket 0. -/
theorem bget_lock_order_witness :
    bgetLocks 2 exampleIdle 1 30 =
      [LockEv.acquire (Lock.bucket (30 % N_BUCKETS)), LockEv.acquire Lock.bcache,
       LockEv.acquire (Lock.bucket (1 % N_BUCKETS)),
       LockEv.release (Lock.bucket (1 % N_BUCKETS)),
       LockEv.release Lock.bcache, LockEv.release (Lock.bucket (30 % N_BUCKETS)),
       LockEv.acquire (Lock.sleep (Ptr.slot 0))] ∧
    bgetLocks 2 exampleIdle 1 13 =
      [LockEv.acquire (Lock.bucket (13 % N_BUCKETS)), LockEv.acquire Lock.bcache,
       LockEv.acquire (Lock.bucket (1 % N_BUCKETS)),
       LockEv.release (Lock.bucket (1 % N_BUCKETS)),
       LockEv.release Lock.bcache, LockEv.release (Lock.bucket (13 % N_BUCKETS)),
       LockEv.acquire (Lock.sleep (Ptr.slot 0))] ∧
    30 % N_BUCKETS = 4 ∧ 13 % N_BUCKETS = 0 ∧ 1 % N_BUCKETS = 1 :=
  ⟨(bget_lock_order 2 exampleIdle 1 30).2.1
      { prev := Ptr.head 4, next := Ptr.head 4 } 0
      { dev := 1, blockno := 1, tick := 1, prev := Ptr.head 1, next := Ptr.head 1 }
      (by decide) (by decide) (by decide) (by decide) (by decide) (by decide),
   (bget_lock_order 2 exampleIdle 1 13).2.1
      { prev := Ptr.head 0, next := Ptr.head 0 } 0
      { dev := 1, blockno := 1, tick := 1, prev := Ptr.head 1, next := Ptr.head 1 }
      (by decide) (by decide) (by decide) (by decide) (by decide) (by decide),
   by decide, by decide, by decide⟩

/-- C17 as stated fails: with blocks (1,1), (1,2), (1,3) cached and released, a
`bget` of block (1,5) holds the lock of bucket 5 when it acquires the lock of
bucket 1, the old bucket of its victim slot 0.  The call returns slot 0. -/
theorem bucket_locks_out_of_index_order :
    bgetLocks 2 exampleIdle 1 5 =
      [LockEv.acquire (Lock.bucket 5), LockEv.acquire Lock.bcache,
       LockEv.acquire (Lock.bucket 1), LockEv.release (Lock.bucket 1),
       LockEv.release Lock.bcache, LockEv.release (Lock.bucket 5),
       LockEv.acquire (Lock.sleep (Ptr.slot 0))] ∧
    inIndexOrder [] (bgetLocks 2 exampleIdle 1 5) = false ∧
    ∃ s1, bget 2 exampleIdle 4 1 5 4 = Outcome.ret s1 (Ptr.slot 0) ∧
      hasId s1 1 5 (Ptr.slot 0) = true :=
  ⟨by decide, by decide, (bget 2 exampleIdle 4 1 5 4).stateD exampleIdle, by decide, by decide⟩

/-! ## Relinking leaves everything but the links alone -/

theorem modify_noLinks {s s1 : Bcache} {p : Ptr} {f : Buf → Buf} (h : modify s p f = some s1)
    (hf : ∀ x, noLinks (f x) = noLinks x) (q : Ptr) :
    (deref s1 q).map noLinks = (deref s q).map noLinks := by
  rw [deref_modify h q]
  by_cases hq : q = p
  · rw [if_pos hq, hq]
    cases deref s p with
    | none => rfl
    | some x => simp [hf]
  · rw [if_neg hq]

theorem bucket_add_noLinks (s s1 : Bcache) (k : Nat) (p : Ptr)
    (h : bucket_add s k p = some s1) (q : Ptr) :
    (deref s1 q).map noLinks = (deref s q).map noLinks := by
  unfold bucket_add at h
  cases h0 : deref s (Ptr.head k) with
  | none => rw [h0] at h; cases h
  | some hd =>
    rw [h0] at h
    simp only at h
    cases h1 : modify s p (fun b => { b with next := hd.next }) with
    | none => rw [h1] at h; cases h
    | some sa =>
      rw [h1] at h
      simp only at h
      cases h2 : deref sa (Ptr.head k) with
      | none => rw [h2] at h; cases h
      | some hd1 =>
        rw [h2] at h
        simp only at h
        cases h3 : modify sa hd1.next (fun b => { b with prev := p }) with
        | none => rw [h3] at h; cases h
        | some sb =>
          rw [h3] at h
          simp only at h
          cases h4 : modify sb (Ptr.head k) (fun b => { b with next := p }) with
          | none => rw [h4] at h; cases h
          | some sc =>
            rw [h4] at h
            simp only at h
            rw [modify_noLinks h (fun _ => rfl) q, modify_noLinks h4 (fun _ => rfl) q,
              modify_noLinks h3 (fun _ => rfl) q, modify_noLinks h1 (fun _ => rfl) q]

theorem unlink_noLinks (s s1 : Bcache) (v : Ptr) (h : unlink s v = some s1) (q : Ptr) :
    (deref s1 q).map noLinks = (deref s q).map noLinks := by
  unfold unlink at h
  cases h0 : deref s v with
  | none => rw [h0] at h; cases h
  | some b =>
    rw [h0] at h
    simp only at h
    cases h1 : modify s b.prev (fun x => { x with next := b.next }) with
    | none => rw [h1] at h; cases h
    | some sa =>
      rw [h1] at h
      simp only at h
      cases h2 : deref sa v with
      | none => rw [h2] at h; cases h
      | some b1 =>
        rw [h2] at h
        simp only at h
        rw [modify_noLinks h (fun _ => rfl) q, modify_noLinks h1 (fun _ => rfl) q]

/-- Whatever branch the rebinding of victim `v` takes, it leaves every buffer
but the victim as it was, links apart, and the victim with the fields that
`replace_buffer` stores. -/
theorem rebind_noLinks (s s1 : Bcache) (v k dev blockno ticks : Nat)
    (h : rebind s v k dev blockno ticks = some s1) (q : Ptr) :
    (deref s1 q).map noLinks =
      (deref s q).map (fun x =>
        noLinks (if q = Ptr.slot v then replace_buffer x dev blockno ticks else x)) := by
  have key : ∀ sA, modify s (Ptr.slot v) (fun b => replace_buffer b dev blockno ticks) = some sA →
      (deref sA q).map noLinks =
        (deref s q).map (fun x =>
          noLinks (if q = Ptr.slot v then replace_buffer x dev blockno ticks else x)) := by
    intro sA hA
    rw [replace_step s sA v dev blockno ticks hA q, Option.map_map]
    rfl
  unfold rebind at h
  cases hvb : s.buf[v]? with
  | none => rw [hvb] at h; cases h
  | some vb =>
    rw [hvb] at h
    simp only at h
    cases hA : modify s (Ptr.slot v) (fun b => replace_buffer b dev blockno ticks) with
    | none => simp [hA] at h
    | some sA =>
      rw [hA] at h
      simp only at h
      by_cases ht : vb.tick = 0
      · rw [if_pos ht] at h
        rw [bucket_add_noLinks sA s1 k _ h q, key sA hA]
      · rw [if_neg ht] at h
        by_cases hb : vb.blockno % N_BUCKETS ≠ k
        · rw [if_pos hb] at h
          cases hB : unlink sA (Ptr.slot v) with
          | none => rw [hB] at h; cases h
          | some sB =>
            rw [hB] at h
            simp only at h
            rw [bucket_add_noLinks sB s1 k _ h q, unlink_noLinks sA sB _ hB q, key sA hA]
        · rw [if_neg hb] at h
          cases h
          exact key s1 hA

theorem fields_of_noLinks (a b : Buf) (h : noLinks a = noLinks b) :
    a.dev = b.dev ∧ a.blockno = b.blockno ∧ a.tick = b.tick ∧ a.refcnt = b.refcnt ∧
      a.lock = b.lock ∧ a.valid = b.valid ∧ a.data = b.data := by
  have h1 : (noLinks a).dev = (noLinks b).dev := by rw [h]
  have h2 : (noLinks a).blockno = (noLinks b).blockno := by rw [h]
  have h3 : (noLinks a).tick = (noLinks b).tick := by rw [h]
  have h4 : (noLinks a).refcnt = (noLinks b).refcnt := by rw [h]
  have h5 : (noLinks a).lock = (noLinks b).lock := by rw [h]
  have h6 : (noLinks a).valid = (noLinks b).valid := by rw [h]
  have h7 : (noLinks a).data = (noLinks b).data := by rw [h]
  exact ⟨h1, h2, h3, h4, h5, h6, h7⟩

/-- Slot `i` after the rebinding of victim `v`. -/
theorem slot_after_rebind (s s1 : Bcache) (v k dev blockno ticks : Nat)
    (h : rebind s v k dev blockno ticks = some s1) (i : Nat) (b : Buf)
    (hb : s.buf[i]? = some b) :
    ∃ b1, s1.buf[i]? = some b1 ∧
      noLinks b1 = noLinks (if i = v then replace_buffer b dev blockno ticks else b) := by
  have key := rebind_noLinks s s1 v k dev blockno ticks h (Ptr.slot i)
  simp only [deref, hb, Option.map_some'] at key
  cases h1 : s1.buf[i]? with
  | none => rw [h1] at key; cases key
  | some b1 =>
    rw [h1] at key
    simp only [Option.map_some', Option.some.injEq] at key
    refine ⟨b1, rfl, ?_⟩
    rw [key]
    by_cases hiv : i = v
    · rw [if_pos hiv, if_pos (by rw [hiv])]
    · rw [if_neg hiv, if_neg (by intro e; cases e; exact hiv rfl)]

theorem rebind_buf_length (s s1 : Bcache) (v k dev blockno ticks : Nat)
    (h : rebind s v k dev blockno ticks = some s1) : s1.buf.length = s.buf.length := by
  apply length_eq_of_getElem?
  intro i
  have key := rebind_noLinks s s1 v k dev blockno ticks h (Ptr.slot i)
  simp only [deref] at key
  cases h1 : s1.buf[i]? with
  | none =>
    rw [h1] at key
    cases h2 : s.buf[i]? with
    | none => rfl
    | some b => rw [h2] at key; cases key
  | some b1 =>
    rw [h1] at key
    cases h2 : s.buf[i]? with
    | none => rw [h2] at key; cases key
    | some b => rfl

/-- Writing one field of slot `i`, as a description of every buffer. -/
theorem set_slot_desc (s : Bcache) (i : Nat) (b : Buf) (f : Buf → Buf)
    (hb : s.buf[i]? = some b) (q : Ptr) :
    deref { s with buf := s.buf.set i (f b) } q =
      (deref s q).map (fun x => if q = Ptr.slot i then f x else x) := by
  have hi : i < s.buf.length := lt_of_getElem?_some s.buf i b hb
  cases q with
  | null => rfl
  | head k =>
    simp only [deref]
    cases s.hash_table[k]? with
    | none => rfl
    | some h => simp
  | slot j =>
    simp only [deref]
    rw [List.getElem?_set]
    by_cases hij : i = j
    · subst hij
      rw [if_pos rfl, if_pos hi, hb]
      simp
    · rw [if_neg hij]
      have hne : ¬ (Ptr.slot j = Ptr.slot i) := by
        intro e; cases e; exact hij rfl
      cases s.buf[j]? with
      | none => rfl
      | some x => simp [hne]

theorem nodup_bounded_length (L : List Nat) (n : Nat) (hnd : L.Nodup) (hlt : ∀ i ∈ L, i < n) :
    L.length ≤ n := by
  have hsub : L ⊆ List.range n := fun i hi => List.mem_range.mpr (hlt i hi)
  have := (List.subperm_of_subset hnd hsub).length_le
  simpa using this

/-- The lookup loop of `bget` on a proper bucket list none of whose buffers is
the block looked for ends with a miss. -/
theorem lookup_miss_of_bucket (s : Bcache) (k dev blockno : Nat) (L : List Nat)
    (hB : Bucket s k L)
    (hid : ∀ i ∈ L, ∀ b, s.buf[i]? = some b → ¬ (b.dev = dev ∧ b.blockno = blockno))
    (fuel : Nat) (hfuel : L.length < fuel) :
    ∃ hd, deref s (Ptr.head k) = some hd ∧
      lookup s k dev blockno fuel hd.next = Look.miss := by
  have hbl := Bucket_bucketList s k L hB
  obtain ⟨hd, hhd, _⟩ := hB
  have hhd2 : deref s (Ptr.head k) = some hd := hhd
  unfold bucketList at hbl
  rw [hhd2] at hbl
  simp only at hbl
  refine ⟨hd, hhd2, ?_⟩
  rcases lookup_list s k dev blockno (L.map Ptr.slot) hd.next fuel hbl (by simpa using hfuel) with
    ⟨hmiss, _⟩ | ⟨pre, q, post, hsplit, _, hq, _⟩
  · exact hmiss
  · exfalso
    have hqm : q ∈ L.map Ptr.slot := by rw [hsplit]; simp
    obtain ⟨i, hi, rfl⟩ := List.mem_map.mp hqm
    unfold hasId at hq
    simp only [deref] at hq
    cases hb : s.buf[i]? with
    | none => rw [hb] at hq; cases hq
    | some b =>
      rw [hb] at hq
      simp only [Bool.and_eq_true, decide_eq_true_eq] at hq
      exact hid i hi b hb hq

/-- The victim loop picks slot `j` when `j` is unused and every unused slot has
a `tick` at least as high and, on equal `tick`, an index at least as high. -/
theorem findVictim_eq (s : Bcache) (j : Nat) (bj : Buf) (hj : s.buf[j]? = some bj)
    (hr : bj.refcnt = 0)
    (hmin : ∀ (i : Nat) (b : Buf), s.buf[i]? = some b → b.refcnt = 0 →
      bj.tick ≤ b.tick ∧ (b.tick = bj.tick → j ≤ i)) :
    findVictim s = some j := by
  have hjlt : j < s.buf.length := lt_of_getElem?_some s.buf j bj hj
  have hspec := findVictim_spec s
  cases hv : findVictim s with
  | none =>
    rw [hv] at hspec
    exact absurd hr (hspec j bj hjlt hj)
  | some v =>
    rw [hv] at hspec
    obtain ⟨_, vb, hvb, hvr, hall⟩ := hspec
    have h1 := hall j bj hjlt hj hr
    have h2 := hmin v vb hvb hvr
    have : v = j := by
      have e : bj.tick = vb.tick := Nat.le_antisymm h2.1 h1.1
      have a := h1.2 e
      have b := h2.2 e.symm
      omega
    rw [this]

/-- `bucket_add` of a buffer that is in no bucket list puts it at the front of
the list of bucket `k` and leaves every other list as it was. -/
theorem add_step (sB s1 : Bcache) (LsB : List (List Nat)) (k v : Nat) (hk : k < N_BUCKETS)
    (hLlen : LsB.length = N_BUCKETS)
    (hbuckets : ∀ k2, k2 < N_BUCKETS → Bucket sB k2 (LsB.getD k2 []))
    (hnd : LsB.flatten.Nodup) (hv : v ∉ LsB.flatten) (bv : Buf) (hbv : sB.buf[v]? = some bv)
    (h : bucket_add sB k (Ptr.slot v) = some s1) :
    (∀ k2, k2 < N_BUCKETS → Bucket s1 k2 ((LsB.set k (v :: LsB.getD k [])).getD k2 [])) ∧
    ∃ H, ∀ q, deref s1 q = (deref sB q).map (addLinks k (Ptr.slot v) H q) := by
  obtain ⟨hd, hhd, hdll⟩ := hbuckets k hk
  have hvL : ∀ k2, v ∉ LsB.getD k2 [] := fun k2 hm => hv (mem_flatten_of_getD LsB k2 v hm)
  obtain ⟨_, hHform⟩ := Bucket_head_next sB k _ hd hhd (hbuckets k hk)
  have hnH : Ptr.slot v ≠ hd.next := by
    rcases hHform with h1 | ⟨i, hi, h1⟩
    · rw [h1]; intro e; cases e
    · rw [h1]; intro e; cases e
      exact hvL k hi
  have hdesc := bucket_add_deref sB s1 k (Ptr.slot v) hd hhd (by intro e; cases e) hnH h
  refine ⟨?_, hd.next, hdesc⟩
  intro k2 hk2
  rw [getD_set _ _ _ _ (by rw [hLlen]; exact hk)]
  by_cases hkk : k2 = k
  · rw [if_pos hkk, hkk]
    exact dll_insert sB s1 k v hd hdesc hhd _ hdll (hvL k) (nodup_getD LsB k hnd) bv hbv
  · rw [if_neg hkk]
    refine Bucket_frame sB s1 _ hdesc k2 _ ?_ ?_ (hbuckets k2 hk2)
    · intro x
      have h1 : ¬ (Ptr.head k2 = Ptr.head k) := by
        intro e; cases e; exact hkk rfl
      have h2 : ¬ (Ptr.head k2 = hd.next) := by
        rcases hHform with h3 | ⟨i, _, h3⟩
        · rw [h3]; exact h1
        · rw [h3]; intro e; cases e
      simp [addLinks, h1, h2]
    · intro j hj x
      have h1 : ¬ (Ptr.slot j = Ptr.slot v) := by
        intro e; cases e; exact hvL k2 hj
      have h2 : ¬ (Ptr.slot j = hd.next) := by
        rcases hHform with h3 | ⟨i, hi, h3⟩
        · rw [h3]; intro e; cases e
        · rw [h3]; intro e; cases e
          exact disjoint_lists LsB k2 k j hnd hkk hj hi
      simp [addLinks, h1, h2]

/-! ## Filling the pool, releasing it, and the next miss -/

/-- One more request is served while the pool fills: the miss takes the first
slot that has not been used and returns it. -/
theorem fill_step (n j : Nat) (pid dev blockno tick : Nat → Nat) (s : Bcache)
    (Ls : List (List Nat)) (hinv : Filled n j 0 pid dev blockno tick s Ls) (hj : j < n)
    (hdist : ∀ i, i < j → ¬ (dev i = dev j ∧ blockno i = blockno j))
    (fuel : Nat) (hfuel : n < fuel) :
    ∃ s1 Ls1, bget fuel s (pid j) (dev j) (blockno j) (tick j) = Outcome.ret s1 (Ptr.slot j) ∧
      Filled n (j + 1) 0 pid dev blockno tick s1 Ls1 := by
  have hk : blockno j % N_BUCKETS < N_BUCKETS := Nat.mod_lt _ (by decide)
  have hLlt : (Ls.getD (blockno j % N_BUCKETS) []).length < fuel := by
    have := nodup_bounded_length (Ls.getD (blockno j % N_BUCKETS) []) n
      (nodup_getD Ls _ hinv.nodup)
      (fun i hi => lt_trans (hinv.linked i (mem_flatten_of_getD Ls _ i hi)) hj)
    omega
  obtain ⟨hd, hhd, hmiss⟩ := lookup_miss_of_bucket s _ (dev j) (blockno j) _
    (hinv.buckets _ hk)
    (by
      intro i hi b hb hid
      have hij := hinv.linked i (mem_flatten_of_getD Ls _ i hi)
      obtain ⟨b2, hb2, hd2, hbn2, _⟩ := hinv.bound i hij
      rw [hb] at hb2
      cases hb2
      exact hdist i hij ⟨hd2.symm.trans hid.1, hbn2.symm.trans hid.2⟩)
    fuel hLlt
  obtain ⟨bj, hbj, hr0, ht0, hl0⟩ := hinv.fresh j (le_refl _) hj
  have hv : findVictim s = some j := by
    refine findVictim_eq s j bj hbj hr0 ?_
    intro i b hb hbr
    rw [ht0]
    refine ⟨Nat.zero_le _, fun _ => ?_⟩
    by_contra hcon
    obtain ⟨b2, hb2, _, _, _, hrc, _⟩ := hinv.bound i (by omega)
    rw [hb] at hb2
    cases hb2
    rw [if_neg (Nat.not_lt_zero i), hbr] at hrc
    exact absurd hrc (by decide)
  obtain ⟨sA, hA, _⟩ := modify_of_deref s (Ptr.slot j)
    (fun b => replace_buffer b (dev j) (blockno j) (tick j)) bj hbj
  have hdescA := replace_step s sA j _ _ _ hA
  have hbucketsA : ∀ k2, k2 < N_BUCKETS → Bucket sA k2 (Ls.getD k2 []) :=
    fun k2 hk2 => Bucket_replace s sA j _ _ _ hA k2 _ (hinv.buckets k2 hk2)
  have hjnot : j ∉ Ls.flatten := fun hm => Nat.lt_irrefl j (hinv.linked j hm)
  have hbjA : sA.buf[j]? = some (replace_buffer bj (dev j) (blockno j) (tick j)) := by
    have := hdescA (Ptr.slot j)
    simp only [deref, hbj, Option.map_some', if_true] at this
    exact this
  obtain ⟨hdA, hhdA, hdllA⟩ := hbucketsA _ hk
  obtain ⟨_, hform⟩ := Bucket_head_next sA _ _ hdA hhdA (hbucketsA _ hk)
  have hnextA : (deref sA hdA.next).isSome = true := by
    rcases hform with h1 | ⟨i, hi, h1⟩
    · rw [h1]
      show (sA.hash_table[blockno j % N_BUCKETS]?).isSome = true
      rw [hhdA]; rfl
    · rw [h1]
      obtain ⟨b, hb⟩ := dll_mem sA _ _ _ _ hdllA i hi
      show (sA.buf[i]?).isSome = true
      rw [hb]; rfl
  obtain ⟨s1, hadd, _⟩ := bucket_add_ok sA _ (Ptr.slot j) hdA hhdA
    (by show (sA.buf[j]?).isSome = true; rw [hbjA]; rfl) hnextA (by intro e; cases e)
  obtain ⟨hbuckets1, _, _⟩ := add_step sA s1 Ls _ j hk hinv.nlists hbucketsA hinv.nodup
    hjnot _ hbjA hadd
  have hre : rebind s j (blockno j % N_BUCKETS) (dev j) (blockno j) (tick j) = some s1 := by
    simp only [rebind, hbj, ht0, if_true, hA, hadd]
  obtain ⟨b1, hb1, hnl1⟩ := slot_after_rebind s s1 j _ _ _ _ hre j bj hbj
  rw [if_pos rfl] at hnl1
  obtain ⟨f1, f2, f3, f4, f5, _, _⟩ := fields_of_noLinks _ _ hnl1
  have hlock1 : b1.lock = none := f5.trans hl0
  have hget : bget fuel s (pid j) (dev j) (blockno j) (tick j) =
      acquiresleep s1 (pid j) (Ptr.slot j) := by
    simp only [bget, hhd, hmiss, hv, hre]
  rw [acquiresleep_slot s1 (pid j) j b1 hb1] at hget
  simp only [hlock1] at hget
  have hdesc2 := set_slot_desc s1 j b1 (fun x => { x with lock := some (pid j) }) hb1
  have hlen1 : s1.buf.length = n := by
    rw [rebind_buf_length s s1 _ _ _ _ _ hre]; exact hinv.nbuf
  have hperm := flatten_set_cons_perm j Ls (blockno j % N_BUCKETS)
    (by rw [hinv.nlists]; exact hk)
  have hother : ∀ (i : Nat) (b : Buf), i ≠ j → s.buf[i]? = some b →
      ∃ b2, (s1.buf.set j { b1 with lock := some (pid j) })[i]? = some b2 ∧
        noLinks b2 = noLinks b := by
    intro i b hij hb
    obtain ⟨b2, hb2, hnl⟩ := slot_after_rebind s s1 j _ _ _ _ hre i b hb
    rw [if_neg hij] at hnl
    refine ⟨b2, ?_, hnl⟩
    rw [List.getElem?_set, if_neg (Ne.symm hij)]
    exact hb2
  refine ⟨_, Ls.set (blockno j % N_BUCKETS) (j :: Ls.getD (blockno j % N_BUCKETS) []), hget, ?_⟩
  constructor
  · show (s1.buf.set j _).length = n
    rw [List.length_set]; exact hlen1
  · rw [List.length_set]; exact hinv.nlists
  · intro k2 hk2
    refine Bucket_frame s1 _ _ hdesc2 k2 _ ?_ ?_ (hbuckets1 k2 hk2)
    · intro x
      simp
    · intro i _ x
      by_cases h : Ptr.slot i = Ptr.slot j <;> simp [h]
  · exact hperm.nodup_iff.mpr (List.nodup_cons.mpr ⟨hjnot, hinv.nodup⟩)
  · intro i hi
    rcases List.mem_cons.mp (hperm.subset hi) with h | h
    · omega
    · have := hinv.linked i h
      omega
  · intro i hi
    rw [getD_set _ _ _ _ (by rw [hinv.nlists]; exact hk)]
    by_cases hij : i = j
    · rw [hij, if_pos rfl]
      exact List.mem_cons_self _ _
    · have hold := hinv.home i (by omega)
      by_cases hkk : blockno i % N_BUCKETS = blockno j % N_BUCKETS
      · rw [if_pos hkk]
        rw [hkk] at hold
        exact List.mem_cons_of_mem _ hold
      · rw [if_neg hkk]
        exact hold
  · intro i hi
    by_cases hij : i = j
    · rw [hij]
      refine ⟨{ b1 with lock := some (pid j) }, ?_, f1, f2, f3, ?_, ?_⟩
      · show (s1.buf.set j _)[j]? = _
        rw [List.getElem?_set, if_pos rfl, if_pos (by rw [hlen1]; exact hj)]
      · show b1.refcnt = if j < 0 then 0 else 1
        rw [if_neg (Nat.not_lt_zero _), f4]; rfl
      · show some (pid j) = if j < 0 then none else some (pid j)
        rw [if_neg (Nat.not_lt_zero _)]
    · obtain ⟨b, hb, h1, h2, h3, h4, h5⟩ := hinv.bound i (by omega)
      obtain ⟨b2, hb2, hnl⟩ := hother i b hij hb
      obtain ⟨g1, g2, g3, g4, g5, _, _⟩ := fields_of_noLinks _ _ hnl
      exact ⟨b2, hb2, g1.trans h1, g2.trans h2, g3.trans h3, g4.trans h4, g5.trans h5⟩
  · intro i hji hin
    obtain ⟨b, hb, h1, h2, h3⟩ := hinv.fresh i (by omega) hin
    obtain ⟨b2, hb2, hnl⟩ := hother i b (by omega) hb
    obtain ⟨_, _, g3, g4, g5, _, _⟩ := fields_of_noLinks _ _ hnl
    exact ⟨b2, hb2, g4.trans h1, g3.trans h2, g5.trans h3⟩

theorem filled_boot (n : Nat) (pid dev blockno tick : Nat → Nat) :
    Filled n 0 0 pid dev blockno tick (boot n) (List.replicate N_BUCKETS []) := by
  have hwf := WF_boot n
  refine ⟨?_, hwf.nlists, hwf.buckets, hwf.nodup, ?_, ?_, ?_, ?_⟩
  · rw [boot_buf]; simp
  · intro i hi
    rw [flatten_replicate_nil_nat] at hi; cases hi
  · intro i hi
    exact absurd hi (Nat.not_lt_zero i)
  · intro i hi
    exact absurd hi (Nat.not_lt_zero i)
  · intro i _ hin
    refine ⟨{}, ?_, rfl, rfl, rfl⟩
    rw [boot_buf, List.getElem?_replicate, if_pos hin]

theorem brelse_slot (s : Bcache) (pid i : Nat) (b : Buf) (hb : s.buf[i]? = some b)
    (hl : b.lock = some pid) :
    brelse s pid (Ptr.slot i) =
      Effect.ok { s with buf := s.buf.set i { b with lock := none, refcnt := uintDec b.refcnt } } := by
  have hi : i < s.buf.length := lt_of_getElem?_some s.buf i b hb
  simp only [brelse, deref, hb, holdingsleep, hl, decide_True, store, hi, if_true]
  rfl

/-- One more holder releases its slot. -/
theorem release_step (n r : Nat) (pid dev blockno tick : Nat → Nat) (s : Bcache)
    (Ls : List (List Nat)) (hinv : Filled n n r pid dev blockno tick s Ls) (hr : r < n) :
    ∃ s1, brelse s (pid r) (Ptr.slot r) = Effect.ok s1 ∧
      Filled n n (r + 1) pid dev blockno tick s1 Ls := by
  obtain ⟨b, hb, h1, h2, h3, h4, h5⟩ := hinv.bound r hr
  rw [if_neg (Nat.lt_irrefl r)] at h4 h5
  have hrel := brelse_slot s (pid r) r b hb h5
  have hdesc := set_slot_desc s r b (fun x => { x with lock := none, refcnt := uintDec x.refcnt }) hb
  refine ⟨_, hrel, ?_⟩
  refine ⟨?_, hinv.nlists, ?_, hinv.nodup, hinv.linked, hinv.home, ?_, ?_⟩
  · show (s.buf.set r _).length = n
    rw [List.length_set]; exact hinv.nbuf
  · intro k2 hk2
    refine Bucket_frame s _ _ hdesc k2 _ ?_ ?_ (hinv.buckets k2 hk2)
    · intro x
      simp
    · intro i _ x
      by_cases h : Ptr.slot i = Ptr.slot r <;> simp [h]
  · intro i hi
    by_cases hir : i = r
    · rw [hir]
      refine ⟨{ b with lock := none, refcnt := uintDec b.refcnt }, ?_, h1, h2, h3, ?_, ?_⟩
      · show (s.buf.set r _)[r]? = _
        rw [List.getElem?_set, if_pos rfl, if_pos (by rw [hinv.nbuf]; exact hr)]
      · show uintDec b.refcnt = if r < r + 1 then 0 else 1
        rw [if_pos (Nat.lt_succ_self r), h4]
        decide
      · show none = if r < r + 1 then none else some (pid r)
        rw [if_pos (Nat.lt_succ_self r)]
    · obtain ⟨b2, hb2, g1, g2, g3, g4, g5⟩ := hinv.bound i hi
      refine ⟨b2, ?_, g1, g2, g3, ?_, ?_⟩
      · show (s.buf.set r _)[i]? = _
        rw [List.getElem?_set, if_neg (Ne.symm hir)]
        exact hb2
      · rw [g4]
        by_cases hlt : i < r
        · rw [if_pos hlt, if_pos (by omega)]
        · rw [if_neg hlt, if_neg (by omega)]
      · rw [g5]
        by_cases hlt : i < r
        · rw [if_pos hlt, if_pos (by omega)]
        · rw [if_neg hlt, if_neg (by omega)]
  · intro i hni hin
    omega

theorem dll_cur_valid (s : Bcache) (k : Nat) (L : List Nat) (pv cur : Ptr)
    (h : dll s k pv cur L) : (deref s cur).isSome = true := by
  cases L with
  | nil =>
    obtain ⟨hc, hd, hhd, _⟩ := h
    rw [hc]
    show (s.hash_table[k]?).isSome = true
    rw [hhd]; rfl
  | cons i L =>
    obtain ⟨hc, b, hb, _, _⟩ := h
    rw [hc]
    show (s.buf[i]?).isSome = true
    rw [hb]; rfl

/-- The links of a buffer in a proper list point at existing buffers. -/
theorem dll_links_valid (s : Bcache) (k : Nat) :
    ∀ (L : List Nat) (pv cur : Ptr), dll s k pv cur L → (deref s pv).isSome = true →
      ∀ i ∈ L, ∀ b, s.buf[i]? = some b →
        (deref s b.prev).isSome = true ∧ (deref s b.next).isSome = true := by
  intro L
  induction L with
  | nil => intro pv cur _ _ i hi; cases hi
  | cons m L ih =>
    intro pv cur h hpv i hi b hb
    obtain ⟨_, bm, hbm, hprev, hrest⟩ := h
    rcases List.mem_cons.mp hi with e | hin
    · subst e
      rw [hb] at hbm
      cases hbm
      exact ⟨by rw [hprev]; exact hpv, dll_cur_valid s k L _ _ hrest⟩
    · refine ih (Ptr.slot m) bm.next hrest ?_ i hin b hb
      show (s.buf[m]?).isSome = true
      rw [hbm]; rfl

/-- The miss that follows once the pool has been filled and released: it
returns slot 0, rebound, and leaves the identity of every other slot alone. -/
theorem final_step (n : Nat) (hn : 0 < n) (pid dev blockno tick : Nat → Nat) (s : Bcache)
    (Ls : List (List Nat)) (hinv : Filled n n n pid dev blockno tick s Ls)
    (hmono : ∀ i, i < n → tick 0 ≤ tick i)
    (fuel : Nat) (hfuel : n < fuel) (p d b t : Nat)
    (hnew : ∀ i, i < n → ¬ (dev i = d ∧ blockno i = b)) :
    ∃ s1 b1, bget fuel s p d b t = Outcome.ret s1 (Ptr.slot 0) ∧
      s1.buf[0]? = some b1 ∧ b1.dev = d ∧ b1.blockno = b ∧ b1.valid = 0 ∧ b1.refcnt = 1 ∧
      b1.tick = t ∧ b1.lock = some p ∧
      ∀ i, 0 < i → i < n → ∃ bi, s1.buf[i]? = some bi ∧ bi.dev = dev i ∧
        bi.blockno = blockno i ∧ bi.refcnt = 0 := by
  have hk : b % N_BUCKETS < N_BUCKETS := Nat.mod_lt _ (by decide)
  have hLlt : (Ls.getD (b % N_BUCKETS) []).length < fuel := by
    have := nodup_bounded_length (Ls.getD (b % N_BUCKETS) []) n
      (nodup_getD Ls _ hinv.nodup)
      (fun i hi => hinv.linked i (mem_flatten_of_getD Ls _ i hi))
    omega
  obtain ⟨hd, hhd, hmiss⟩ := lookup_miss_of_bucket s _ d b _
    (hinv.buckets _ hk)
    (by
      intro i hi x hx hid
      have hij := hinv.linked i (mem_flatten_of_getD Ls _ i hi)
      obtain ⟨b2, hb2, hd2, hbn2, _⟩ := hinv.bound i hij
      rw [hx] at hb2
      cases hb2
      exact hnew i hij ⟨hd2.symm.trans hid.1, hbn2.symm.trans hid.2⟩)
    fuel hLlt
  obtain ⟨b0, hb0, _, _, ht0, hr0, hl0⟩ := hinv.bound 0 hn
  rw [if_pos hn] at hr0 hl0
  have hv : findVictim s = some 0 := by
    refine findVictim_eq s 0 b0 hb0 hr0 ?_
    intro i x hx _
    have hi : i < n := by
      rw [← hinv.nbuf]; exact lt_of_getElem?_some s.buf i x hx
    obtain ⟨b2, hb2, _, _, ht2, _⟩ := hinv.bound i hi
    rw [hx] at hb2
    cases hb2
    rw [ht0, ht2]
    exact ⟨hmono i hi, fun _ => Nat.zero_le _⟩
  -- the links the rebinding follows exist
  have hk0 : blockno 0 % N_BUCKETS < N_BUCKETS := Nat.mod_lt _ (by decide)
  obtain ⟨hd0, hhd0, hdll0⟩ := hinv.buckets _ hk0
  have hlinks := dll_links_valid s _ _ _ _ hdll0
    (by show (s.hash_table[blockno 0 % N_BUCKETS]?).isSome = true; rw [hhd0]; rfl)
    0 (hinv.home 0 hn) b0 hb0
  obtain ⟨hdk, hhdk, hdllk⟩ := hinv.buckets _ hk
  have hhd2 : deref s (Ptr.head (b % N_BUCKETS)) = some hdk := hhdk
  rw [hhd] at hhd2
  cases hhd2
  have hnext : (deref s hd.next).isSome = true := dll_cur_valid s _ _ _ _ hdllk
  obtain ⟨s1, hre, _⟩ := rebind_ok s 0 (b % N_BUCKETS) d b t b0 hd hb0 hhd hnext
    (fun _ => hlinks)
  obtain ⟨b1, hb1, hnl1⟩ := slot_after_rebind s s1 0 _ _ _ _ hre 0 b0 hb0
  rw [if_pos rfl] at hnl1
  obtain ⟨f1, f2, f3, f4, f5, f6, _⟩ := fields_of_noLinks _ _ hnl1
  have hlock1 : b1.lock = none := f5.trans hl0
  have hget : bget fuel s p d b t = acquiresleep s1 p (Ptr.slot 0) := by
    simp only [bget, hhd, hmiss, hv, hre]
  rw [acquiresleep_slot s1 p 0 b1 hb1] at hget
  simp only [hlock1] at hget
  have hlen1 : s1.buf.length = n := by
    rw [rebind_buf_length s s1 _ _ _ _ _ hre]; exact hinv.nbuf
  refine ⟨_, { b1 with lock := some p }, hget, ?_, f1, f2, f6, f4, f3, rfl, ?_⟩
  · show (s1.buf.set 0 _)[0]? = _
    rw [List.getElem?_set, if_pos rfl, if_pos (by rw [hlen1]; exact hn)]
  · intro i hi0 hin
    obtain ⟨x, hx, g1, g2, _, g4, _⟩ := hinv.bound i hin
    rw [if_pos hin] at g4
    obtain ⟨b2, hb2, hnl⟩ := slot_after_rebind s s1 0 _ _ _ _ hre i x hx
    rw [if_neg (by omega)] at hnl
    obtain ⟨e1, e2, _, e4, _, _, _⟩ := fields_of_noLinks _ _ hnl
    refine ⟨b2, ?_, e1.trans g1, e2.trans g2, e4.trans g4⟩
    show (s1.buf.set 0 _)[i]? = _
    rw [List.getElem?_set, if_neg (by omega)]
    exact hb2

theorem run_append (fuel : Nat) :
    ∀ (a b : List Call) (s : Bcache),
      run fuel s (a ++ b) = (run fuel s a).bind (fun s1 => run fuel s1 b) := by
  intro a
  induction a with
  | nil => intro b s; rfl
  | cons c cs ih =>
    intro b s
    simp only [List.cons_append, run]
    cases step fuel s c with
    | none => rfl
    | some s1 => exact ih b s1

theorem run_fill (n : Nat) (pid dev blockno tick : Nat → Nat)
    (hdist : ∀ i j, i < j → j < n → ¬ (dev i = dev j ∧ blockno i = blockno j))
    (fuel : Nat) (hfuel : n < fuel) :
    ∀ (m j : Nat) (s : Bcache) (Ls : List (List Nat)),
      Filled n j 0 pid dev blockno tick s Ls → j + m = n →
      ∃ s1 Ls1, run fuel s (fillCalls pid dev blockno tick j m) = some s1 ∧
        Filled n n 0 pid dev blockno tick s1 Ls1 := by
  intro m
  induction m with
  | zero =>
    intro j s Ls hinv hjm
    have : j = n := by omega
    subst this
    exact ⟨s, Ls, rfl, hinv⟩
  | succ m ih =>
    intro j s Ls hinv hjm
    obtain ⟨s1, Ls1, hget, hinv1⟩ := fill_step n j pid dev blockno tick s Ls hinv (by omega)
      (fun i hi => hdist i j hi (by omega)) fuel hfuel
    obtain ⟨s2, Ls2, hrun, hinv2⟩ := ih (j + 1) s1 Ls1 hinv1 (by omega)
    refine ⟨s2, Ls2, ?_, hinv2⟩
    simp only [fillCalls, run, step, hget]
    exact hrun

theorem run_release (n : Nat) (pid dev blockno tick : Nat → Nat) (fuel : Nat)
    (Ls : List (List Nat)) :
    ∀ (m r : Nat) (s : Bcache),
      Filled n n r pid dev blockno tick s Ls → r + m = n →
      ∃ s1, run fuel s (releaseCalls pid r m) = some s1 ∧
        Filled n n n pid dev blockno tick s1 Ls := by
  intro m
  induction m with
  | zero =>
    intro r s hinv hrm
    have : r = n := by omega
    subst this
    exact ⟨s, rfl, hinv⟩
  | succ m ih =>
    intro r s hinv hrm
    obtain ⟨s1, hrel, hinv1⟩ := release_step n r pid dev blockno tick s Ls hinv (by omega)
    obtain ⟨s2, hrun, hinv2⟩ := ih (r + 1) s1 hinv1 (by omega)
    refine ⟨s2, ?_, hinv2⟩
    simp only [releaseCalls, run, step, hrel]
    exact hrun

/-- C15. LRU order after filling the pool.  For a pool of `n >= 1` slots in the
state left by `binit`, let `n` requests for pairwise distinct blocks be made in
turn at non-decreasing tick values, each buffer being held, and let all holders
then release.  Every call returns; slot `i` is then bound to the block of
request `i`, with `refcnt` 0.  The next `bget` of a block that is not one of them,
by any process at any tick and whatever bucket the block hashes to, returns
slot 0, the slot bound first, rebound to the new block with `valid = 0` and
`refcnt = 1`, and every other slot keeps its block. -/
theorem lru_after_fill (n : Nat) (hn : 0 < n) (pid dev blockno tick : Nat → Nat)
    (hdist : ∀ i j, i < j → j < n → ¬ (dev i = dev j ∧ blockno i = blockno j))
    (hmono : ∀ i j, i ≤ j → j < n → tick i ≤ tick j)
    (fuel : Nat) (hfuel : n < fuel) (p d b t : Nat)
    (hnew : ∀ i, i < n → ¬ (dev i = d ∧ blockno i = b)) :
    ∃ s s1 b1,
      run fuel (boot n) (fillCalls pid dev blockno tick 0 n ++ releaseCalls pid 0 n) = some s ∧
      (∀ i, i < n → ∃ x, s.buf[i]? = some x ∧ x.dev = dev i ∧ x.blockno = blockno i ∧
        x.tick = tick i ∧ x.refcnt = 0) ∧
      bget fuel s p d b t = Outcome.ret s1 (Ptr.slot 0) ∧
      s1.buf[0]? = some b1 ∧ b1.dev = d ∧ b1.blockno = b ∧ b1.valid = 0 ∧ b1.refcnt = 1 ∧
      b1.tick = t ∧ b1.lock = some p ∧
      ∀ i, 0 < i → i < n → ∃ bi, s1.buf[i]? = some bi ∧ bi.dev = dev i ∧
        bi.blockno = blockno i ∧ bi.refcnt = 0 := by
  obtain ⟨sF, LsF, hrunF, hinvF⟩ := run_fill n pid dev blockno tick hdist fuel hfuel n 0
    (boot n) _ (filled_boot n pid dev blockno tick) (by omega)
  obtain ⟨sR, hrunR, hinvR⟩ := run_release n pid dev blockno tick fuel LsF n 0 sF hinvF
    (by omega)
  obtain ⟨s1, b1, hget, hrest⟩ := final_step n hn pid dev blockno tick sR LsF hinvR
    (fun i hi => hmono 0 i (Nat.zero_le i) hi) fuel hfuel p d b t hnew
  refine ⟨sR, s1, b1, ?_, ?_, hget, hrest⟩
  · rw [run_append, hrunF]
    exact hrunR
  · intro i hi
    obtain ⟨x, hx, g1, g2, g3, g4, _⟩ := hinvR.bound i hi
    rw [if_pos hi] at g4
    exact ⟨x, hx, g1, g2, g3, g4⟩

/-- Witness for C15: a pool of three; processes 1, 2, 3 read blocks 10, 20, 30
of device 1 at ticks 1, 2, 3 and release them.  A miss on block 40 then returns
slot 0, and so does a miss on block 23, which hashes to bucket 10 as block 10
does. -/
theorem lru_after_fill_witness :
    fillCalls (fun i => i + 1) (fun _ => 1) (fun i => 10 * (i + 1)) (fun i => i + 1) 0 3 ++
        releaseCalls (fun i => i + 1) 0 3 =
      [Call.bget 1 1 10 1, Call.bget 2 1 20 2, Call.bget 3 1 30 3,
       Call.brelse 1 (Ptr.slot 0), Call.brelse 2 (Ptr.slot 1), Call.brelse 3 (Ptr.slot 2)] ∧
    (∃ s s1,
      run 4 (boot 3)
        (fillCalls (fun i => i + 1) (fun _ => 1) (fun i => 10 * (i + 1)) (fun i => i + 1) 0 3 ++
          releaseCalls (fun i => i + 1) 0 3) = some s ∧
      bget 4 s 9 1 40 5 = Outcome.ret s1 (Ptr.slot 0)) ∧
    (∃ s s1,
      run 4 (boot 3)
        (fillCalls (fun i => i + 1) (fun _ => 1) (fun i => 10 * (i + 1)) (fun i => i + 1) 0 3 ++
          releaseCalls (fun i => i + 1) 0 3) = some s ∧
      bget 4 s 9 1 23 5 = Outcome.ret s1 (Ptr.slot 0)) ∧
    23 % N_BUCKETS = 10 % N_BUCKETS :=
  ⟨rfl,
   let ⟨s, s1, _, h1, _, h3, _⟩ :=
     lru_after_fill 3 (by decide) (fun i => i + 1) (fun _ => 1) (fun i => 10 * (i + 1))
       (fun i => i + 1) (fun i j hij hj h => by have := h.2; dsimp only at this; omega)
       (fun i j hij _ => by dsimp only; omega) 4 (by decide) 9 1 40 5
       (fun i hi h => by have := h.2; dsimp only at this; omega)
   ⟨s, s1, h1, h3⟩,
   let ⟨s, s1, _, h1, _, h3, _⟩ :=
     lru_after_fill 3 (by decide) (fun i => i + 1) (fun _ => 1) (fun i => 10 * (i + 1))
       (fun i => i + 1) (fun i j hij hj h => by have := h.2; dsimp only at this; omega)
       (fun i j hij _ => by dsimp only; omega) 4 (by decide) 9 1 23 5
       (fun i hi h => by have := h.2; dsimp only at this; omega)
   ⟨s, s1, h1, h3⟩,
   by decide⟩

end Bio

namespace Kalloc

open ListLemmas

/-! ## Arithmetic of the managed range -/

theorem PGROUNDUP_ge (c : Config) (h : 0 < c.PGSIZE) (a : Nat) : a ≤ PGROUNDUP c a := by
  unfold PGROUNDUP
  have h1 := Nat.div_add_mod (a + c.PGSIZE - 1) c.PGSIZE
  have h2 := Nat.mod_lt (a + c.PGSIZE - 1) h
  have h3 : c.PGSIZE * ((a + c.PGSIZE - 1) / c.PGSIZE) = (a + c.PGSIZE - 1) / c.PGSIZE * c.PGSIZE :=
    Nat.mul_comm _ _
  omega

theorem PGROUNDUP_lt (c : Config) (h : 0 < c.PGSIZE) (a : Nat) :
    PGROUNDUP c a < a + c.PGSIZE := by
  unfold PGROUNDUP
  have h1 := Nat.div_add_mod (a + c.PGSIZE - 1) c.PGSIZE
  have h3 : c.PGSIZE * ((a + c.PGSIZE - 1) / c.PGSIZE) = (a + c.PGSIZE - 1) / c.PGSIZE * c.PGSIZE :=
    Nat.mul_comm _ _
  omega

theorem PGROUNDUP_mod (c : Config) (a : Nat) : PGROUNDUP c a % c.PGSIZE = 0 := by
  unfold PGROUNDUP
  exact Nat.mul_mod_left _ _

theorem pagesFrom_length (c : Config) (e : Nat) :
    ∀ fuel p n, countPages c e fuel p n = n + (pagesFrom c e fuel p).length := by
  intro fuel
  induction fuel with
  | zero => intro p n; simp [countPages, pagesFrom]
  | succ f ih =>
    intro p n
    simp only [countPages, pagesFrom]
    split
    · rw [ih]; simp; omega
    · simp

theorem mem_pagesFrom (c : Config) (e : Nat) :
    ∀ fuel p q, q ∈ pagesFrom c e fuel p →
      ∃ k, k < (pagesFrom c e fuel p).length ∧ q = p + k * c.PGSIZE ∧ q + c.PGSIZE ≤ e := by
  intro fuel
  induction fuel with
  | zero => intro p q hq; simp [pagesFrom] at hq
  | succ f ih =>
    intro p q hq
    simp only [pagesFrom] at hq ⊢
    split at hq
    · rename_i hle
      rw [if_pos hle]
      rcases List.mem_cons.mp hq with rfl | hq2
      · exact ⟨0, by simp, by simp, hle⟩
      · obtain ⟨k, hk, hqk, hqe⟩ := ih (p + c.PGSIZE) q hq2
        refine ⟨k + 1, by simp; exact hk, ?_, hqe⟩
        rw [hqk, Nat.succ_mul]; omega
    · cases hq

theorem pagesFrom_nodup (c : Config) (h : 0 < c.PGSIZE) (e : Nat) :
    ∀ fuel p, (pagesFrom c e fuel p).Nodup := by
  intro fuel
  induction fuel with
  | zero => intro p; simp [pagesFrom]
  | succ f ih =>
    intro p
    simp only [pagesFrom]
    split
    · refine List.nodup_cons.mpr ⟨?_, ih _⟩
      intro hmem
      obtain ⟨k, _, hk, _⟩ := mem_pagesFrom c e f (p + c.PGSIZE) p hmem
      have : 0 ≤ k * c.PGSIZE := Nat.zero_le _
      omega
    · exact List.nodup_nil

theorem lt_mul_div_succ (n m : Nat) (hm : 0 < m) : n < m * (n / m + 1) := by
  have h1 := Nat.div_add_mod n m
  have h2 := Nat.mod_lt n hm
  rw [Nat.mul_add, Nat.mul_one]
  omega

theorem pages_ok (c : Config) (hc : c.ok) (q : Nat) (hq : q ∈ pages c) :
    PageOk c ((pages c).length / c.NCPU + 1) q := by
  obtain ⟨hn, hp, hk, _, _⟩ := hc
  unfold pages at hq
  obtain ⟨k, hklt, hqk, hqe⟩ := mem_pagesFrom c c.PHYSTOP c.PHYSTOP (PGROUNDUP c c.kend) q hq
  have hge := PGROUNDUP_ge c hp c.kend
  have hlt := PGROUNDUP_lt c hp c.kend
  have hmod := PGROUNDUP_mod c c.kend
  have hidx : (q - c.kend) / c.PGSIZE = k := by
    have : q - c.kend = (PGROUNDUP c c.kend - c.kend) + k * c.PGSIZE := by omega
    rw [this, Nat.add_mul_div_right _ _ hp, Nat.div_eq_of_lt (by omega)]
    simp
  refine ⟨?_, by omega, by omega, by omega, ?_⟩
  · rw [hqk, Nat.add_mul_mod_self_right, hmod]
  · rw [hidx]
    apply (Nat.div_lt_iff_lt_mul (Nat.succ_pos _)).mpr
    have hlen : (pagesFrom c c.PHYSTOP c.PHYSTOP (PGROUNDUP c c.kend)).length = (pages c).length := rfl
    rw [hlen] at hklt
    have := lt_mul_div_succ (pages c).length c.NCPU hn
    calc k < (pages c).length := hklt
      _ < c.NCPU * ((pages c).length / c.NCPU + 1) := this

/-! ## Free lists as chains in memory -/

theorem Chain_frame (next next1 : Nat → Nat) :
    ∀ (L : List Nat) (p : Nat), (∀ a ∈ L, next1 a = next a) → Chain next p L → Chain next1 p L := by
  intro L
  induction L with
  | nil => intro p _ h; exact h
  | cons a L ih =>
    intro p hsame h
    obtain ⟨hp, ha, hrest⟩ := h
    refine ⟨hp, ha, ?_⟩
    rw [hsame a (List.mem_cons_self a L)]
    exact ih (next a) (fun b hb => hsame b (List.mem_cons_of_mem a hb)) hrest

theorem Chain_unique (next : Nat → Nat) :
    ∀ (L1 L2 : List Nat) (p : Nat), Chain next p L1 → Chain next p L2 → L1 = L2 := by
  intro L1
  induction L1 with
  | nil =>
    intro L2 p h1 h2
    cases L2 with
    | nil => rfl
    | cons b L2 =>
      obtain ⟨hp, hb, _⟩ := h2
      exact absurd (hp.symm.trans h1) hb
  | cons a L1 ih =>
    intro L2 p h1 h2
    obtain ⟨hp, ha, hrest⟩ := h1
    cases L2 with
    | nil => exact absurd (hp.symm.trans h2) ha
    | cons b L2 =>
      obtain ⟨hp2, _, hrest2⟩ := h2
      have hab : a = b := hp.symm.trans hp2
      subst hab
      rw [ih L2 (next a) hrest hrest2]

theorem Chain_head_zero_iff (next : Nat → Nat) (p : Nat) (L : List Nat) (h : Chain next p L) :
    p = 0 ↔ L = [] := by
  cases L with
  | nil => exact ⟨fun _ => rfl, fun _ => h⟩
  | cons a L =>
    obtain ⟨hp, ha, _⟩ := h
    constructor
    · intro h0; exact absurd (hp.symm.trans h0) ha
    · intro h0; cases h0

/-! ## `kfree` on a page that is in no free list -/

theorem kfree_spec (c : Config) (st : State) (pa : Nat) (Ls : List (List Nat))
    (hfl : FreeLists c st Ls) (hok : PageOk c st.freelist_size pa)
    (hfs : st.freelist_size ≠ 0) (hnot : pa ∉ Ls.flatten) :
    ∃ st1, kfree c st pa = Effect.ok st1 ∧ st1.freelist_size = st.freelist_size ∧
      FreeLists c st1
        (Ls.set (kmem_number c st pa) (pa :: Ls.getD (kmem_number c st pa) [])) := by
  obtain ⟨hlen, hLlen, hch⟩ := hfl
  have hn : kmem_number c st pa < c.NCPU := hok.home
  have hcond : ¬ (pa % c.PGSIZE ≠ 0 ∨ pa < c.kend ∨ pa ≥ c.PHYSTOP) := by
    have h1 := hok.aligned
    have h2 := hok.above
    have h3 := hok.below
    intro h
    rcases h with h | h | h
    · exact h h1
    · omega
    · omega
  have hget : st.freelist[kmem_number c st pa]? = some (st.freelist.getD (kmem_number c st pa) 0) := by
    rw [List.getD_eq_getElem _ _ (by omega), List.getElem?_eq_getElem (by omega)]
  refine ⟨{ st with
      freelist := st.freelist.set (kmem_number c st pa) pa
      next := setNext (memset st.next pa 1) pa (st.freelist.getD (kmem_number c st pa) 0) },
    by simp only [kfree, hcond, if_false, hfs, hget], rfl, ?_, ?_, ?_⟩
  · simp [hlen]
  · simp [hLlen]
  · intro i hi
    have hsame : ∀ L : List Nat, pa ∉ L → ∀ a ∈ L,
        setNext (memset st.next pa 1) pa (st.freelist.getD (kmem_number c st pa) 0) a
          = st.next a := by
      intro L hL a ha
      have hne : a ≠ pa := fun h => hL (h ▸ ha)
      simp [setNext, memset, hne]
    have hnotin : ∀ j, pa ∉ Ls.getD j [] := fun j h => hnot (mem_flatten_of_getD Ls j pa h)
    simp only
    rw [getD_set_nat _ _ _ _ (by omega), getD_set _ _ _ _ (by omega)]
    by_cases hin : i = kmem_number c st pa
    · rw [if_pos hin, if_pos hin]
      refine ⟨rfl, hok.nonnull, ?_⟩
      have hhead : setNext (memset st.next pa 1) pa (st.freelist.getD (kmem_number c st pa) 0) pa
          = st.freelist.getD (kmem_number c st pa) 0 := by simp [setNext]
      rw [hhead]
      exact Chain_frame st.next _ _ _ (hsame _ (hnotin _)) (hch _ hn)
    · rw [if_neg hin, if_neg hin]
      exact Chain_frame st.next _ _ _ (hsame _ (hnotin _)) (hch i hi)

/-! ## `find_freelist` and `kalloc` -/

theorem probe_spec (st : State) (cpu : Nat) :
    ∀ fuel i,
      match probe st cpu fuel i with
      | some j => i ≤ j ∧ j < i + fuel ∧ j ≠ cpu ∧ st.freelist.getD j 0 ≠ 0 ∧
          ∀ k, i ≤ k → k < j → k ≠ cpu → st.freelist.getD k 0 = 0
      | none => ∀ k, i ≤ k → k < i + fuel → k ≠ cpu → st.freelist.getD k 0 = 0 := by
  intro fuel
  induction fuel with
  | zero =>
    intro i
    simp only [probe]
    intro k h1 h2; omega
  | succ f ih =>
    intro i
    simp only [probe]
    have hrec := ih (i + 1)
    by_cases hic : i = cpu
    · rw [if_pos hic]
      cases hp : probe st cpu f (i + 1) with
      | none =>
        rw [hp] at hrec
        intro k h1 h2 h3
        have : k ≠ i := by rw [hic]; exact h3
        exact hrec k (by omega) (by omega) h3
      | some j =>
        rw [hp] at hrec
        obtain ⟨h1, h2, h3, h4, h5⟩ := hrec
        refine ⟨by omega, by omega, h3, h4, ?_⟩
        intro k hk1 hk2 hk3
        have : k ≠ i := by rw [hic]; exact hk3
        exact h5 k (by omega) hk2 hk3
    · rw [if_neg hic]
      by_cases hne : st.freelist.getD i 0 ≠ 0
      · rw [if_pos hne]
        exact ⟨le_refl _, by omega, hic, hne, fun k h1 h2 => by omega⟩
      · rw [if_neg hne]
        have hz : st.freelist.getD i 0 = 0 := by
          by_contra h; exact hne h
        cases hp : probe st cpu f (i + 1) with
        | none =>
          rw [hp] at hrec
          intro k h1 h2 h3
          by_cases hki : k = i
          · rw [hki]; exact hz
          · exact hrec k (by omega) (by omega) h3
        | some j =>
          rw [hp] at hrec
          obtain ⟨h1, h2, h3, h4, h5⟩ := hrec
          refine ⟨by omega, by omega, h3, h4, ?_⟩
          intro k hk1 hk2 hk3
          by_cases hki : k = i
          · rw [hki]; exact hz
          · exact h5 k (by omega) hk2 hk3

theorem find_freelist_spec (c : Config) (st : State) (cpu : Nat) :
    match find_freelist c st cpu with
    | some j => st.freelist.getD j 0 ≠ 0 ∧
        (st.freelist.getD cpu 0 ≠ 0 → j = cpu) ∧
        (st.freelist.getD cpu 0 = 0 → j < c.NCPU ∧ ∀ k, k < j → st.freelist.getD k 0 = 0)
    | none => st.freelist.getD cpu 0 = 0 ∧ ∀ k, k < c.NCPU → st.freelist.getD k 0 = 0 := by
  unfold find_freelist
  by_cases h : st.freelist.getD cpu 0 ≠ 0
  · rw [if_pos h]
    exact ⟨h, fun _ => rfl, fun h0 => absurd h0 h⟩
  · rw [if_neg h]
    have hz : st.freelist.getD cpu 0 = 0 := by
      by_contra h2; exact h h2
    have hp := probe_spec st cpu c.NCPU 0
    cases hpr : probe st cpu c.NCPU 0 with
    | none =>
      rw [hpr] at hp
      refine ⟨hz, ?_⟩
      intro k hk
      by_cases hkc : k = cpu
      · rw [hkc]; exact hz
      · exact hp k (Nat.zero_le _) (by omega) hkc
    | some j =>
      rw [hpr] at hp
      obtain ⟨_, h2, h3, h4, h5⟩ := hp
      refine ⟨h4, fun h0 => absurd hz h0, fun _ => ⟨by omega, ?_⟩⟩
      intro k hk
      by_cases hkc : k = cpu
      · rw [hkc]; exact hz
      · exact h5 k (Nat.zero_le _) hk hkc

theorem head_zero_iff (c : Config) (st : State) (Ls : List (List Nat))
    (hfl : FreeLists c st Ls) (k : Nat) (hk : k < c.NCPU) :
    st.freelist.getD k 0 = 0 ↔ Ls.getD k [] = [] :=
  Chain_head_zero_iff st.next _ _ (hfl.2.2 k hk)

theorem kalloc_take (c : Config) (st : State) (cpu : Nat) (Ls : List (List Nat)) (i a : Nat)
    (L : List Nat) (hfl : FreeLists c st Ls) (hnd : Ls.flatten.Nodup)
    (hfind : find_freelist c st cpu = some i) (hi : i < c.NCPU) (hLi : Ls.getD i [] = a :: L) :
    (kalloc c st cpu).2 = a ∧ FreeLists c (kalloc c st cpu).1 (Ls.set i L) ∧
      (kalloc c st cpu).1.freelist_size = st.freelist_size := by
  obtain ⟨hlen, hLlen, hch⟩ := hfl
  have hci := hch i hi
  rw [hLi] at hci
  obtain ⟨hhead, ha, hrest⟩ := hci
  have hne : st.freelist.getD i 0 ≠ 0 := by rw [hhead]; exact ha
  have hk : kalloc c st cpu =
      ({ st with freelist := st.freelist.set i (st.next a), next := memset st.next a 5 }, a) := by
    simp only [kalloc, hfind, hhead]
    rw [if_pos ha]
  rw [hk]
  refine ⟨rfl, ⟨by simp [hlen], by simp [hLlen], ?_⟩, rfl⟩
  intro j hj
  simp only
  rw [getD_set_nat _ _ _ _ (by omega), getD_set _ _ _ _ (by omega)]
  have hain : a ∈ Ls.getD i [] := by rw [hLi]; exact List.mem_cons_self a L
  have hframe : ∀ M : List Nat, a ∉ M → ∀ b ∈ M, memset st.next a 5 b = st.next b := by
    intro M hM b hb
    have : b ≠ a := fun h => hM (h ▸ hb)
    simp [memset, this]
  by_cases hji : j = i
  · rw [if_pos hji, if_pos hji]
    have hnodup := nodup_getD Ls i hnd
    rw [hLi] at hnodup
    exact Chain_frame st.next _ L _ (hframe L (List.nodup_cons.mp hnodup).1) hrest
  · rw [if_neg hji, if_neg hji]
    exact Chain_frame st.next _ _ _
      (hframe _ (disjoint_lists Ls i j a hnd (Ne.symm hji) hain)) (hch j hj)

/-- C5. `kalloc` on CPU `cpu`, in a state whose free lists are the disjoint
lists `Ls`: it returns the head page of list `cpu` when that list is not empty;
otherwise the head page of the lowest-indexed non-empty list; it returns 0
exactly when every list is empty, and then changes nothing.  On success the
chosen list loses its head page and every other list is unchanged. -/
theorem kalloc_spec (c : Config) (st : State) (cpu : Nat) (Ls : List (List Nat))
    (hfl : FreeLists c st Ls) (hnd : Ls.flatten.Nodup) (hcpu : cpu < c.NCPU) :
    (∀ a L, Ls.getD cpu [] = a :: L →
      (kalloc c st cpu).2 = a ∧ FreeLists c (kalloc c st cpu).1 (Ls.set cpu L)) ∧
    (Ls.getD cpu [] = [] → ∀ i a L, i < c.NCPU → Ls.getD i [] = a :: L →
      (∀ j, j < i → Ls.getD j [] = []) →
      (kalloc c st cpu).2 = a ∧ FreeLists c (kalloc c st cpu).1 (Ls.set i L)) ∧
    ((kalloc c st cpu).2 = 0 ↔ ∀ i, i < c.NCPU → Ls.getD i [] = []) ∧
    ((kalloc c st cpu).2 = 0 → (kalloc c st cpu).1 = st) := by
  have hspec := find_freelist_spec c st cpu
  have hz := head_zero_iff c st Ls hfl
  refine ⟨?_, ?_, ?_, ?_⟩
  · intro a L hL
    have hne : st.freelist.getD cpu 0 ≠ 0 := by
      intro h0
      rw [(hz cpu hcpu).mp h0] at hL; cases hL
    cases hf : find_freelist c st cpu with
    | none => rw [hf] at hspec; exact absurd hspec.1 hne
    | some j =>
      rw [hf] at hspec
      have hj : j = cpu := hspec.2.1 hne
      subst hj
      have := kalloc_take c st j Ls j a L hfl hnd hf hcpu hL
      exact ⟨this.1, this.2.1⟩
  · intro hempty i a L hi hL hmin
    have h0 : st.freelist.getD cpu 0 = 0 := (hz cpu hcpu).mpr hempty
    have hnei : st.freelist.getD i 0 ≠ 0 := by
      intro h
      rw [(hz i hi).mp h] at hL; cases hL
    cases hf : find_freelist c st cpu with
    | none => rw [hf] at hspec; exact absurd (hspec.2 i hi) hnei
    | some j =>
      rw [hf] at hspec
      obtain ⟨hjne, _, hj2⟩ := hspec
      obtain ⟨hjlt, hjmin⟩ := hj2 h0
      have hji : j = i := by
        rcases Nat.lt_trichotomy j i with h | h | h
        · exact absurd ((hz j hjlt).mpr (hmin j h)) hjne
        · exact h
        · exact absurd (hjmin i h) hnei
      subst hji
      have := kalloc_take c st cpu Ls j a L hfl hnd hf hi hL
      exact ⟨this.1, this.2.1⟩
  · constructor
    · intro hr i hi
      cases hf : find_freelist c st cpu with
      | none =>
        rw [hf] at hspec
        exact (hz i hi).mp (hspec.2 i hi)
      | some j =>
        rw [hf] at hspec
        have hjne := hspec.1
        have : (kalloc c st cpu).2 = st.freelist.getD j 0 := by
          simp only [kalloc, hf]
          split <;> rfl
        rw [this] at hr
        exact absurd hr hjne
    · intro hall
      cases hf : find_freelist c st cpu with
      | none => simp only [kalloc, hf]
      | some j =>
        rw [hf] at hspec
        obtain ⟨hjne, hj1, hj2⟩ := hspec
        have hjlt : j < c.NCPU := by
          by_cases h0 : st.freelist.getD cpu 0 = 0
          · exact (hj2 h0).1
          · rw [hj1 h0]; exact hcpu
        exact absurd ((hz j hjlt).mpr (hall j hjlt)) hjne
  · intro hr
    cases hf : find_freelist c st cpu with
    | none => simp only [kalloc, hf]
    | some j =>
      have : (kalloc c st cpu).2 = st.freelist.getD j 0 := by
        simp only [kalloc, hf]
        split <;> rfl
      rw [this] at hr
      simp only [kalloc, hf, hr, ne_eq, not_true_eq_false, if_false]

/-! ## `kinit` -/

theorem freePages_spec (c : Config) (e fs : Nat) (hp : 0 < c.PGSIZE) (hfs : fs ≠ 0) :
    ∀ (fuel p : Nat) (st : State) (Ls : List (List Nat)),
      FreeLists c st Ls → st.freelist_size = fs → e ≤ fuel + p →
      (∀ q ∈ pagesFrom c e fuel p, PageOk c fs q ∧ q ∉ Ls.flatten) →
      ∃ st1 Ls1, freePages c e fuel p st = Effect.ok st1 ∧ FreeLists c st1 Ls1 ∧
        st1.freelist_size = fs ∧ (Ls1.flatten).Perm (pagesFrom c e fuel p ++ Ls.flatten) := by
  intro fuel
  induction fuel with
  | zero =>
    intro p st Ls hfl hsz hfuel _
    have hcond : ¬ (p + c.PGSIZE ≤ e) := by omega
    exact ⟨st, Ls, by simp only [freePages, hcond, if_false], hfl, hsz, by simp [pagesFrom]⟩
  | succ f ih =>
    intro p st Ls hfl hsz hfuel hpages
    by_cases hcond : p + c.PGSIZE ≤ e
    · have hpf : pagesFrom c e (f + 1) p = p :: pagesFrom c e f (p + c.PGSIZE) := by
        simp only [pagesFrom, hcond, if_true]
      rw [hpf] at hpages ⊢
      obtain ⟨hpok, hpnot⟩ := hpages p (List.mem_cons_self _ _)
      obtain ⟨st1, hk, hsz1, hfl1⟩ := kfree_spec c st p Ls hfl (by rw [hsz]; exact hpok)
        (by rw [hsz]; exact hfs) hpnot
      have hnlt : kmem_number c st p < Ls.length := by
        rw [hfl.2.1]
        have := hpok.home
        rw [← hsz] at this
        exact this
      have hperm1 := flatten_set_cons_perm p Ls (kmem_number c st p) hnlt
      have hnd := pagesFrom_nodup c hp e (f + 1) p
      rw [hpf] at hnd
      have hpn : p ∉ pagesFrom c e f (p + c.PGSIZE) := (List.nodup_cons.mp hnd).1
      obtain ⟨st2, Ls2, hfp, hfl2, hsz2, hperm2⟩ := ih (p + c.PGSIZE) st1 _ hfl1
        (by rw [hsz1, hsz]) (by omega)
        (by
          intro q hq
          obtain ⟨hqok, hqnot⟩ := hpages q (List.mem_cons_of_mem _ hq)
          refine ⟨hqok, ?_⟩
          intro hmem
          have := hperm1.subset hmem
          rcases List.mem_cons.mp this with h | h
          · exact hpn (h ▸ hq)
          · exact hqnot h)
      refine ⟨st2, Ls2, ?_, hfl2, hsz2, ?_⟩
      · simp only [freePages, hcond, if_true, hk, hfp]
      · refine hperm2.trans ?_
        refine (List.Perm.append_left _ hperm1).trans ?_
        exact List.perm_middle
    · have hpf : pagesFrom c e (f + 1) p = [] := by
        simp only [pagesFrom, hcond, if_false]
      rw [hpf]
      exact ⟨st, Ls, by simp only [freePages, hcond, if_false], hfl, hsz, by simp⟩

theorem getD_replicate_nil (n i : Nat) : (List.replicate n ([] : List Nat)).getD i [] = [] := by
  simp only [List.getD_eq_getElem?_getD, List.getElem?_replicate]
  split <;> rfl

theorem getD_replicate_zero (n i : Nat) : (List.replicate n (0 : Nat)).getD i 0 = 0 := by
  simp only [List.getD_eq_getElem?_getD, List.getElem?_replicate]
  split <;> rfl

theorem flatten_replicate_nil (n : Nat) : (List.replicate n ([] : List Nat)).flatten = [] := by
  induction n with
  | zero => rfl
  | succ n ih => simp [List.replicate_succ, ih]

theorem kinit_spec (c : Config) (hc : c.ok) (mem : Nat → Nat) :
    ∃ st Ls, kinit c mem = Effect.ok st ∧ FreeLists c st Ls ∧
      st.freelist_size = (pages c).length / c.NCPU + 1 ∧ (Ls.flatten).Perm (pages c) := by
  have hp : 0 < c.PGSIZE := hc.2.1
  have hcount : countPages c c.PHYSTOP c.PHYSTOP (PGROUNDUP c c.kend) 0 = (pages c).length := by
    rw [pagesFrom_length]; simp [pages]
  have hfl0 : FreeLists c
      { freelist := List.replicate c.NCPU 0, next := mem,
        freelist_size := (pages c).length / c.NCPU + 1 }
      (List.replicate c.NCPU []) := by
    refine ⟨by simp, by simp, ?_⟩
    intro i _
    simp only [getD_replicate_nil, getD_replicate_zero]
    rfl
  obtain ⟨st1, Ls1, hfp, hfl1, hsz1, hperm⟩ := freePages_spec c c.PHYSTOP
    ((pages c).length / c.NCPU + 1) hp (Nat.succ_ne_zero _) c.PHYSTOP (PGROUNDUP c c.kend)
    _ (List.replicate c.NCPU []) hfl0 rfl (by omega)
    (by
      intro q hq
      exact ⟨pages_ok c hc q hq, by rw [flatten_replicate_nil]; simp⟩)
  refine ⟨st1, Ls1, ?_, hfl1, hsz1, ?_⟩
  · simp only [kinit, freerange, hcount]
    exact hfp
  · rw [flatten_replicate_nil, List.append_nil] at hperm
    exact hperm

/-! ## The conservation invariant -/

theorem pages_nodup (c : Config) (hc : c.ok) : (pages c).Nodup :=
  pagesFrom_nodup c hc.2.1 _ _ _

theorem inv_reach (c : Config) (hc : c.ok) (mem : Nat → Nat) (st : State) (A : List Nat)
    (h : Reach c mem st A) : Inv c st A := by
  induction h with
  | init st0 hk =>
    obtain ⟨st1, Ls, hk1, hfl, hsz, hperm⟩ := kinit_spec c hc mem
    rw [hk] at hk1
    cases hk1
    exact ⟨hsz, Ls, hfl, by simpa using hperm⟩
  | alloc st0 A0 cpu _ hcpu hr ih =>
    obtain ⟨hsz, Ls, hfl, hperm⟩ := ih
    have hnd : (Ls.flatten ++ A0).Nodup := hperm.nodup_iff.mpr (pages_nodup c hc)
    have hndL : Ls.flatten.Nodup := (List.nodup_append.mp hnd).1
    have hspec := find_freelist_spec c st0 cpu
    cases hf : find_freelist c st0 cpu with
    | none =>
      have : (kalloc c st0 cpu).2 = 0 := by simp only [kalloc, hf]
      exact absurd this hr
    | some i =>
      rw [hf] at hspec
      obtain ⟨hine, hi1, hi2⟩ := hspec
      have hilt : i < c.NCPU := by
        by_cases h0 : st0.freelist.getD cpu 0 = 0
        · exact (hi2 h0).1
        · rw [hi1 h0]; exact hcpu
      have hLne : Ls.getD i [] ≠ [] := fun h => hine ((head_zero_iff c st0 Ls hfl i hilt).mpr h)
      obtain ⟨a, L, hL⟩ := List.exists_cons_of_ne_nil hLne
      obtain ⟨hres, hfl1, hsz1⟩ := kalloc_take c st0 cpu Ls i a L hfl hndL hf hilt hL
      refine ⟨by rw [hsz1, hsz], Ls.set i L, hfl1, ?_⟩
      rw [hres]
      have hp1 := flatten_set_tail_perm a L Ls i (by rw [hfl.2.1]; exact hilt) hL
      refine List.Perm.trans ?_ hperm
      refine List.Perm.trans List.perm_middle ?_
      exact List.Perm.append_right A0 hp1.symm
  | exhausted st0 A0 cpu _ hcpu hr ih =>
    have hsame : (kalloc c st0 cpu).1 = st0 := by
      cases hf : find_freelist c st0 cpu with
      | none => simp only [kalloc, hf]
      | some j =>
        have : (kalloc c st0 cpu).2 = st0.freelist.getD j 0 := by
          simp only [kalloc, hf]
          split <;> rfl
        rw [this] at hr
        simp only [kalloc, hf, hr, ne_eq, not_true_eq_false, if_false]
    rw [hsame]; exact ih
  | free st0 st1 A0 pa _ hpa hk ih =>
    obtain ⟨hsz, Ls, hfl, hperm⟩ := ih
    have hnd : (Ls.flatten ++ A0).Nodup := hperm.nodup_iff.mpr (pages_nodup c hc)
    have hpa_pages : pa ∈ pages c := hperm.subset (List.mem_append_right _ hpa)
    have hnot : pa ∉ Ls.flatten := fun h => (List.nodup_append.mp hnd).2.2 h hpa
    obtain ⟨st2, hk2, hsz2, hfl2⟩ := kfree_spec c st0 pa Ls hfl
      (by rw [hsz]; exact pages_ok c hc pa hpa_pages) (by rw [hsz]; exact Nat.succ_ne_zero _) hnot
    rw [hk] at hk2
    cases hk2
    refine ⟨by rw [hsz2, hsz], _, hfl2, ?_⟩
    have hnlt : kmem_number c st0 pa < Ls.length := by
      rw [hfl.2.1]
      have := (pages_ok c hc pa hpa_pages).home
      rw [← hsz] at this
      exact this
    have hp1 := flatten_set_cons_perm pa Ls (kmem_number c st0 pa) hnlt
    refine List.Perm.trans ?_ hperm
    refine (List.Perm.append_right _ hp1).trans ?_
    refine List.Perm.trans ?_ (List.Perm.append_left Ls.flatten (List.perm_cons_erase hpa).symm)
    exact List.perm_middle.symm
  | write st0 A0 pa v _ hpa ih =>
    obtain ⟨hsz, Ls, hfl, hperm⟩ := ih
    have hnd : (Ls.flatten ++ A0).Nodup := hperm.nodup_iff.mpr (pages_nodup c hc)
    have hnot : pa ∉ Ls.flatten := fun h => (List.nodup_append.mp hnd).2.2 h hpa
    refine ⟨hsz, Ls, ⟨hfl.1, hfl.2.1, ?_⟩, hperm⟩
    intro i hi
    refine Chain_frame st0.next _ _ _ ?_ (hfl.2.2 i hi)
    intro a ha
    have : a ≠ pa := fun h => hnot (h ▸ mem_flatten_of_getD Ls i a ha)
    simp [setNext, this]

/-- `kinit` completes on every usable configuration, whatever the memory holds. -/
theorem kinit_ok (c : Config) (hc : c.ok) (mem : Nat → Nat) :
    ∃ st, kinit c mem = Effect.ok st := by
  obtain ⟨st, _, h, _⟩ := kinit_spec c hc mem
  exact ⟨st, h⟩

/-- A page that is currently allocated can always be freed: `kfree` neither
panics nor faults on it. -/
theorem kfree_allocated_ok (c : Config) (hc : c.ok) (mem : Nat → Nat) (st : State)
    (A : List Nat) (h : Reach c mem st A) (pa : Nat) (hpa : pa ∈ A) :
    ∃ st1, kfree c st pa = Effect.ok st1 := by
  obtain ⟨hsz, Ls, hfl, hperm⟩ := inv_reach c hc mem st A h
  have hnd : (Ls.flatten ++ A).Nodup := hperm.nodup_iff.mpr (pages_nodup c hc)
  have hpa_pages : pa ∈ pages c := hperm.subset (List.mem_append_right _ hpa)
  have hnot : pa ∉ Ls.flatten := fun h => (List.nodup_append.mp hnd).2.2 h hpa
  obtain ⟨st2, hk2, _, _⟩ := kfree_spec c st pa Ls hfl
    (by rw [hsz]; exact pages_ok c hc pa hpa_pages) (by rw [hsz]; exact Nat.succ_ne_zero _) hnot
  exact ⟨st2, hk2⟩

/-- C4. Allocator conservation.  In every state reached from `kinit` by calls of
`kalloc` and by calls of `kfree` on currently allocated pages, with `A` the
pages currently allocated: the free lists are proper lists `Ls`; every page of
the managed range is either allocated and in no free list, or not allocated
and exactly once in exactly one free list; and the number of pages in the free
lists plus the number of allocated pages is the total page count. -/
theorem conservation (c : Config) (hc : c.ok) (mem : Nat → Nat) (st : State) (A : List Nat)
    (h : Reach c mem st A) :
    ∃ Ls, FreeLists c st Ls ∧ (Ls.flatten ++ A).Perm (pages c) ∧
      (∀ p ∈ pages c,
        (p ∈ A ∧ ∀ i, p ∉ Ls.getD i []) ∨
        (p ∉ A ∧ ∃ i, i < c.NCPU ∧ (Ls.getD i []).count p = 1 ∧
          ∀ j, j ≠ i → p ∉ Ls.getD j [])) ∧
      Ls.flatten.length + A.length = (pages c).length := by
  obtain ⟨_, Ls, hfl, hperm⟩ := inv_reach c hc mem st A h
  have hnd : (Ls.flatten ++ A).Nodup := hperm.nodup_iff.mpr (pages_nodup c hc)
  obtain ⟨hndL, _, hdis⟩ := List.nodup_append.mp hnd
  refine ⟨Ls, hfl, hperm, ?_, ?_⟩
  · intro p hp
    have hmem : p ∈ Ls.flatten ++ A := hperm.symm.subset hp
    rcases List.mem_append.mp hmem with hL | hA
    · right
      refine ⟨fun hA => hdis hL hA, ?_⟩
      obtain ⟨L, hLmem, hpL⟩ := List.mem_flatten.mp hL
      obtain ⟨i, hi, hLi⟩ := List.mem_iff_getElem.mp hLmem
      have hget : Ls.getD i [] = L := by rw [List.getD_eq_getElem _ _ hi, hLi]
      have hpi : p ∈ Ls.getD i [] := by rw [hget]; exact hpL
      refine ⟨i, by rw [← hfl.2.1]; exact hi, ?_, ?_⟩
      · exact List.count_eq_one_of_mem (nodup_getD Ls i hndL) hpi
      · intro j hj
        exact disjoint_lists Ls i j p hndL (Ne.symm hj) hpi
    · left
      refine ⟨hA, ?_⟩
      intro i hi
      exact hdis (mem_flatten_of_getD Ls i p hi) hA
  · have := hperm.length_eq
    simpa using this

/-- C6. `kfree(pa)` panics exactly when `pa` is not a multiple of `PGSIZE`, or
lies below `end`, or is at or above `PHYSTOP`; the state at the panic is the
state before the call, so no free list has changed.  The address one byte below
the first managed page, and the address one byte below `end`, are rejected. -/
theorem kfree_panic_iff (c : Config) (hc : c.ok) (st : State) (pa : Nat) :
    ((∃ msg st1, kfree c st pa = Effect.panic msg st1) ↔
      (pa % c.PGSIZE ≠ 0 ∨ pa < c.kend ∨ pa ≥ c.PHYSTOP)) ∧
    (∀ msg st1, kfree c st pa = Effect.panic msg st1 → msg = "kfree" ∧ st1 = st) ∧
    kfree c st (PGROUNDUP c c.kend - 1) = Effect.panic "kfree" st ∧
    kfree c st (c.kend - 1) = Effect.panic "kfree" st := by
  have hpanic : ∀ q, (q % c.PGSIZE ≠ 0 ∨ q < c.kend ∨ q ≥ c.PHYSTOP) →
      kfree c st q = Effect.panic "kfree" st := by
    intro q hq
    simp only [kfree, hq, if_true]
  have hnot : ∀ q msg st1, ¬ (q % c.PGSIZE ≠ 0 ∨ q < c.kend ∨ q ≥ c.PHYSTOP) →
      kfree c st q ≠ Effect.panic msg st1 := by
    intro q msg st1 hq hk
    simp only [kfree, hq, if_false] at hk
    split at hk
    · cases hk
    · split at hk <;> cases hk
  obtain ⟨_, hp, hk, _, _⟩ := hc
  refine ⟨⟨?_, fun h => ⟨"kfree", st, hpanic pa h⟩⟩, ?_, ?_, ?_⟩
  · rintro ⟨msg, st1, hk1⟩
    by_contra hcon
    exact hnot pa msg st1 hcon hk1
  · intro msg st1 hk1
    by_cases hcon : pa % c.PGSIZE ≠ 0 ∨ pa < c.kend ∨ pa ≥ c.PHYSTOP
    · rw [hpanic pa hcon] at hk1
      cases hk1
      exact ⟨rfl, rfl⟩
    · exact absurd hk1 (hnot pa msg st1 hcon)
  · apply hpanic
    have hge := PGROUNDUP_ge c hp c.kend
    have hmod := PGROUNDUP_mod c c.kend
    by_cases h1 : c.PGSIZE = 1
    · right; left
      have hlt := PGROUNDUP_lt c hp c.kend
      omega
    · left
      obtain ⟨m, hm⟩ := Nat.dvd_of_mod_eq_zero hmod
      have hm0 : 0 < m := by
        rcases Nat.eq_zero_or_pos m with h | h
        · rw [h] at hm; omega
        · exact h
      have : PGROUNDUP c c.kend - 1 = (c.PGSIZE - 1) + c.PGSIZE * (m - 1) := by
        rw [hm]
        have : c.PGSIZE * m = c.PGSIZE * (m - 1) + c.PGSIZE := by
          rw [← Nat.mul_succ]
          congr 1
          omega
        omega
      rw [this, Nat.add_mul_mod_self_left, Nat.mod_eq_of_lt (by omega)]
      omega
  · apply hpanic
    right; left
    omega

theorem smallConfig_ok : smallConfig.ok :=
  ⟨by decide, by decide, by decide, by decide, by decide⟩

/-- Witness for C4: on the small machine, after `kinit` and one `kalloc` on
CPU 1 (which returns page 0x6000), three pages are free and one is allocated. -/
theorem conservation_witness :
    Reach smallConfig (fun _ => 0) smallAfterOne [0x6000] ∧
    ∃ Ls, FreeLists smallConfig smallAfterOne Ls ∧
      (Ls.flatten ++ [0x6000]).Perm (pages smallConfig) ∧
      Ls.flatten.length + [0x6000].length = (pages smallConfig).length :=
  ⟨Reach.alloc smallInit [] 1 (Reach.init smallInit rfl) (by decide) (by decide),
   let ⟨Ls, hfl, hperm, _, hlen⟩ := conservation smallConfig smallConfig_ok (fun _ => 0)
     smallAfterOne [0x6000]
     (Reach.alloc smallInit [] 1 (Reach.init smallInit rfl) (by decide) (by decide))
   ⟨Ls, hfl, hperm, hlen⟩⟩

/-- Witness for C5: on the small machine CPU 1 finds its own list empty after
its first allocation and takes the head page 0x5000 of CPU 0's list, which
keeps its other two pages. -/
theorem kalloc_spec_witness :
    (kalloc smallConfig smallAfterOne 1).2 = 0x5000 ∧
    FreeLists smallConfig (kalloc smallConfig smallAfterOne 1).1 [[0x4000, 0x3000], []] :=
  (kalloc_spec smallConfig smallAfterOne 1 [[0x5000, 0x4000, 0x3000], []]
    ⟨by decide, by decide, by decide⟩ (by decide) (by decide)).2.1 rfl 0 0x5000 [0x4000, 0x3000]
    (by decide) rfl (fun j hj => absurd hj (Nat.not_lt_zero j))

/-- Witness for C6: on the small machine the first managed page is 0x3000, and
freeing 0x2fff panics without touching the state. -/
theorem kfree_panic_iff_witness :
    PGROUNDUP smallConfig smallConfig.kend - 1 = 0x2fff ∧
    kfree smallConfig smallInit 0x2fff = Effect.panic "kfree" smallInit :=
  ⟨by decide, (kfree_panic_iff smallConfig smallConfig_ok smallInit 0).2.2.1⟩

/-! ## Home partitions -/

theorem pagesFrom_index (c : Config) (e : Nat) :
    ∀ fuel p k, k < (pagesFrom c e fuel p).length →
      p + k * c.PGSIZE ∈ pagesFrom c e fuel p := by
  intro fuel
  induction fuel with
  | zero => intro p k hk; simp [pagesFrom] at hk
  | succ f ih =>
    intro p k hk
    simp only [pagesFrom] at hk ⊢
    split
    · rename_i hle
      rw [if_pos hle] at hk
      cases k with
      | zero => simp
      | succ k =>
        refine List.mem_cons_of_mem _ ?_
        have := ih (p + c.PGSIZE) k (by simpa using hk)
        rw [Nat.succ_mul]
        have e1 : p + (k * c.PGSIZE + c.PGSIZE) = p + c.PGSIZE + k * c.PGSIZE := by omega
        rw [e1]; exact this
    · rename_i hle
      rw [if_neg hle] at hk
      simp at hk

theorem pagesFrom_complete (c : Config) (e : Nat) (hp : 0 < c.PGSIZE) :
    ∀ fuel p k, e ≤ fuel + p → p + k * c.PGSIZE + c.PGSIZE ≤ e →
      k < (pagesFrom c e fuel p).length := by
  intro fuel
  induction fuel with
  | zero =>
    intro p k hf hk
    have : 0 ≤ k * c.PGSIZE := Nat.zero_le _
    omega
  | succ f ih =>
    intro p k hf hk
    have hle : p + c.PGSIZE ≤ e := by
      have : 0 ≤ k * c.PGSIZE := Nat.zero_le _
      omega
    simp only [pagesFrom, hle, if_true, List.length_cons]
    cases k with
    | zero => omega
    | succ k =>
      have := ih (p + c.PGSIZE) k (by omega) (by rw [Nat.succ_mul] at hk; omega)
      omega

/-- The page index of an address of the managed range. -/
theorem page_index (c : Config) (hp : 0 < c.PGSIZE) (k : Nat) :
    (PGROUNDUP c c.kend + k * c.PGSIZE - c.kend) / c.PGSIZE = k := by
  have hge := PGROUNDUP_ge c hp c.kend
  have hlt := PGROUNDUP_lt c hp c.kend
  have : PGROUNDUP c c.kend + k * c.PGSIZE - c.kend
      = (PGROUNDUP c c.kend - c.kend) + k * c.PGSIZE := by omega
  rw [this, Nat.add_mul_div_right _ _ hp, Nat.div_eq_of_lt (by omega)]
  simp

/-- A page-aligned address at or above `end` is some page `k` counted from the
first managed page. -/
theorem aligned_above_end (c : Config) (hp : 0 < c.PGSIZE) (pa : Nat)
    (hal : pa % c.PGSIZE = 0) (hge : c.kend ≤ pa) :
    ∃ k, pa = PGROUNDUP c c.kend + k * c.PGSIZE := by
  have hlt := PGROUNDUP_lt c hp c.kend
  have hmod := PGROUNDUP_mod c c.kend
  obtain ⟨m, hm⟩ := Nat.dvd_of_mod_eq_zero hmod
  obtain ⟨n, hn⟩ := Nat.dvd_of_mod_eq_zero hal
  have hmn : m ≤ n := by
    by_contra hcon
    have h1 : n + 1 ≤ m := by omega
    have h2 : c.PGSIZE * (n + 1) ≤ c.PGSIZE * m := Nat.mul_le_mul_left _ h1
    rw [Nat.mul_succ] at h2
    omega
  refine ⟨n - m, ?_⟩
  rw [hm, hn, Nat.mul_comm (n - m), ← Nat.mul_add]
  congr 1
  omega

/-- The home index of every validated address is inside `kmems` once
`freelist_size` has the value computed by `freerange`. -/
theorem kmem_number_lt (c : Config) (hc : c.ok) (st : State)
    (hfs : st.freelist_size = (pages c).length / c.NCPU + 1) (pa : Nat)
    (hal : pa % c.PGSIZE = 0) (hge : c.kend ≤ pa) (hlt : pa < c.PHYSTOP) :
    kmem_number c st pa < c.NCPU := by
  obtain ⟨hn, hp, hk, _, _⟩ := hc
  obtain ⟨k, hpa⟩ := aligned_above_end c hp pa hal hge
  have hidx : (pa - c.kend) / c.PGSIZE = k := by rw [hpa]; exact page_index c hp k
  have hkN : k ≤ (pages c).length := by
    cases k with
    | zero => exact Nat.zero_le _
    | succ k =>
      have := pagesFrom_complete c c.PHYSTOP hp c.PHYSTOP (PGROUNDUP c c.kend) k (by omega)
        (by rw [Nat.succ_mul] at hpa; omega)
      exact this
  unfold kmem_number
  rw [hidx, hfs]
  apply (Nat.div_lt_iff_lt_mul (Nat.succ_pos _)).mpr
  have := lt_mul_div_succ (pages c).length c.NCPU hn
  calc k ≤ (pages c).length := hkN
    _ < c.NCPU * ((pages c).length / c.NCPU + 1) := this

/-- C19. The partition index is always in range.  With `freelist_size` equal to
`page_num / NCPU + 1` for the `page_num` counted by `freerange`, `freelist_size`
is at least 1 and every page-aligned address `pa` with `end <= pa < PHYSTOP`
has `kmem_number(pa) < NCPU`; `kfree(pa)` then neither divides by zero nor
indexes outside `kmems`: it completes. -/
theorem kmem_number_in_range (c : Config) (hc : c.ok) (st : State)
    (hfs : st.freelist_size =
      countPages c c.PHYSTOP c.PHYSTOP (PGROUNDUP c c.kend) 0 / c.NCPU + 1)
    (hlen : st.freelist.length = c.NCPU) (pa : Nat)
    (hal : pa % c.PGSIZE = 0) (hge : c.kend ≤ pa) (hlt : pa < c.PHYSTOP) :
    1 ≤ st.freelist_size ∧ kmem_number c st pa < c.NCPU ∧
      ∃ st1, kfree c st pa = Effect.ok st1 := by
  have hcount : countPages c c.PHYSTOP c.PHYSTOP (PGROUNDUP c c.kend) 0 = (pages c).length := by
    rw [pagesFrom_length]; simp [pages]
  rw [hcount] at hfs
  have hn := kmem_number_lt c hc st hfs pa hal hge hlt
  have hfs1 : 1 ≤ st.freelist_size := by rw [hfs]; exact Nat.le_add_left 1 _
  refine ⟨hfs1, hn, ?_⟩
  have hcond : ¬ (pa % c.PGSIZE ≠ 0 ∨ pa < c.kend ∨ pa ≥ c.PHYSTOP) := by
    intro h
    rcases h with h | h | h
    · exact h hal
    · omega
    · omega
  have hfs0 : st.freelist_size ≠ 0 := by omega
  have hget : st.freelist[kmem_number c st pa]? =
      some (st.freelist.getD (kmem_number c st pa) 0) := by
    rw [List.getD_eq_getElem _ _ (by omega), List.getElem?_eq_getElem (by omega)]
  refine ⟨{ freelist := st.freelist.set (kmem_number c st pa) pa,
            next := setNext (memset st.next pa 1) pa (st.freelist.getD (kmem_number c st pa) 0),
            freelist_size := st.freelist_size }, ?_⟩
  simp only [kfree, hcond, if_false, hfs0, hget]

/-- Witness for C19: on the small machine the last page 0x6000 has home index 1
and `kfree` of it completes. -/
theorem kmem_number_in_range_witness :
    1 ≤ smallAfterOne.freelist_size ∧ kmem_number smallConfig smallAfterOne 0x6000 < 2 ∧
      ∃ st1, kfree smallConfig smallAfterOne 0x6000 = Effect.ok st1 :=
  kmem_number_in_range smallConfig smallConfig_ok smallAfterOne (by decide) (by decide)
    0x6000 (by decide) (by decide) (by decide)

/-! ## The home-list invariant -/

theorem FreeLists_unique (c : Config) (st : State) (Ls Ms : List (List Nat))
    (h1 : FreeLists c st Ls) (h2 : FreeLists c st Ms) : Ls = Ms := by
  apply List.ext_getElem?
  intro i
  by_cases hi : i < c.NCPU
  · have e := Chain_unique st.next _ _ _ (h1.2.2 i hi) (h2.2.2 i hi)
    rw [List.getD_eq_getElem _ _ (by rw [h1.2.1]; exact hi),
      List.getD_eq_getElem _ _ (by rw [h2.2.1]; exact hi)] at e
    rw [List.getElem?_eq_getElem (by rw [h1.2.1]; exact hi),
      List.getElem?_eq_getElem (by rw [h2.2.1]; exact hi), e]
  · rw [List.getElem?_eq_none (by rw [h1.2.1]; omega),
      List.getElem?_eq_none (by rw [h2.2.1]; omega)]

theorem homed_cons (c : Config) (fs : Nat) (Ls : List (List Nat)) (n pa : Nat)
    (h : Homed c fs Ls) (hn : n < Ls.length) (hpa : (pa - c.kend) / c.PGSIZE / fs = n) :
    Homed c fs (Ls.set n (pa :: Ls.getD n [])) := by
  intro i p hp
  rw [getD_set _ _ _ _ hn] at hp
  by_cases hin : i = n
  · rw [if_pos hin] at hp
    rcases List.mem_cons.mp hp with e | hp2
    · rw [e, hin]; exact hpa
    · rw [hin]; exact h n p hp2
  · rw [if_neg hin] at hp
    exact h i p hp

theorem homed_tail (c : Config) (fs : Nat) (Ls : List (List Nat)) (n a : Nat) (L : List Nat)
    (h : Homed c fs Ls) (hn : n < Ls.length) (hL : Ls.getD n [] = a :: L) :
    Homed c fs (Ls.set n L) := by
  intro i p hp
  rw [getD_set _ _ _ _ hn] at hp
  by_cases hin : i = n
  · rw [if_pos hin] at hp
    rw [hin]
    exact h n p (by rw [hL]; exact List.mem_cons_of_mem _ hp)
  · rw [if_neg hin] at hp
    exact h i p hp

theorem freePages_home (c : Config) (e fs : Nat) (hp : 0 < c.PGSIZE) (hfs : fs ≠ 0) :
    ∀ (fuel p : Nat) (st : State) (Ls : List (List Nat)),
      FreeLists c st Ls → st.freelist_size = fs → Homed c fs Ls →
      (∀ q ∈ pagesFrom c e fuel p, PageOk c fs q ∧ q ∉ Ls.flatten) →
      ∀ st1 Ls1, freePages c e fuel p st = Effect.ok st1 → FreeLists c st1 Ls1 →
        Homed c fs Ls1 := by
  intro fuel
  induction fuel with
  | zero =>
    intro p st Ls hfl hsz hhome _ st1 Ls1 hfp hfl1
    simp only [freePages] at hfp
    split at hfp
    · cases hfp
    · cases hfp
      rw [← FreeLists_unique c st Ls Ls1 hfl hfl1]; exact hhome
  | succ f ih =>
    intro p st Ls hfl hsz hhome hpages st1 Ls1 hfp hfl1
    by_cases hcond : p + c.PGSIZE ≤ e
    · have hpf : pagesFrom c e (f + 1) p = p :: pagesFrom c e f (p + c.PGSIZE) := by
        simp only [pagesFrom, hcond, if_true]
      rw [hpf] at hpages
      obtain ⟨hpok, hpnot⟩ := hpages p (List.mem_cons_self _ _)
      obtain ⟨st2, hk, hsz2, hfl2⟩ := kfree_spec c st p Ls hfl (by rw [hsz]; exact hpok)
        (by rw [hsz]; exact hfs) hpnot
      have hnlt : kmem_number c st p < Ls.length := by
        rw [hfl.2.1]
        have := hpok.home
        rw [← hsz] at this
        exact this
      have hperm1 := flatten_set_cons_perm p Ls (kmem_number c st p) hnlt
      have hnd := pagesFrom_nodup c hp e (f + 1) p
      rw [hpf] at hnd
      have hpn : p ∉ pagesFrom c e f (p + c.PGSIZE) := (List.nodup_cons.mp hnd).1
      simp only [freePages, hcond, if_true, hk] at hfp
      refine ih (p + c.PGSIZE) st2 _ hfl2 (by rw [hsz2, hsz])
        (homed_cons c fs Ls _ p hhome hnlt (by unfold kmem_number; rw [hsz])) ?_ st1 Ls1 hfp hfl1
      intro q hq
      obtain ⟨hqok, hqnot⟩ := hpages q (List.mem_cons_of_mem _ hq)
      refine ⟨hqok, ?_⟩
      intro hmem
      have := hperm1.subset hmem
      rcases List.mem_cons.mp this with h | h
      · exact hpn (h ▸ hq)
      · exact hqnot h
    · simp only [freePages, hcond, if_false] at hfp
      cases hfp
      rw [← FreeLists_unique c st Ls Ls1 hfl hfl1]; exact hhome

theorem kinit_home (c : Config) (hc : c.ok) (mem : Nat → Nat) (st : State)
    (Ls : List (List Nat)) (hk : kinit c mem = Effect.ok st) (hfl : FreeLists c st Ls) :
    Homed c ((pages c).length / c.NCPU + 1) Ls := by
  have hp : 0 < c.PGSIZE := hc.2.1
  have hcount : countPages c c.PHYSTOP c.PHYSTOP (PGROUNDUP c c.kend) 0 = (pages c).length := by
    rw [pagesFrom_length]; simp [pages]
  have hfl0 : FreeLists c
      { freelist := List.replicate c.NCPU 0, next := mem,
        freelist_size := (pages c).length / c.NCPU + 1 }
      (List.replicate c.NCPU []) := by
    refine ⟨by simp, by simp, ?_⟩
    intro i _
    simp only [getD_replicate_nil, getD_replicate_zero]
    rfl
  simp only [kinit, freerange, hcount] at hk
  refine freePages_home c c.PHYSTOP ((pages c).length / c.NCPU + 1) hp (Nat.succ_ne_zero _)
    c.PHYSTOP (PGROUNDUP c c.kend) _ (List.replicate c.NCPU []) hfl0 rfl ?_ ?_ st Ls hk hfl
  · intro i p hp
    rw [getD_replicate_nil] at hp
    cases hp
  · intro q hq
    exact ⟨pages_ok c hc q hq, by rw [flatten_replicate_nil]; simp⟩

/-- A `kalloc` that returns the null pointer leaves the state as it is. -/
theorem kalloc_null_state (c : Config) (st : State) (cpu : Nat)
    (hr : (kalloc c st cpu).2 = 0) : (kalloc c st cpu).1 = st := by
  cases hf : find_freelist c st cpu with
  | none => simp only [kalloc, hf]
  | some j =>
    have : (kalloc c st cpu).2 = st.freelist.getD j 0 := by
      simp only [kalloc, hf]
      split <;> rfl
    rw [this] at hr
    simp only [kalloc, hf, hr, ne_eq, not_true_eq_false, if_false]

/-- A `kalloc` that returns a page takes the head of one free list `i` and
leaves every list as it was apart from that. -/
theorem kalloc_removes (c : Config) (st : State) (cpu : Nat) (Ls : List (List Nat))
    (hfl : FreeLists c st Ls) (hnd : Ls.flatten.Nodup) (hcpu : cpu < c.NCPU)
    (hr : (kalloc c st cpu).2 ≠ 0) :
    ∃ i L, i < c.NCPU ∧ Ls.getD i [] = (kalloc c st cpu).2 :: L ∧
      FreeLists c (kalloc c st cpu).1 (Ls.set i L) ∧
      (kalloc c st cpu).1.freelist_size = st.freelist_size := by
  have hspec := find_freelist_spec c st cpu
  cases hf : find_freelist c st cpu with
  | none =>
    have : (kalloc c st cpu).2 = 0 := by simp only [kalloc, hf]
    exact absurd this hr
  | some i =>
    rw [hf] at hspec
    obtain ⟨hine, hi1, hi2⟩ := hspec
    have hilt : i < c.NCPU := by
      by_cases h0 : st.freelist.getD cpu 0 = 0
      · exact (hi2 h0).1
      · rw [hi1 h0]; exact hcpu
    have hLne : Ls.getD i [] ≠ [] := fun h => hine ((head_zero_iff c st Ls hfl i hilt).mpr h)
    obtain ⟨a, L, hL⟩ := List.exists_cons_of_ne_nil hLne
    obtain ⟨hres, hfl1, hsz1⟩ := kalloc_take c st cpu Ls i a L hfl hnd hf hilt hL
    exact ⟨i, L, hilt, by rw [hres]; exact hL, hfl1, hsz1⟩

theorem home_reach (c : Config) (hc : c.ok) (mem : Nat → Nat) (st : State) (A : List Nat)
    (h : Reach c mem st A) :
    ∀ Ls, FreeLists c st Ls → Homed c st.freelist_size Ls := by
  induction h with
  | init st0 hk =>
    intro Ls hfl
    obtain ⟨st1, _, hk1, _, hsz, _⟩ := kinit_spec c hc mem
    rw [hk] at hk1
    cases hk1
    rw [hsz]
    exact kinit_home c hc mem st0 Ls hk hfl
  | alloc st0 A0 cpu hre hcpu hr ih =>
    intro Ls1 hfl1
    obtain ⟨hsz, Ls, hfl, hperm⟩ := inv_reach c hc mem st0 A0 hre
    have hnd : (Ls.flatten ++ A0).Nodup := hperm.nodup_iff.mpr (pages_nodup c hc)
    have hndL : Ls.flatten.Nodup := (List.nodup_append.mp hnd).1
    obtain ⟨i, L, hi, hL, hfl2, hsz2⟩ := kalloc_removes c st0 cpu Ls hfl hndL hcpu hr
    rw [FreeLists_unique c _ Ls1 _ hfl1 hfl2, hsz2]
    exact homed_tail c _ Ls i _ L (ih Ls hfl) (by rw [hfl.2.1]; exact hi) hL
  | exhausted st0 A0 cpu _ hcpu hr ih =>
    rw [kalloc_null_state c st0 cpu hr]; exact ih
  | free st0 st1 A0 pa hre hpa hk ih =>
    intro Ls1 hfl1
    obtain ⟨hsz, Ls, hfl, hperm⟩ := inv_reach c hc mem st0 A0 hre
    have hnd : (Ls.flatten ++ A0).Nodup := hperm.nodup_iff.mpr (pages_nodup c hc)
    have hpa_pages : pa ∈ pages c := hperm.subset (List.mem_append_right _ hpa)
    have hnot : pa ∉ Ls.flatten := fun h => (List.nodup_append.mp hnd).2.2 h hpa
    obtain ⟨st2, hk2, hsz2, hfl2⟩ := kfree_spec c st0 pa Ls hfl
      (by rw [hsz]; exact pages_ok c hc pa hpa_pages) (by rw [hsz]; exact Nat.succ_ne_zero _) hnot
    rw [hk] at hk2
    cases hk2
    have hnlt : kmem_number c st0 pa < Ls.length := by
      rw [hfl.2.1]
      have := (pages_ok c hc pa hpa_pages).home
      rw [← hsz] at this
      exact this
    rw [FreeLists_unique c _ Ls1 _ hfl1 hfl2, hsz2]
    exact homed_cons c _ Ls _ pa (ih Ls hfl) hnlt rfl
  | write st0 A0 pa v hre hpa ih =>
    intro Ls1 hfl1
    obtain ⟨hsz, Ls, hfl, hperm⟩ := inv_reach c hc mem st0 A0 hre
    have hnd : (Ls.flatten ++ A0).Nodup := hperm.nodup_iff.mpr (pages_nodup c hc)
    have hnot : pa ∉ Ls.flatten := fun h => (List.nodup_append.mp hnd).2.2 h hpa
    have hfl2 : FreeLists c { st0 with next := setNext st0.next pa v } Ls := by
      refine ⟨hfl.1, hfl.2.1, ?_⟩
      intro i hi
      refine Chain_frame st0.next _ _ _ ?_ (hfl.2.2 i hi)
      intro a ha
      have : a ≠ pa := fun h => hnot (h ▸ mem_flatten_of_getD Ls i a ha)
      simp [setNext, this]
    rw [FreeLists_unique c _ Ls1 _ hfl1 hfl2]
    exact ih Ls hfl

/-- C20, as the code has it.  Home-list invariant.  In every state reached from
`kinit` by calls of `kalloc` (on any CPU, stealing included) and by calls of
`kfree` on pages that are allocated at the time of the call (handed out by
`kalloc` and not freed since), the free lists are proper lists `Ls` and every page found in free list
`i` has `kmem_number(page) = i`.  A further `kalloc` on any CPU only removes:
every free list after it is a sublist of the same list before it, so no page
moves into a list other than its home. -/
theorem home_list_invariant (c : Config) (hc : c.ok) (mem : Nat → Nat) (st : State)
    (A : List Nat) (h : Reach c mem st A) :
    ∃ Ls, FreeLists c st Ls ∧
      (∀ i p, p ∈ Ls.getD i [] → kmem_number c st p = i) ∧
      ∀ cpu, cpu < c.NCPU → ∃ Ls1, FreeLists c (kalloc c st cpu).1 Ls1 ∧
        (∀ i, (Ls1.getD i []).Sublist (Ls.getD i [])) ∧
        ∀ i p, p ∈ Ls1.getD i [] → kmem_number c (kalloc c st cpu).1 p = i := by
  obtain ⟨hsz, Ls, hfl, hperm⟩ := inv_reach c hc mem st A h
  have hnd : (Ls.flatten ++ A).Nodup := hperm.nodup_iff.mpr (pages_nodup c hc)
  have hndL : Ls.flatten.Nodup := (List.nodup_append.mp hnd).1
  have hhome := home_reach c hc mem st A h Ls hfl
  refine ⟨Ls, hfl, hhome, ?_⟩
  intro cpu hcpu
  by_cases hr : (kalloc c st cpu).2 = 0
  · rw [kalloc_null_state c st cpu hr]
    exact ⟨Ls, hfl, fun i => List.Sublist.refl _, hhome⟩
  · obtain ⟨i, L, hi, hL, hfl2, hsz2⟩ := kalloc_removes c st cpu Ls hfl hndL hcpu hr
    have hlen : i < Ls.length := by rw [hfl.2.1]; exact hi
    refine ⟨Ls.set i L, hfl2, ?_, ?_⟩
    · intro j
      rw [getD_set _ _ _ _ hlen]
      by_cases hji : j = i
      · rw [if_pos hji, hji, hL]
        exact List.sublist_cons_self _ _
      · rw [if_neg hji]
    · have := homed_tail c _ Ls i _ L hhome hlen hL
      intro j p hp
      unfold kmem_number
      rw [hsz2]
      exact this j p hp

/-- Witness for C20: on the small machine, after CPU 1 has taken its only page
and then stolen page 0x5000 from CPU 0, the pages left in list 0 have home
index 0. -/
theorem home_list_invariant_witness :
    Reach smallConfig (fun _ => 0) (kalloc smallConfig smallAfterOne 1).1 [0x5000, 0x6000] ∧
    ∃ Ls, FreeLists smallConfig (kalloc smallConfig smallAfterOne 1).1 Ls ∧
      ∀ i p, p ∈ Ls.getD i [] → kmem_number smallConfig (kalloc smallConfig smallAfterOne 1).1 p = i :=
  ⟨Reach.alloc smallAfterOne [0x6000] 1
      (Reach.alloc smallInit [] 1 (Reach.init smallInit rfl) (by decide) (by decide))
      (by decide) (by decide),
   let ⟨Ls, hfl, hhome, _⟩ := home_list_invariant smallConfig smallConfig_ok (fun _ => 0)
     (kalloc smallConfig smallAfterOne 1).1 [0x5000, 0x6000]
     (Reach.alloc smallAfterOne [0x6000] 1
      (Reach.alloc smallInit [] 1 (Reach.init smallInit rfl) (by decide) (by decide))
      (by decide) (by decide))
   ⟨Ls, hfl, hhome⟩⟩

/-! ## The initial partition -/

theorem div_eq_iff_bounds (k fs i : Nat) (hfs : 0 < fs) :
    k / fs = i ↔ i * fs ≤ k ∧ k < (i + 1) * fs := by
  constructor
  · intro h
    refine ⟨(Nat.le_div_iff_mul_le hfs).mp (by omega), (Nat.div_lt_iff_lt_mul hfs).mp (by omega)⟩
  · rintro ⟨h1, h2⟩
    have a := (Nat.le_div_iff_mul_le hfs).mpr h1
    have b := (Nat.div_lt_iff_lt_mul hfs).mpr h2
    omega

/-- C11, as the code has it.  `kinit` completes; the partition size computed by
`freerange` is the total number of managed pages divided by the CPU count,
rounded down, plus one; and after `kinit` free list `i` holds, once each,
exactly the pages whose page index `k` within the managed range satisfies
`i*size <= k < (i+1)*size`. -/
theorem kinit_partition (c : Config) (hc : c.ok) (mem : Nat → Nat) :
    ∃ st Ls, kinit c mem = Effect.ok st ∧ FreeLists c st Ls ∧
      st.freelist_size = (pages c).length / c.NCPU + 1 ∧
      ∀ i, i < c.NCPU → (Ls.getD i []).Nodup ∧
        ∀ p, p ∈ Ls.getD i [] ↔
          ∃ k, k < (pages c).length ∧ p = PGROUNDUP c c.kend + k * c.PGSIZE ∧
            i * st.freelist_size ≤ k ∧ k < (i + 1) * st.freelist_size := by
  obtain ⟨st, Ls, hk, hfl, hsz, hperm⟩ := kinit_spec c hc mem
  have hp : 0 < c.PGSIZE := hc.2.1
  have hhome := kinit_home c hc mem st Ls hk hfl
  have hnd : Ls.flatten.Nodup := hperm.nodup_iff.mpr (pages_nodup c hc)
  have hfs : 0 < (pages c).length / c.NCPU + 1 := Nat.succ_pos _
  refine ⟨st, Ls, hk, hfl, hsz, ?_⟩
  intro i hi
  refine ⟨nodup_getD Ls i hnd, ?_⟩
  intro p
  rw [hsz]
  constructor
  · intro hmem
    have hpg : p ∈ pages c := hperm.subset (mem_flatten_of_getD Ls i p hmem)
    obtain ⟨k, hklt, hpk, _⟩ := mem_pagesFrom c c.PHYSTOP c.PHYSTOP (PGROUNDUP c c.kend) p hpg
    have hh := hhome i p hmem
    rw [hpk, page_index c hp k] at hh
    exact ⟨k, hklt, hpk, (div_eq_iff_bounds k _ i hfs).mp hh⟩
  · rintro ⟨k, hklt, hpk, hb1, hb2⟩
    have hpg : p ∈ pages c := by
      rw [hpk]
      exact pagesFrom_index c c.PHYSTOP c.PHYSTOP (PGROUNDUP c c.kend) k hklt
    obtain ⟨j, _, hj⟩ := (mem_flatten_iff_getD Ls p).mp (hperm.symm.subset hpg)
    have hh := hhome j p hj
    rw [hpk, page_index c hp k] at hh
    have hi2 := (div_eq_iff_bounds k _ i hfs).mpr ⟨hb1, hb2⟩
    have : j = i := by omega
    rw [← this]; exact hj

/-- Witness for the amended C11: the small machine, where the partition size is
3 and the two lists hold 3 pages and 1 page. -/
theorem kinit_partition_witness :
    (∃ st Ls, kinit smallConfig (fun _ => 0) = Effect.ok st ∧ FreeLists smallConfig st Ls ∧
      st.freelist_size = (pages smallConfig).length / smallConfig.NCPU + 1 ∧
      ∀ i, i < smallConfig.NCPU → (Ls.getD i []).Nodup ∧
        ∀ p, p ∈ Ls.getD i [] ↔
          ∃ k, k < (pages smallConfig).length ∧
            p = PGROUNDUP smallConfig smallConfig.kend + k * smallConfig.PGSIZE ∧
            i * st.freelist_size ≤ k ∧ k < (i + 1) * st.freelist_size) ∧
    (pages smallConfig).length / smallConfig.NCPU + 1 = 3 :=
  ⟨kinit_partition smallConfig smallConfig_ok (fun _ => 0), by decide⟩

/-- C11 as stated fails on the small machine: with 2 CPUs and 4 managed pages
`freerange` computes the partition size 3, not `ceil(4 / 2) = 2`, and after
`kinit` the two free lists hold 3 pages and 1 page, not 2 and 2. -/
theorem partition_size_not_ceil :
    smallConfig.NCPU = 2 ∧ pages smallConfig = [0x3000, 0x4000, 0x5000, 0x6000] ∧
    kinit smallConfig (fun _ => 0) = Effect.ok smallInit ∧
    smallInit.freelist_size = 3 ∧ specPartitionSize 4 2 = 2 ∧
    FreeLists smallConfig smallInit [[0x5000, 0x4000, 0x3000], [0x6000]] :=
  ⟨by decide, by decide, rfl, by decide, by decide, ⟨by decide, by decide, by decide⟩⟩

/-! ## `kfree` pushes on the home list -/

/-- C12, as the code has it.  In a state whose free lists are the proper lists
`Ls` and whose `freelist_size` is the value computed by `freerange`, `kfree(pa)`
of a valid page address (page-aligned, `end <= pa < PHYSTOP`) that is in no
free list at the time of the call completes; the list it pushes on has the index
`((pa - end) / PGSIZE) / freelist_size`, which is inside `kmems` and which no
CPU number enters; afterwards that list is `pa` followed by its previous
contents in their previous order, and every other free list and its head
pointer are unchanged. -/
theorem kfree_pushes_home (c : Config) (hc : c.ok) (st : State) (Ls : List (List Nat))
    (hfl : FreeLists c st Ls)
    (hfs : st.freelist_size = (pages c).length / c.NCPU + 1) (pa : Nat)
    (hal : pa % c.PGSIZE = 0) (hge : c.kend ≤ pa) (hlt : pa < c.PHYSTOP)
    (hnot : pa ∉ Ls.flatten) :
    ∃ st1 Ls1, kfree c st pa = Effect.ok st1 ∧ FreeLists c st1 Ls1 ∧
      kmem_number c st pa = (pa - c.kend) / c.PGSIZE / st.freelist_size ∧
      kmem_number c st pa < c.NCPU ∧
      st1.freelist.getD (kmem_number c st pa) 0 = pa ∧
      Ls1.getD (kmem_number c st pa) [] = pa :: Ls.getD (kmem_number c st pa) [] ∧
      ∀ j, j ≠ kmem_number c st pa →
        Ls1.getD j [] = Ls.getD j [] ∧ st1.freelist.getD j 0 = st.freelist.getD j 0 := by
  have hn := kmem_number_lt c hc st hfs pa hal hge hlt
  have hk0 : 0 < c.kend := hc.2.2.1
  have hok : PageOk c st.freelist_size pa := ⟨hal, hge, hlt, by omega, hn⟩
  have hfs0 : st.freelist_size ≠ 0 := by rw [hfs]; exact Nat.succ_ne_zero _
  obtain ⟨st1, hk, _, hfl1⟩ := kfree_spec c st pa Ls hfl hok hfs0 hnot
  have hlen : kmem_number c st pa < Ls.length := by rw [hfl.2.1]; exact hn
  have hflen : kmem_number c st pa < st.freelist.length := by rw [hfl.1]; exact hn
  have hget : st.freelist[kmem_number c st pa]? =
      some (st.freelist.getD (kmem_number c st pa) 0) := by
    rw [List.getD_eq_getElem _ _ hflen, List.getElem?_eq_getElem hflen]
  have hcond : ¬ (pa % c.PGSIZE ≠ 0 ∨ pa < c.kend ∨ pa ≥ c.PHYSTOP) := by
    intro h
    rcases h with h | h | h
    · exact h hal
    · omega
    · omega
  have hst1 : st1 = { st with
      freelist := st.freelist.set (kmem_number c st pa) pa
      next := setNext (memset st.next pa 1) pa (st.freelist.getD (kmem_number c st pa) 0) } := by
    have : kfree c st pa = Effect.ok { st with
      freelist := st.freelist.set (kmem_number c st pa) pa
      next := setNext (memset st.next pa 1) pa (st.freelist.getD (kmem_number c st pa) 0) } := by
      simp only [kfree, hcond, if_false, hfs0, hget]
    rw [hk] at this
    cases this
    rfl
  refine ⟨st1, _, hk, hfl1, rfl, hn, ?_, ?_, ?_⟩
  · rw [hst1]
    simp only
    rw [getD_set_nat _ _ _ _ hflen, if_pos rfl]
  · rw [getD_set _ _ _ _ hlen, if_pos rfl]
  · intro j hj
    refine ⟨?_, ?_⟩
    · rw [getD_set _ _ _ _ hlen, if_neg hj]
    · rw [hst1]
      simp only
      rw [getD_set_nat _ _ _ _ hflen, if_neg hj]

/-- Witness for C12: on the small machine, after CPU 1 has taken page 0x6000,
freeing 0x6000 puts it back on list 1 and leaves list 0 alone. -/
theorem kfree_pushes_home_witness :
    ∃ st1 Ls1, kfree smallConfig smallAfterOne 0x6000 = Effect.ok st1 ∧
      FreeLists smallConfig st1 Ls1 ∧
      kmem_number smallConfig smallAfterOne 0x6000 =
        (0x6000 - smallConfig.kend) / smallConfig.PGSIZE / smallAfterOne.freelist_size ∧
      kmem_number smallConfig smallAfterOne 0x6000 < smallConfig.NCPU ∧
      st1.freelist.getD (kmem_number smallConfig smallAfterOne 0x6000) 0 = 0x6000 ∧
      Ls1.getD (kmem_number smallConfig smallAfterOne 0x6000) [] =
        0x6000 :: [[0x5000, 0x4000, 0x3000], []].getD
          (kmem_number smallConfig smallAfterOne 0x6000) [] ∧
      ∀ j, j ≠ kmem_number smallConfig smallAfterOne 0x6000 →
        Ls1.getD j [] = [[0x5000, 0x4000, 0x3000], []].getD j [] ∧
        st1.freelist.getD j 0 = smallAfterOne.freelist.getD j 0 :=
  kfree_pushes_home smallConfig smallConfig_ok smallAfterOne [[0x5000, 0x4000, 0x3000], []]
    ⟨by decide, by decide, by decide⟩ (by decide) 0x6000 (by decide) (by decide) (by decide)
    (by decide)

/-! ## `kfree` of a page that is free already -/

theorem no_chain_of_self_loop (next : Nat → Nat) (p : Nat) (hp : p ≠ 0) (h : next p = p) :
    ∀ L, ¬ Chain next p L := by
  intro L
  induction L with
  | nil => intro hc; exact hp hc
  | cons a L ih =>
    intro hc
    obtain ⟨hpa, _, hrest⟩ := hc
    rw [← hpa, h] at hrest
    exact ih hrest

/-- C12 as stated fails on a valid address that is free already.  On the small
machine after `kinit`, list 0 is 0x5000, 0x4000, 0x3000.  The address 0x5000
passes the validation of `kfree` and its home index is 0.  `kfree(0x5000)`
completes and makes 0x5000 the head of list 0, but stores 0x5000 in its own
`next` word: list 0 is not 0x5000 followed by its previous contents, and
following `next` from its head never ends, so it is no list at all and the
pages 0x4000 and 0x3000 are lost. -/
theorem kfree_of_free_page_breaks_list :
    FreeLists smallConfig smallInit [[0x5000, 0x4000, 0x3000], [0x6000]] ∧
    0x5000 % smallConfig.PGSIZE = 0 ∧ smallConfig.kend ≤ 0x5000 ∧
    0x5000 < smallConfig.PHYSTOP ∧
    kmem_number smallConfig smallInit 0x5000 = 0 ∧
    kfree smallConfig smallInit 0x5000 = Effect.ok smallDoubleFree ∧
    smallDoubleFree.freelist.getD 0 0 = 0x5000 ∧ smallDoubleFree.next 0x5000 = 0x5000 ∧
    ¬ FreeLists smallConfig smallDoubleFree [[0x5000, 0x5000, 0x4000, 0x3000], [0x6000]] ∧
    ∀ L, ¬ Chain smallDoubleFree.next (smallDoubleFree.freelist.getD 0 0) L := by
  have hloop : ∀ L, ¬ Chain smallDoubleFree.next (smallDoubleFree.freelist.getD 0 0) L := by
    have h1 : smallDoubleFree.freelist.getD 0 0 = 0x5000 := by decide
    rw [h1]
    exact no_chain_of_self_loop smallDoubleFree.next 0x5000 (by decide) (by decide)
  refine ⟨⟨by decide, by decide, by decide⟩, by decide, by decide, by decide, by decide, rfl,
    by decide, by decide, ?_, hloop⟩
  intro hfl
  exact hloop _ (hfl.2.2 0 (by decide))

/-- C20 as stated fails when `kfree` is called on a valid address that is free
already.  On the small machine: `kinit`, then `kfree(0x5000)` (0x5000 passes the
validation and is the head of list 0), then two calls of `kalloc` on CPU 0.
Both calls return 0x5000, and the head of free list 0 is then
0x0505050505050505, the junk `kalloc` wrote into the page, whose home index is
not 0, also when cut to the 32 bits of the `int` that `kmem_number` returns. -/
theorem home_broken_after_double_free :
    kinit smallConfig (fun _ => 0) = Effect.ok smallInit ∧
    0x5000 % smallConfig.PGSIZE = 0 ∧ smallConfig.kend ≤ 0x5000 ∧
    0x5000 < smallConfig.PHYSTOP ∧
    kfree smallConfig smallInit 0x5000 = Effect.ok smallDoubleFree ∧
    (kalloc smallConfig smallDoubleFree 0).2 = 0x5000 ∧
    (kalloc smallConfig (kalloc smallConfig smallDoubleFree 0).1 0).2 = 0x5000 ∧
    smallAfterDoubleFree.freelist.getD 0 0 = 0x0505050505050505 ∧
    kmem_number smallConfig smallAfterDoubleFree 0x0505050505050505 ≠ 0 ∧
    kmem_number smallConfig smallAfterDoubleFree 0x0505050505050505 % 2 ^ 32 ≠ 0 :=
  ⟨rfl, by decide, by decide, by decide, rfl, by decide, by decide, by decide, by decide,
    by decide⟩

end Kalloc
